import Mathlib

/-!
Verification of the digit-level arbitrary-precision arithmetic engine of
bignum.h (bn::Unsigned, bn::Signed, bn::Rational), shallowly embedded in
Lean. Magnitudes are little-endian lists of 32-bit digits, exactly as the
Store buffer holds them; every operation below is a direct translation of
the corresponding C++ function, with the double-width (64-bit) intermediate
arithmetic written out as exact natural-number arithmetic modulo 2^32.
-/

namespace BN

/-- Digit width: the source instantiates digit_t = std::uint32_t. -/
def W : ℕ := 32

/-- The base 2^W of the positional representation (one more than the
largest digit). -/
def B : ℕ := 2 ^ 32

theorem B_pos : 0 < B := by norm_num [B]

theorem B_ge_two : 2 ≤ B := by norm_num [B]

/-- impl::addCarry — a + b + carry computed in the double-width type;
returns the low digit and the carry-out flag. -/
def addCarry (a d : ℕ) (c : Bool) : ℕ × Bool :=
  ((a + d + c.toNat) % B, decide (B ≤ a + d + c.toNat))

/-- impl::subBorrow — a - b - borrow computed in the wrapping double-width
type; returns the low digit and the borrow-out flag (high half non-zero). -/
def subBorrow (a d : ℕ) (br : Bool) : ℕ × Bool :=
  ((B + a - (d + br.toNat)) % B, decide (a < d + br.toNat))

/-- impl::multiplyAdd — a*b + carry in the double-width type; returns the
low digit and the new carry (the high half). -/
def multiplyAdd (a d c : ℕ) : ℕ × ℕ :=
  ((a * d + c) % B, (a * d + c) / B)

/-- impl::multiplyAdd2 — a*b + c + carry in the double-width type; returns
the low digit and the new carry (the high half). -/
def multiplyAdd2 (a d e c : ℕ) : ℕ × ℕ :=
  ((a * d + e + c) % B, (a * d + e + c) / B)

/-- impl::divideRemainder — ((remainder·B + a) / b, (remainder·B + a) % b);
the quotient is truncated to a digit by the cast in the source. -/
def divideRemainder (a d r : ℕ) : ℕ × ℕ :=
  (((r * B + a) / d) % B, (r * B + a) % d)

theorem addCarry_val (a d : ℕ) (c : Bool) (ha : a < B) (hd : d < B) :
    ((addCarry a d c).1 : ℕ) + B * (addCarry a d c).2.toNat = a + d + c.toNat ∧
      (addCarry a d c).1 < B := by
  have hc : c.toNat ≤ 1 := Bool.toNat_le c
  unfold addCarry
  refine ⟨?_, Nat.mod_lt _ B_pos⟩
  rcases Nat.lt_or_ge (a + d + c.toNat) B with h | h
  · simp [Nat.mod_eq_of_lt h, Nat.not_le.mpr h]
  · have h2 : a + d + c.toNat < 2 * B := by omega
    have hm : (a + d + c.toNat) % B = a + d + c.toNat - B := by
      rw [Nat.mod_eq_sub_mod h, Nat.mod_eq_of_lt (by omega)]
    rw [hm, decide_eq_true h]
    simp only [Bool.toNat_true]
    omega

theorem subBorrow_val (a d : ℕ) (br : Bool) (ha : a < B) (hd : d < B) :
    ((subBorrow a d br).1 : ℕ) = B * (subBorrow a d br).2.toNat + a - (d + br.toNat) ∧
      (subBorrow a d br).1 < B := by
  have hbr : br.toNat ≤ 1 := Bool.toNat_le br
  unfold subBorrow
  refine ⟨?_, Nat.mod_lt _ B_pos⟩
  rcases Nat.lt_or_ge a (d + br.toNat) with h | h
  · rw [decide_eq_true h]
    simp only [Bool.toNat_true]
    rw [Nat.mod_eq_of_lt (by omega)]
    omega
  · rw [decide_eq_false (Nat.not_lt.mpr h)]
    simp only [Bool.toNat_false]
    have he : B + a - (d + br.toNat) = B + (a - (d + br.toNat)) := by omega
    rw [he, Nat.add_mod_left, Nat.mod_eq_of_lt (by omega)]
    omega

theorem subBorrow_cases (a d : ℕ) (br : Bool) :
    B * (subBorrow a d br).2.toNat = 0 ∧ (subBorrow a d br).2.toNat = 0 ∧
        d + br.toNat ≤ a ∨
      B * (subBorrow a d br).2.toNat = B ∧ (subBorrow a d br).2.toNat = 1 ∧
        a < d + br.toNat := by
  unfold subBorrow
  rcases Nat.lt_or_ge a (d + br.toNat) with h | h
  · right
    rw [decide_eq_true h]
    simp [h]
  · left
    rw [decide_eq_false (Nat.not_lt.mpr h)]
    simp [h]

/-- The value of a little-endian digit list (index 0 = least significant),
`Σ digit[i]·B^i` — the abstraction function for the Store contents of an
Unsigned. -/
def val : List ℕ → ℕ
  | [] => 0
  | d :: l => d + B * val l

@[simp] theorem val_nil : val [] = 0 := rfl

@[simp] theorem val_cons (d : ℕ) (l : List ℕ) : val (d :: l) = d + B * val l := rfl

theorem val_append (l m : List ℕ) : val (l ++ m) = val l + B ^ l.length * val m := by
  induction l with
  | nil => simp
  | cons d l ih => simp [ih, pow_succ] ; ring

theorem val_lt (l : List ℕ) (h : ∀ d ∈ l, d < B) : val l < B ^ l.length := by
  induction l with
  | nil => simp
  | cons d l ih =>
    have hd : d < B := h d (by simp)
    have hl : val l < B ^ l.length := ih (fun x hx => h x (by simp [hx]))
    simp only [val_cons, List.length_cons, pow_succ]
    calc d + B * val l < B * (1 + val l) := by
          rw [Nat.mul_add, Nat.mul_one] ; omega
      _ ≤ B * B ^ l.length := Nat.mul_le_mul_left _ (by omega)
      _ = B ^ l.length * B := Nat.mul_comm _ _

/-- The canonical-representation invariant of Unsigned: all digits below the
base and no leading (= most significant = last in the list) zero digit. -/
def Canon (l : List ℕ) : Prop := (∀ d ∈ l, d < B) ∧ l.getLast? ≠ some 0

instance (l : List ℕ) : Decidable (Canon l) :=
  decidable_of_iff ((∀ d ∈ l, d < B) ∧ l.getLast? ≠ some 0) Iff.rfl

theorem canon_nil : Canon [] := by constructor <;> simp

theorem Canon.digits_lt {l : List ℕ} (h : Canon l) : ∀ d ∈ l, d < B := h.1

theorem getLast?_concat (l : List ℕ) (d : ℕ) : (l ++ [d]).getLast? = some d := by
  simp [List.getLast?_append]

theorem Canon.tail {d : ℕ} {l : List ℕ} (h : Canon (d :: l)) : Canon l := by
  refine ⟨fun x hx => h.1 x (by simp [hx]), ?_⟩
  rcases l with _ | ⟨e, m⟩
  · simp
  · have := h.2
    simpa using this

/-- A canonical non-empty list has value at least `B^(len-1)` — the top digit
is non-zero. -/
theorem canon_le_val {l : List ℕ} (h : Canon l) (hne : l ≠ []) :
    B ^ (l.length - 1) ≤ val l := by
  rcases List.eq_nil_or_concat l with rfl | ⟨m, e, rfl⟩
  · exact absurd rfl hne
  · have he : e ≠ 0 := by
      intro h0
      exact h.2 (by rw [List.concat_eq_append, getLast?_concat, h0])
    rw [List.concat_eq_append, val_append]
    have hlen : (m ++ [e]).length - 1 = m.length := by simp
    rw [hlen]
    have : B ^ m.length ≤ B ^ m.length * val [e] := by
      have : 1 ≤ val [e] := by simp [val] ; omega
      exact Nat.le_mul_of_pos_right _ (by omega)
    omega

/-- Canonical digit lists are determined by their value. -/
theorem canon_val_inj {l m : List ℕ} (hl : Canon l) (hm : Canon m)
    (h : val l = val m) : l = m := by
  induction l generalizing m with
  | nil =>
    rcases m with _ | ⟨e, m⟩
    · rfl
    · exfalso
      have := canon_le_val hm (by simp)
      have hpos : 0 < B ^ ((e :: m).length - 1) := Nat.pos_pow_of_pos _ B_pos
      simp only [← h, val_nil] at this
      omega
  | cons d l ih =>
    rcases m with _ | ⟨e, m⟩
    · exfalso
      have := canon_le_val hl (by simp)
      have hpos : 0 < B ^ ((d :: l).length - 1) := Nat.pos_pow_of_pos _ B_pos
      simp only [h, val_nil] at this
      omega
    · have hd : d < B := hl.1 d (by simp)
      have he : e < B := hm.1 e (by simp)
      have hmod : d = e := by
        have h1 : val (d :: l) % B = d := by
          simp [Nat.add_mul_mod_self_left, Nat.mod_eq_of_lt hd]
        have h2 : val (e :: m) % B = e := by
          simp [Nat.add_mul_mod_self_left, Nat.mod_eq_of_lt he]
        rw [← h1, ← h2, h]
      subst hmod
      have htl : val l = val m := by
        simp only [val_cons] at h
        exact Nat.eq_of_mul_eq_mul_left B_pos (by omega)
      rw [ih hl.tail hm.tail htl]

/-- Unsigned::removeLeadingZeroDigits — decrease the size while the most
significant digit is zero. -/
def rlz (l : List ℕ) : List ℕ :=
  (List.dropWhile (fun d => decide (d = 0)) l.reverse).reverse

theorem rlz_concat_zero (l : List ℕ) : rlz (l ++ [0]) = rlz l := by
  simp [rlz, List.dropWhile]

theorem rlz_concat_ne {l : List ℕ} {d : ℕ} (hd : d ≠ 0) : rlz (l ++ [d]) = l ++ [d] := by
  simp [rlz, List.dropWhile, hd]

@[simp] theorem rlz_nil : rlz [] = [] := rfl

theorem rlz_val (l : List ℕ) : val (rlz l) = val l := by
  induction l using List.reverseRecOn with
  | nil => rfl
  | append_singleton m d ih =>
    rcases Nat.eq_zero_or_pos d with rfl | hd
    · rw [rlz_concat_zero, ih, val_append]
      simp
    · rw [rlz_concat_ne (by omega)]

theorem rlz_canon {l : List ℕ} (h : ∀ d ∈ l, d < B) : Canon (rlz l) := by
  induction l using List.reverseRecOn with
  | nil => exact canon_nil
  | append_singleton m d ih =>
    rcases Nat.eq_zero_or_pos d with rfl | hd
    · rw [rlz_concat_zero]
      exact ih (fun x hx => h x (by simp [hx]))
    · rw [rlz_concat_ne (by omega)]
      exact ⟨h, by simp [getLast?_concat] ; omega⟩

theorem rlz_eq_self {l : List ℕ} (h : Canon l) : rlz l = l := by
  rcases List.eq_nil_or_concat l with rfl | ⟨m, e, rfl⟩
  · rfl
  · have he : e ≠ 0 := by
      intro h0
      exact h.2 (by rw [List.concat_eq_append, getLast?_concat, h0])
    rw [List.concat_eq_append]
    exact rlz_concat_ne he

/-- One iteration of the binary-search loop in impl::countLeadingZeroes;
state is (mask, ret, val), all arithmetic wraps at 2^32. -/
def clzStep (i : ℕ) (s : ℕ × ℕ × ℕ) : ℕ × ℕ × ℕ :=
  let mask := s.1 * 2 ^ i % B
  if s.2.2 &&& mask = 0 then (mask, s.2.1 + i, s.2.2 * 2 ^ i % B)
  else (mask, s.2.1, s.2.2)

/-- impl::countLeadingZeroes for one digit: the loop over i = 16,8,4,2,1
unrolled, starting from the all-ones mask. -/
def clz32 (v : ℕ) : ℕ :=
  if v = 0 then 32
  else (clzStep 1 (clzStep 2 (clzStep 4 (clzStep 8 (clzStep 16 (B - 1, 0, v)))))).2.1

/-- One iteration of the binary-search loop in impl::countTrailingZeroes. -/
def ctzStep (i : ℕ) (s : ℕ × ℕ × ℕ) : ℕ × ℕ × ℕ :=
  let mask := s.1 >>> i
  if s.2.2 &&& mask = 0 then (mask, s.2.1 + i, s.2.2 >>> i)
  else (mask, s.2.1, s.2.2)

/-- impl::countTrailingZeroes for one digit. -/
def ctz32 (v : ℕ) : ℕ :=
  if v = 0 then 32
  else (ctzStep 1 (ctzStep 2 (ctzStep 4 (ctzStep 8 (ctzStep 16 (B - 1, 0, v)))))).2.1

theorem and_highmask {k x : ℕ} (hk : k ≤ 32) (hx : x < 2 ^ 32) :
    (x &&& (2 ^ 32 - 2 ^ k) = 0) ↔ x < 2 ^ k := by
  have hmask : 2 ^ 32 - 2 ^ k = (2 ^ (32 - k) - 1) * 2 ^ k := by
    rw [Nat.sub_one_mul, ← Nat.pow_add]
    have e : 32 - k + k = 32 := by omega
    rw [e]
  have hbit : ∀ j, (2 ^ 32 - 2 ^ k).testBit j = (decide (k ≤ j) && decide (j < 32)) := by
    intro j
    rw [hmask, ← Nat.shiftLeft_eq, Nat.testBit_shiftLeft, Nat.testBit_two_pow_sub_one]
    rcases Nat.lt_or_ge j k with hj | hj
    · simp [Nat.not_le.mpr hj, hj]
    · have : j - k < 32 - k ↔ j < 32 := by omega
      simp [hj, this]
  constructor
  · intro h
    apply Nat.lt_pow_two_of_testBit
    intro j hj
    rcases Nat.lt_or_ge j 32 with hj32 | hj32
    · have := congrArg (fun t => t.testBit j) h
      simp only [Nat.testBit_and, Nat.zero_testBit, hbit] at this
      simpa [hj, hj32] using this
    · exact Nat.testBit_lt_two_pow (Nat.lt_of_lt_of_le hx (Nat.pow_le_pow_right (by omega) hj32))
  · intro h
    apply Nat.eq_of_testBit_eq
    intro j
    simp only [Nat.testBit_and, Nat.zero_testBit, hbit]
    rcases Nat.lt_or_ge j k with hj | hj
    · simp [Nat.not_le.mpr hj]
    · have : x.testBit j = false :=
        Nat.testBit_lt_two_pow (Nat.lt_of_lt_of_le h (Nat.pow_le_pow_right (by omega) hj))
      simp [this]

theorem clzStep_spec (i : ℕ) {r v₀ : ℕ} (hi : 0 < i) (h2i : 2 * i ≤ 32)
    (hv0 : 0 < v₀ * 2 ^ r) (hvB : v₀ * 2 ^ r < 2 ^ 32)
    (hlow : 2 ^ (32 - 2 * i) ≤ v₀ * 2 ^ r) :
    ∃ r', clzStep i (2 ^ 32 - 2 ^ (32 - 2 * i), r, v₀ * 2 ^ r) =
        (2 ^ 32 - 2 ^ (32 - i), r', v₀ * 2 ^ r') ∧
      v₀ * 2 ^ r' < 2 ^ 32 ∧ 2 ^ (32 - i) ≤ v₀ * 2 ^ r' := by
  have hBeq : B = 2 ^ 32 := rfl
  have hei : (2:ℕ) ^ (32 - i) * 2 ^ i = 2 ^ 32 := by
    rw [← Nat.pow_add]
    have e : 32 - i + i = 32 := by omega
    rw [e]
  have hlow' : (2:ℕ) ^ (32 - i) = 2 ^ (32 - 2 * i) * 2 ^ i := by
    rw [← Nat.pow_add]
    have e : 32 - 2 * i + i = 32 - i := by omega
    rw [e]
  have hmask : (2 ^ 32 - 2 ^ (32 - 2 * i)) * 2 ^ i % B =
      2 ^ 32 - 2 ^ (32 - i) := by
    have h1 : (2 ^ 32 - 2 ^ (32 - 2 * i)) * 2 ^ i =
        (2 ^ i - 1) * 2 ^ 32 + (2 ^ 32 - 2 ^ (32 - i)) := by
      rw [Nat.sub_mul, Nat.sub_one_mul, ← Nat.pow_add, ← Nat.pow_add, ← Nat.pow_add]
      have e1 : 32 - 2 * i + i = 32 - i := by omega
      have e2 : i + 32 = 32 + i := Nat.add_comm _ _
      rw [e1, e2]
      have h32i : (2:ℕ) ^ (32 - i) ≤ 2 ^ 32 := Nat.pow_le_pow_right (by omega) (by omega)
      have h32 : (2:ℕ) ^ 32 ≤ 2 ^ (32 + i) := Nat.pow_le_pow_right (by omega) (by omega)
      omega
    rw [hBeq, h1, Nat.add_comm, Nat.add_mul_mod_self_right, Nat.mod_eq_of_lt]
    have hp : (0:ℕ) < 2 ^ (32 - i) := Nat.pos_pow_of_pos _ (by omega)
    have h32i : (2:ℕ) ^ (32 - i) ≤ 2 ^ 32 := Nat.pow_le_pow_right (by omega) (by omega)
    omega
  unfold clzStep
  simp only [hmask]
  rcases Nat.lt_or_ge (v₀ * 2 ^ r) (2 ^ (32 - i)) with hc | hc
  · have htest : v₀ * 2 ^ r &&& (2 ^ 32 - 2 ^ (32 - i)) = 0 :=
      (and_highmask (by omega) hvB).mpr hc
    have hnowrap : v₀ * 2 ^ r * 2 ^ i < 2 ^ 32 := by
      calc v₀ * 2 ^ r * 2 ^ i < 2 ^ (32 - i) * 2 ^ i :=
            Nat.mul_lt_mul_of_lt_of_le hc (Nat.le_refl _) (Nat.pos_pow_of_pos _ (by omega))
        _ = 2 ^ 32 := hei
    refine ⟨r + i, ?_, ?_, ?_⟩
    · rw [if_pos htest, hBeq, Nat.mod_eq_of_lt hnowrap, Nat.pow_add, ← Nat.mul_assoc]
    · rw [Nat.pow_add, ← Nat.mul_assoc] ; exact hnowrap
    · rw [Nat.pow_add, ← Nat.mul_assoc, hlow']
      exact Nat.mul_le_mul_right _ hlow
  · have htest : ¬(v₀ * 2 ^ r &&& (2 ^ 32 - 2 ^ (32 - i)) = 0) := by
      rw [and_highmask (by omega) hvB]
      omega
    refine ⟨r, ?_, hvB, hc⟩
    rw [if_neg htest]

/-- Correctness of impl::countLeadingZeroes on one digit: shifting the digit
left by the returned count lands it in the top half-open interval
[2^31, 2^32). -/
theorem clz32_spec {v : ℕ} (hv : 0 < v) (hvB : v < 2 ^ 32) :
    2 ^ 31 ≤ v * 2 ^ clz32 v ∧ v * 2 ^ clz32 v < 2 ^ 32 := by
  have hv0 : v = v * 2 ^ 0 := by simp
  have h1 : (2:ℕ) ^ (32 - 2 * 16) ≤ v * 2 ^ 0 := by simpa using hv
  obtain ⟨r1, e1, hB1, hl1⟩ := clzStep_spec 16 (by omega) (by omega) (by simpa using hv) (by simpa using hvB) h1
  obtain ⟨r2, e2, hB2, hl2⟩ := clzStep_spec 8 (by omega) (by omega) (by positivity) hB1 (by simpa using hl1)
  obtain ⟨r3, e3, hB3, hl3⟩ := clzStep_spec 4 (by omega) (by omega) (by positivity) hB2 (by simpa using hl2)
  obtain ⟨r4, e4, hB4, hl4⟩ := clzStep_spec 2 (by omega) (by omega) (by positivity) hB3 (by simpa using hl3)
  obtain ⟨r5, e5, hB5, hl5⟩ := clzStep_spec 1 (by omega) (by omega) (by positivity) hB4 (by simpa using hl4)
  have hstart : (B - 1, 0, v) = ((2:ℕ) ^ 32 - 2 ^ (32 - 2 * 16), 0, v * 2 ^ 0) := by
    simp [B]
  have : clz32 v = r5 := by
    unfold clz32
    rw [if_neg (by omega), hstart]
    norm_num at e1 e2 e3 e4 e5 ⊢
    rw [e1, e2, e3, e4, e5]
  rw [this]
  norm_num at hl5 hB5
  exact ⟨hl5, hB5⟩

theorem ctzStep_spec (i : ℕ) {r v₀ : ℕ} (hi : 0 < i)
    (hdvd : 2 ^ r ∣ v₀) (hne : v₀ / 2 ^ r % 2 ^ (2 * i) ≠ 0) :
    ∃ r', ctzStep i (2 ^ (2 * i) - 1, r, v₀ / 2 ^ r) =
        (2 ^ i - 1, r', v₀ / 2 ^ r') ∧ 2 ^ r' ∣ v₀ ∧ v₀ / 2 ^ r' % 2 ^ i ≠ 0 := by
  have hmask : (2 ^ (2 * i) - 1) >>> i = 2 ^ i - 1 := by
    rw [Nat.shiftRight_eq_div_pow]
    have h1 : 2 ^ (2 * i) - 1 = (2 ^ i - 1) + (2 ^ i - 1) * 2 ^ i := by
      rw [Nat.sub_one_mul, ← Nat.pow_add]
      have e : i + i = 2 * i := by omega
      rw [e]
      have hp : (0:ℕ) < 2 ^ i := Nat.pos_pow_of_pos _ (by omega)
      have hpp : (2:ℕ) ^ i ≤ 2 ^ (2 * i) := Nat.pow_le_pow_right (by omega) (by omega)
      omega
    rw [h1, Nat.add_mul_div_right _ _ (Nat.pos_pow_of_pos _ (by omega)),
      Nat.div_eq_of_lt (by have := Nat.pos_pow_of_pos i (show 0 < 2 by omega) ; omega)]
    omega
  unfold ctzStep
  simp only [hmask, Nat.and_pow_two_sub_one_eq_mod]
  rcases Nat.eq_zero_or_pos (v₀ / 2 ^ r % 2 ^ i) with hc | hc
  · have hdvd' : 2 ^ (r + i) ∣ v₀ := by
      obtain ⟨c, hcc⟩ := hdvd
      obtain ⟨e, hee⟩ := Nat.dvd_iff_mod_eq_zero.mpr hc
      refine ⟨e, ?_⟩
      have hc2 : c = v₀ / 2 ^ r := by
        rw [hcc, Nat.mul_div_cancel_left _ (Nat.pos_pow_of_pos _ (by omega))]
      rw [hcc, hc2, hee, Nat.pow_add]
      ring
    refine ⟨r + i, ?_, hdvd', ?_⟩
    · rw [if_pos hc, Nat.shiftRight_eq_div_pow, Nat.div_div_eq_div_mul, ← Nat.pow_add]
    · intro h0
      apply hne
      have h1 : v₀ / 2 ^ r = (v₀ / 2 ^ (r + i)) * 2 ^ i := by
        rw [Nat.pow_add, ← Nat.div_div_eq_div_mul]
        exact (Nat.div_mul_cancel ((Nat.dvd_div_iff_mul_dvd hdvd).mpr
          (by rw [← Nat.pow_add] ; exact hdvd'))).symm
      rw [h1]
      have h2 : v₀ / 2 ^ (r + i) = (v₀ / 2 ^ (r + i)) / 2 ^ i * 2 ^ i := by
        exact (Nat.div_mul_cancel (Nat.dvd_iff_mod_eq_zero.mpr h0)).symm
      rw [h2, Nat.mul_assoc, ← Nat.pow_add]
      have e : i + i = 2 * i := by omega
      rw [e]
      exact Nat.mul_mod_left _ _
  · refine ⟨r, ?_, hdvd, by omega⟩
    rw [if_neg (by omega)]

/-- Correctness of impl::countTrailingZeroes on one digit: the returned
count is the exact power of two dividing the digit. -/
theorem ctz32_spec {v : ℕ} (hv : 0 < v) (hvB : v < 2 ^ 32) :
    2 ^ ctz32 v ∣ v ∧ v / 2 ^ ctz32 v % 2 = 1 := by
  have h0 : v / 2 ^ 0 = v := by simp
  have hne : v / 2 ^ 0 % 2 ^ (2 * 16) ≠ 0 := by
    rw [h0, Nat.mod_eq_of_lt (by exact hvB)]
    omega
  obtain ⟨r1, e1, d1, n1⟩ := ctzStep_spec 16 (by omega) (Dvd.intro_left v (by simp)) hne
  obtain ⟨r2, e2, d2, n2⟩ := ctzStep_spec 8 (by omega) d1 (by simpa using n1)
  obtain ⟨r3, e3, d3, n3⟩ := ctzStep_spec 4 (by omega) d2 (by simpa using n2)
  obtain ⟨r4, e4, d4, n4⟩ := ctzStep_spec 2 (by omega) d3 (by simpa using n3)
  obtain ⟨r5, e5, d5, n5⟩ := ctzStep_spec 1 (by omega) d4 (by simpa using n4)
  have hstart : (B - 1, 0, v) = ((2:ℕ) ^ (2 * 16) - 1, 0, v / 2 ^ 0) := by
    rw [h0] ; rfl
  have hfin : ctz32 v = r5 := by
    unfold ctz32
    rw [if_neg (by omega), hstart]
    norm_num at e1 e2 e3 e4 e5 ⊢
    rw [e1, e2, e3, e4, e5]
  rw [hfin]
  refine ⟨d5, ?_⟩
  have := n5
  norm_num at this
  omega

/-- Build a canonical list by consing a bounded digit onto a canonical
list (the new digit must be non-zero if it becomes the top digit). -/
theorem canon_cons {d : ℕ} {l : List ℕ} (hl : Canon l) (hd : d < B)
    (hne : l = [] → d ≠ 0) : Canon (d :: l) := by
  refine ⟨?_, ?_⟩
  · intro x hx
    rw [List.mem_cons] at hx
    rcases hx with rfl | hx
    · exact hd
    · exact hl.1 x hx
  · rcases l with _ | ⟨e, m⟩
    · simpa using hne rfl
    · simpa using hl.2

/-- The carry-propagation tail of Unsigned addition (the loop that keeps
adding the carry into the remaining digits of the longer operand, copies the
rest, and appends a final 1 on carry-out). -/
def addTail : List ℕ → Bool → List ℕ
  | [], c => if c then [1] else []
  | a :: l, c => (addCarry a 0 c).1 :: addTail l (addCarry a 0 c).2

/-- The digit-wise part of operator+(const Unsigned&, const Unsigned&):
add pairs of digits with carry over the common length, then fall into the
carry tail of whichever operand is longer (the source orders the operands
by length first; the recursion handles both orders identically). -/
def addPair : List ℕ → List ℕ → Bool → List ℕ
  | u, [], c => addTail u c
  | [], v, c => addTail v c
  | a :: u, d :: v, c => (addCarry a d c).1 :: addPair u v (addCarry a d c).2

/-- operator+(const Unsigned&, const Unsigned&). -/
def addDigits (u v : List ℕ) : List ℕ := addPair u v false

theorem addTail_spec {l : List ℕ} (hl : Canon l) (c : Bool) :
    val (addTail l c) = val l + c.toNat ∧ Canon (addTail l c) ∧
      (l ≠ [] → addTail l c ≠ []) := by
  induction l generalizing c with
  | nil =>
    rcases c with _ | _
    · exact ⟨by simp [addTail], canon_nil, by simp⟩
    · refine ⟨by simp [addTail, val], ?_, by simp⟩
      exact ⟨by intro d hd ; simp [addTail] at hd ; simp [hd, B], by simp [addTail]⟩
  | cons a l ih =>
    have ha : a < B := hl.1 a (by simp)
    obtain ⟨hv, hb⟩ := addCarry_val a 0 c ha B_pos
    rcases l with _ | ⟨x, xs⟩
    · -- single digit
      rcases Nat.lt_or_ge (a + c.toNat) B with hlt | hge
      · have hc2 : (addCarry a 0 c).2 = false := by
          unfold addCarry
          simp only [Nat.add_zero]
          rw [decide_eq_false (by omega)]
        have hc1 : (addCarry a 0 c).1 = a + c.toNat := by
          unfold addCarry
          simp only [Nat.add_zero]
          rw [Nat.mod_eq_of_lt (by omega)]
        refine ⟨?_, ?_, by simp [addTail]⟩
        · simp [addTail, hc2, hc1, val]
        · simp only [addTail, hc2, hc1]
          refine canon_cons canon_nil (by omega) ?_
          intro _
          have : a ≠ 0 := by
            intro h0
            exact hl.2 (by simp [h0])
          omega
      · have hc2 : (addCarry a 0 c).2 = true := by
          unfold addCarry
          simp only [Nat.add_zero]
          rw [decide_eq_true (by omega)]
        refine ⟨?_, ?_, by simp [addTail]⟩
        · simp only [addTail, hc2, if_pos]
          simp only [hc2, Bool.toNat_true] at hv
          simp [val]
          omega
        · simp only [addTail, hc2, if_pos]
          refine canon_cons ?_ hb (by simp)
          exact ⟨by intro d hd ; simp at hd ; simp [hd, B], by simp⟩
    · -- longer list: the tail stays non-empty, recurse
      obtain ⟨ihv, ihc, ihne⟩ := ih hl.tail (addCarry a 0 c).2
      refine ⟨?_, ?_, by simp [addTail]⟩
      · have hstep : addTail (a :: x :: xs) c =
            (addCarry a 0 c).1 :: addTail (x :: xs) (addCarry a 0 c).2 := rfl
        rw [hstep, val_cons, ihv, Nat.mul_add]
        simp only [Nat.add_zero] at hv
        simp only [val_cons]
        omega
      · exact canon_cons ihc hb (fun hh => absurd hh (ihne (by simp)))

theorem addPair_spec {u v : List ℕ} (hu : Canon u) (hv : Canon v) (c : Bool) :
    val (addPair u v c) = val u + val v + c.toNat ∧ Canon (addPair u v c) ∧
      (u ≠ [] ∨ v ≠ [] → addPair u v c ≠ []) := by
  induction u generalizing v c with
  | nil =>
    rcases v with _ | ⟨d, v⟩
    · obtain ⟨h1, h2, h3⟩ := addTail_spec canon_nil c
      exact ⟨by simpa using h1, h2, by simp⟩
    · obtain ⟨h1, h2, h3⟩ := addTail_spec hv c
      exact ⟨by simpa using h1, h2, fun _ => h3 (by simp)⟩
  | cons a u ih =>
    rcases v with _ | ⟨d, v⟩
    · obtain ⟨h1, h2, h3⟩ := addTail_spec hu c
      exact ⟨by simpa using h1, h2, fun _ => h3 (by simp)⟩
    · have ha : a < B := hu.1 a (by simp)
      have hd : d < B := hv.1 d (by simp)
      obtain ⟨hcv, hcb⟩ := addCarry_val a d c ha hd
      obtain ⟨ihv, ihc, ihne⟩ := ih hu.tail hv.tail (addCarry a d c).2
      refine ⟨?_, ?_, by simp [addPair]⟩
      · have hstep : addPair (a :: u) (d :: v) c =
            (addCarry a d c).1 :: addPair u v (addCarry a d c).2 := rfl
        rw [hstep, val_cons, ihv, Nat.mul_add, Nat.mul_add]
        simp only [val_cons]
        omega
      · refine canon_cons ihc hcb ?_
        intro hh h0
        rcases u with _ | ⟨a2, u⟩
        · rcases v with _ | ⟨d2, v⟩
          · have hau : a ≠ 0 := by
              intro h
              exact hu.2 (by simp [h])
            have hcar : (addCarry a d c).2 = false := by
              rcases hb : (addCarry a d c).2 with _ | _
              · rfl
              · exfalso
                simp only [addPair, addTail, hb, if_pos] at hh
                exact absurd hh (by simp)
            simp only [hcar, Bool.toNat_false, Nat.mul_zero, Nat.zero_add] at hcv
            omega
          · exact absurd hh (ihne (by simp))
        · exact absurd hh (ihne (by simp))

/-- Summary correctness of Unsigned addition. -/
theorem addDigits_spec {u v : List ℕ} (hu : Canon u) (hv : Canon v) :
    val (addDigits u v) = val u + val v ∧ Canon (addDigits u v) := by
  obtain ⟨h1, h2, _⟩ := addPair_spec hu hv false
  exact ⟨by simpa using h1, h2⟩

/-- The borrow-propagation tail of Unsigned subtraction. -/
def subTail : List ℕ → Bool → List ℕ × Bool
  | [], br => ([], br)
  | a :: l, br =>
    ((subBorrow a 0 br).1 :: (subTail l (subBorrow a 0 br).2).1,
      (subTail l (subBorrow a 0 br).2).2)

/-- The digit-wise part of operator-(const Unsigned&, const Unsigned&);
only reached with the subtrahend at most as long as the minuend. -/
def subPair : List ℕ → List ℕ → Bool → List ℕ × Bool
  | u, [], br => subTail u br
  | [], _ :: _, br => ([], br)
  | a :: u, d :: v, br =>
    ((subBorrow a d br).1 :: (subPair u v (subBorrow a d br).2).1,
      (subPair u v (subBorrow a d br).2).2)

/-- operator-(const Unsigned&, const Unsigned&): none models the thrown
std::invalid_argument when the subtrahend exceeds the minuend. -/
def subDigits (u v : List ℕ) : Option (List ℕ) :=
  if v.length > u.length then none
  else
    if (subPair u v false).2 then none else some (rlz (subPair u v false).1)

theorem subPair_nil_right (u : List ℕ) (br : Bool) :
    subPair u [] br = subTail u br := by
  cases u <;> rfl

theorem subPair_spec {u v : List ℕ} (hu : ∀ d ∈ u, d < B) (hv : ∀ d ∈ v, d < B)
    (hlen : v.length ≤ u.length) (br : Bool) :
    val (subPair u v br).1 + val v + br.toNat =
        val u + B ^ u.length * (subPair u v br).2.toNat ∧
      (subPair u v br).1.length = u.length ∧
      (∀ d ∈ (subPair u v br).1, d < B) := by
  induction u generalizing v br with
  | nil =>
    have hv0 : v = [] := List.length_eq_zero.mp (by simpa using hlen)
    subst hv0
    simp [subPair, subTail]
  | cons a u ih =>
    have ha : a < B := hu a (by simp)
    rcases v with _ | ⟨d, v⟩
    · -- subtrahend exhausted: borrow tail
      rw [subPair_nil_right]
      obtain ⟨hbv, hbb⟩ := subBorrow_val a 0 br ha B_pos
      have ihe := ih (fun x hx => hu x (List.mem_cons_of_mem a hx))
        (fun x hx => absurd hx (List.not_mem_nil x)) (Nat.zero_le _)
        (subBorrow a 0 br).2
      rw [subPair_nil_right] at ihe
      obtain ⟨ih1, ih2, ih3⟩ := ihe
      simp only [val_nil, Nat.add_zero] at ih1
      have hstep1 : (subTail (a :: u) br).1 =
          (subBorrow a 0 br).1 :: (subTail u (subBorrow a 0 br).2).1 := rfl
      have hstep2 : (subTail (a :: u) br).2 = (subTail u (subBorrow a 0 br).2).2 := rfl
      refine ⟨?_, ?_, ?_⟩
      · rw [hstep1, hstep2]
        simp only [val_cons, List.length_cons, pow_succ, val_nil, Nat.add_zero]
        have hbr : br.toNat ≤ 1 := Bool.toNat_le br
        have hvl : val (subTail u (subBorrow a 0 br).2).1 < B ^ u.length := by
          have := val_lt _ ih3
          rwa [ih2] at this
        simp only [Nat.zero_add] at hbv
        have ih1b : B * val (subTail u (subBorrow a 0 br).2).1 +
            B * (subBorrow a 0 br).2.toNat =
            B * val u + B ^ u.length * B * (subTail u (subBorrow a 0 br).2).2.toNat := by
          have h := congrArg (fun t => B * t) ih1
          simp only [Nat.mul_add] at h
          have he : B * (B ^ u.length * (subTail u (subBorrow a 0 br).2).2.toNat) =
              B ^ u.length * B * (subTail u (subBorrow a 0 br).2).2.toNat := by ring
          rw [he] at h
          exact h
        have hY := subBorrow_cases a 0 br
        omega
      · rw [hstep1]
        simp only [List.length_cons, ih2]
      · intro x hx
        rw [hstep1, List.mem_cons] at hx
        rcases hx with rfl | hx
        · exact hbb
        · exact ih3 x hx
    · have hd : d < B := hv d (by simp)
      obtain ⟨hbv, hbb⟩ := subBorrow_val a d br ha hd
      have ihe := ih (fun x hx => hu x (List.mem_cons_of_mem a hx))
        (fun x hx => hv x (List.mem_cons_of_mem d hx))
        (by simpa using hlen) (subBorrow a d br).2
      obtain ⟨ih1, ih2, ih3⟩ := ihe
      have hstep1 : (subPair (a :: u) (d :: v) br).1 =
          (subBorrow a d br).1 :: (subPair u v (subBorrow a d br).2).1 := rfl
      have hstep2 : (subPair (a :: u) (d :: v) br).2 =
          (subPair u v (subBorrow a d br).2).2 := rfl
      refine ⟨?_, ?_, ?_⟩
      · rw [hstep1, hstep2]
        simp only [val_cons, List.length_cons, pow_succ]
        have hbr : br.toNat ≤ 1 := Bool.toNat_le br
        have hvl : val (subPair u v (subBorrow a d br).2).1 < B ^ u.length := by
          have := val_lt _ ih3
          rwa [ih2] at this
        have ih1b : B * val (subPair u v (subBorrow a d br).2).1 + B * val v +
            B * (subBorrow a d br).2.toNat =
            B * val u + B ^ u.length * B * (subPair u v (subBorrow a d br).2).2.toNat := by
          have h := congrArg (fun t => B * t) ih1
          simp only [Nat.mul_add] at h
          have he : B * (B ^ u.length * (subPair u v (subBorrow a d br).2).2.toNat) =
              B ^ u.length * B * (subPair u v (subBorrow a d br).2).2.toNat := by ring
          rw [he] at h
          exact h
        have hY := subBorrow_cases a d br
        omega
      · rw [hstep1]
        simp only [List.length_cons, ih2]
      · intro x hx
        rw [hstep1, List.mem_cons] at hx
        rcases hx with rfl | hx
        · exact hbb
        · exact ih3 x hx

/-- Summary correctness of Unsigned subtraction: defined exactly when the
subtrahend does not exceed the minuend, and then exact. -/
theorem subDigits_spec {u v : List ℕ} (hu : Canon u) (hv : Canon v) :
    (val v ≤ val u →
      ∃ r, subDigits u v = some r ∧ val r = val u - val v ∧ Canon r) ∧
    (val u < val v → subDigits u v = none) := by
  constructor
  · intro hle
    have hlen : v.length ≤ u.length := by
      by_contra hgt
      push_neg at hgt
      have h1 : val u < B ^ u.length := val_lt _ hu.1
      have h2 : B ^ (v.length - 1) ≤ val v :=
        canon_le_val hv (by intro h ; subst h ; simp at hgt)
      have h3 : B ^ u.length ≤ B ^ (v.length - 1) :=
        Nat.pow_le_pow_right (by have := B_pos ; omega) (by omega)
      omega
    obtain ⟨h1, h2, h3⟩ := subPair_spec hu.1 hv.1 hlen false
    have hout : (subPair u v false).2 = false := by
      rcases hb : (subPair u v false).2 with _ | _
      · rfl
      · exfalso
        rw [hb] at h1
        have hvl : val (subPair u v false).1 < B ^ u.length := by
          have := val_lt _ h3
          rwa [h2] at this
        have hul : val u < B ^ u.length := val_lt _ hu.1
        simp only [Bool.toNat_true, Bool.toNat_false, Nat.mul_one] at h1
        omega
    refine ⟨rlz (subPair u v false).1, ?_, ?_, rlz_canon h3⟩
    · unfold subDigits
      rw [if_neg (by omega)]
      simp only [hout]
      rfl
    · rw [rlz_val]
      rw [hout] at h1
      simp only [Bool.toNat_false, Nat.mul_zero, Nat.add_zero] at h1
      omega
  · intro hlt
    unfold subDigits
    rcases Nat.lt_or_ge u.length v.length with hlen | hlen
    · rw [if_pos (by omega)]
    · rw [if_neg (by omega)]
      obtain ⟨h1, h2, h3⟩ := subPair_spec hu.1 hv.1 hlen false
      have hout : (subPair u v false).2 = true := by
        rcases hb : (subPair u v false).2 with _ | _
        · exfalso
          rw [hb] at h1
          simp only [Bool.toNat_false, Nat.mul_zero, Nat.add_zero] at h1
          omega
        · rfl
      simp only [hout]
      rfl

/-- The top-down first-difference scan of operator<(const Unsigned&, const
Unsigned&), on most-significant-first digit lists. -/
def lexLt : List ℕ → List ℕ → Bool
  | a :: u, d :: v => if a = d then lexLt u v else decide (a < d)
  | _, _ => false

/-- operator<(const Unsigned&, const Unsigned&): shorter means smaller,
equal sizes compare from the most significant digit down. -/
def ltDigits (u v : List ℕ) : Bool :=
  if u.length ≠ v.length then decide (u.length < v.length)
  else lexLt u.reverse v.reverse

theorem lexLt_spec {u v : List ℕ} (hu : ∀ d ∈ u, d < B) (hv : ∀ d ∈ v, d < B)
    (hlen : u.length = v.length) :
    lexLt u v = decide (val u.reverse < val v.reverse) := by
  induction u generalizing v with
  | nil =>
    rcases v with _ | ⟨d, v⟩
    · simp [lexLt]
    · simp at hlen
  | cons a u ih =>
    rcases v with _ | ⟨d, v⟩
    · simp at hlen
    · have ha : a < B := hu a (by simp)
      have hd : d < B := hv d (by simp)
      have hul : val u.reverse < B ^ u.length := by
        have := val_lt u.reverse
          (by intro x hx ; exact hu x (List.mem_cons_of_mem a (by simpa using hx)))
        simpa using this
      have hvl : val v.reverse < B ^ v.length := by
        have := val_lt v.reverse
          (by intro x hx ; exact hv x (List.mem_cons_of_mem d (by simpa using hx)))
        simpa using this
      have hlen' : u.length = v.length := by simpa using hlen
      have hva : val (a :: u).reverse = val u.reverse + B ^ u.length * a := by
        simp [val_append, val]
      have hvd : val (d :: v).reverse = val v.reverse + B ^ v.length * d := by
        simp [val_append, val]
      rcases Nat.lt_trichotomy a d with hlt | heq | hgt
      · have : lexLt (a :: u) (d :: v) = true := by
          simp [lexLt, Nat.ne_of_lt hlt, hlt]
        rw [this, hva, hvd, hlen']
        have : val u.reverse + B ^ v.length * a < val v.reverse + B ^ v.length * d := by
          have h1 : B ^ v.length * a + B ^ v.length ≤ B ^ v.length * d :=
            by
              have : B ^ v.length * (a + 1) ≤ B ^ v.length * d :=
                Nat.mul_le_mul_left _ (by omega)
              rw [Nat.mul_add, Nat.mul_one] at this
              omega
          rw [hlen'] at hul
          omega
        simp [this]
      · subst heq
        have : lexLt (a :: u) (a :: v) = lexLt u v := by simp [lexLt]
        rw [this, ih (fun x hx => hu x (List.mem_cons_of_mem a hx)) (fun x hx => hv x (List.mem_cons_of_mem a hx)) hlen',
          hva, hvd, hlen']
        rcases Nat.lt_or_ge (val u.reverse) (val v.reverse) with hc | hc
        · rw [decide_eq_true hc, decide_eq_true (by omega)]
        · rw [decide_eq_false (by omega), decide_eq_false (by omega)]
      · have : lexLt (a :: u) (d :: v) = false := by
          simp [lexLt, Nat.ne_of_gt hgt]
          omega
        rw [this, hva, hvd, hlen']
        have : val v.reverse + B ^ v.length * d ≤ val u.reverse + B ^ v.length * a := by
          have h1 : B ^ v.length * d + B ^ v.length ≤ B ^ v.length * a := by
            have : B ^ v.length * (d + 1) ≤ B ^ v.length * a :=
              Nat.mul_le_mul_left _ (by omega)
            rw [Nat.mul_add, Nat.mul_one] at this
            omega
          omega
        rw [decide_eq_false (by omega)]

/-- Correctness of Unsigned comparison on canonical lists. -/
theorem ltDigits_spec {u v : List ℕ} (hu : Canon u) (hv : Canon v) :
    ltDigits u v = decide (val u < val v) := by
  unfold ltDigits
  rcases Nat.decEq u.length v.length with hne | heq
  · rw [if_pos hne]
    rcases Nat.lt_or_ge u.length v.length with hc | hc
    · have h1 : val u < B ^ u.length := val_lt _ hu.1
      have h2 : B ^ u.length ≤ val v := by
        have h3 := canon_le_val hv (by intro h ; subst h ; simp at hc)
        have h4 : B ^ u.length ≤ B ^ (v.length - 1) :=
          Nat.pow_le_pow_right (by have := B_pos ; omega) (by omega)
        omega
      rw [decide_eq_true hc, decide_eq_true (by omega)]
    · have hgt : v.length < u.length := by omega
      have h1 : val v < B ^ v.length := val_lt _ hv.1
      have h2 : B ^ v.length ≤ val u := by
        have h3 := canon_le_val hu (by intro h ; subst h ; simp at hgt)
        have h4 : B ^ v.length ≤ B ^ (u.length - 1) :=
          Nat.pow_le_pow_right (by have := B_pos ; omega) (by omega)
        omega
      rw [decide_eq_false (by omega), decide_eq_false (by omega)]
  · rw [if_neg (by omega)]
    have := lexLt_spec (u := u.reverse) (v := v.reverse)
      (by intro x hx ; exact hu.1 x (by simpa using hx))
      (by intro x hx ; exact hv.1 x (by simpa using hx))
      (by simpa using heq)
    simpa using this

/-- Unsigned::countLeadingZeroes — leading zero bits of the top digit
(0 for the empty magnitude). -/
def clzTop (l : List ℕ) : ℕ :=
  if l = [] then 0 else clz32 (l.getLastD 0)

/-- Unsigned::bits — bitsPerDigit·size - countLeadingZeroes(). -/
def bitsD (l : List ℕ) : ℕ := 32 * l.length - clzTop l

theorem val_replicate_zero (k : ℕ) : val (List.replicate k 0) = 0 := by
  induction k with
  | zero => rfl
  | succ k ih => simp [List.replicate_succ, ih]

theorem val_take_add_drop (l : List ℕ) (k : ℕ) :
    val l = val (l.take k) + B ^ (l.take k).length * val (l.drop k) := by
  conv_lhs => rw [← List.take_append_drop k l]
  rw [val_append]

theorem val_drop (l : List ℕ) (k : ℕ) (hk : k ≤ l.length) (h : ∀ d ∈ l, d < B) :
    val (l.drop k) = val l / B ^ k := by
  have h1 := val_take_add_drop l k
  have hlen : (l.take k).length = k := by
    simp [List.length_take]
    omega
  rw [hlen] at h1
  have h2 : val (l.take k) < B ^ k := by
    have := val_lt (l.take k) (fun d hd => h d (List.mem_of_mem_take hd))
    rwa [hlen] at this
  rw [h1, Nat.add_mul_div_left _ _ (Nat.pos_pow_of_pos _ B_pos),
    Nat.div_eq_of_lt h2, Nat.zero_add]

/-- Characterize the most significant digit from the value. -/
theorem canon_of_ge {l : List ℕ} (h : ∀ d ∈ l, d < B)
    (hge : B ^ (l.length - 1) ≤ val l) (hne : l ≠ []) : Canon l := by
  refine ⟨h, ?_⟩
  rcases List.eq_nil_or_concat l with rfl | ⟨m, e, rfl⟩
  · exact absurd rfl hne
  · rw [List.concat_eq_append, getLast?_concat]
    intro hc
    have he0 : e = 0 := by injection hc
    subst he0
    rw [List.concat_eq_append, val_append] at hge
    simp only [val_cons, val_nil] at hge
    have h2 : val m < B ^ m.length :=
      val_lt m (fun d hd => h d (by rw [List.concat_eq_append] ; exact List.mem_append_left _ hd))
    have h3 : (m.concat 0).length - 1 = m.length := by simp
    rw [List.concat_eq_append] at h3
    rw [h3] at hge
    omega

/-- The value of a canonical list determines its bit length:
`2^(bits-1) ≤ val < 2^bits` for non-zero values. -/
theorem bitsD_spec {l : List ℕ} (h : Canon l) (hne : l ≠ []) :
    2 ^ (bitsD l - 1) ≤ val l ∧ val l < 2 ^ bitsD l ∧ clzTop l ≤ 31 := by
  obtain ⟨m, e, rfl⟩ := (List.eq_nil_or_concat l).resolve_left hne
  rw [List.concat_eq_append] at *
  have he : e ≠ 0 := by
    intro h0
    exact h.2 (by rw [getLast?_concat, h0])
  have heB : e < B := h.1 e (List.mem_append_right _ (by simp))
  have hclz := clz32_spec (Nat.pos_of_ne_zero he) heB
  set c := clz32 e
  have hc31 : c ≤ 31 := by
    by_contra hc
    push_neg at hc
    have : 2 ^ 32 ≤ e * 2 ^ c := by
      calc (2:ℕ) ^ 32 ≤ 2 ^ c := Nat.pow_le_pow_right (by omega) (by omega)
        _ ≤ e * 2 ^ c := Nat.le_mul_of_pos_left _ (Nat.pos_of_ne_zero he)
    omega
  have hlo : 2 ^ (31 - c) ≤ e := by
    have h1 : 2 ^ 31 = 2 ^ (31 - c) * 2 ^ c := by
      rw [← Nat.pow_add]
      congr 1
      omega
    rcases Nat.lt_or_ge e (2 ^ (31 - c)) with hc2 | hc2
    · exfalso
      have : e * 2 ^ c < 2 ^ (31 - c) * 2 ^ c :=
        (Nat.mul_lt_mul_right (Nat.pos_pow_of_pos _ (show 0 < 2 by omega))).mpr hc2
      rw [← h1] at this
      omega
    · exact hc2
  have hhi : e < 2 ^ (32 - c) := by
    have h1 : 2 ^ 32 = 2 ^ (32 - c) * 2 ^ c := by
      rw [← Nat.pow_add]
      congr 1
      omega
    rcases Nat.lt_or_ge e (2 ^ (32 - c)) with hc2 | hc2
    · exact hc2
    · exfalso
      have : 2 ^ (32 - c) * 2 ^ c ≤ e * 2 ^ c := Nat.mul_le_mul_right _ hc2
      rw [← h1] at this
      omega
  have hcl : clzTop (m ++ [e]) = c := by
    unfold clzTop
    rw [if_neg (by simp)]
    congr 1
    rw [List.getLastD_eq_getLast?]
    rw [getLast?_concat]
    rfl
  have hbits : bitsD (m ++ [e]) = 32 * m.length + 32 - c := by
    unfold bitsD
    rw [hcl]
    simp [Nat.mul_add]
  have hval : val (m ++ [e]) = val m + B ^ m.length * e := by
    rw [val_append]
    simp [val]
  have hmlt : val m < B ^ m.length := val_lt m (fun d hd => h.1 d (List.mem_append_left _ hd))
  have hBpow : (B:ℕ) ^ m.length = 2 ^ (32 * m.length) := by
    unfold B
    rw [← Nat.pow_mul]
  refine ⟨?_, ?_, hcl ▸ hc31⟩
  · rw [hbits, hval, hBpow]
    have h1 : 2 ^ (32 * m.length + 32 - c - 1) = 2 ^ (32 * m.length) * 2 ^ (31 - c) := by
      rw [← Nat.pow_add]
      congr 1
      omega
    rw [h1]
    have := Nat.mul_le_mul_left (2 ^ (32 * m.length)) hlo
    omega
  · rw [hbits, hval, hBpow]
    have h1 : 2 ^ (32 * m.length + 32 - c) = 2 ^ (32 * m.length) * 2 ^ (32 - c) := by
      rw [← Nat.pow_add]
      congr 1
      omega
    rw [h1]
    have h2 : e + 1 ≤ 2 ^ (32 - c) := hhi
    calc val m + 2 ^ (32 * m.length) * e < 2 ^ (32 * m.length) * (e + 1) := by
          rw [Nat.mul_add, Nat.mul_one]
          omega
      _ ≤ 2 ^ (32 * m.length) * 2 ^ (32 - c) := Nat.mul_le_mul_left _ h2

/-- operator<<(const Unsigned&, std::size_t): whole-digit shift prepends
zero digits; an intra-digit shift spills each digit's top bits into the next
digit, with one extra output digit exactly when bits would be lost off the
top (lbs > countLeadingZeroes of the top digit). -/
def shlDigits (u : List ℕ) (s : ℕ) : List ℕ :=
  if s = 0 then u
  else if u.length = 0 then u
  else
    if s % 32 = 0 then List.replicate (s / 32) 0 ++ u
    else
      List.replicate (s / 32) 0 ++
        (List.zipWith
          (fun cur prev => cur * 2 ^ (s % 32) % B ||| prev / 2 ^ (32 - s % 32))
          u (0 :: u) ++
        (if clzTop u < s % 32 then [u.getLastD 0 / 2 ^ (32 - s % 32)] else []))

theorem or_disjoint {k x y : ℕ} (hy : y < 2 ^ k) : 2 ^ k * x ||| y = 2 ^ k * x + y :=
  (Nat.mul_add_lt_is_or hy x).symm

theorem shl_digit_eq {lbs cur prev : ℕ} (hl : 0 < lbs) (hl32 : lbs < 32)
    (hp : prev < B) :
    cur * 2 ^ lbs % B ||| prev / 2 ^ (32 - lbs) =
      2 ^ lbs * (cur % 2 ^ (32 - lbs)) + prev / 2 ^ (32 - lbs) := by
  have h1 : cur * 2 ^ lbs % B = 2 ^ lbs * (cur % 2 ^ (32 - lbs)) := by
    have hB : B = 2 ^ lbs * 2 ^ (32 - lbs) := by
      unfold B
      rw [← Nat.pow_add]
      congr 1
      omega
    rw [hB, Nat.mul_comm cur _, Nat.mul_mod_mul_left]
  have h2 : prev / 2 ^ (32 - lbs) < 2 ^ lbs := by
    apply Nat.div_lt_of_lt_mul
    calc prev < B := hp
      _ = 2 ^ (32 - lbs) * 2 ^ lbs := by
          unfold B
          rw [← Nat.pow_add]
          congr 1
          omega
  rw [h1, or_disjoint h2]

theorem shlCore_val {lbs : ℕ} (hl : 0 < lbs) (hl32 : lbs < 32) :
    ∀ (u : List ℕ) (p : ℕ), (∀ d ∈ u, d < B) → p < B →
      val (List.zipWith
          (fun cur prev => cur * 2 ^ lbs % B ||| prev / 2 ^ (32 - lbs)) u (p :: u)) +
          B ^ u.length * (u.getLastD p / 2 ^ (32 - lbs)) =
        val u * 2 ^ lbs + p / 2 ^ (32 - lbs) := by
  intro u
  induction u with
  | nil =>
    intro p hu hp
    simp
  | cons a u ih =>
    intro p hu hp
    have ha : a < B := hu a (by simp)
    have hz : List.zipWith
        (fun cur prev => cur * 2 ^ lbs % B ||| prev / 2 ^ (32 - lbs)) (a :: u) (p :: a :: u) =
        (a * 2 ^ lbs % B ||| p / 2 ^ (32 - lbs)) ::
          List.zipWith (fun cur prev => cur * 2 ^ lbs % B ||| prev / 2 ^ (32 - lbs)) u (a :: u) := rfl
    rw [hz]
    have ihe := ih a (fun d hd => hu d (by simp [hd])) ha
    have hlast : (a :: u).getLastD p = u.getLastD a := by
      rcases u with _ | ⟨x, xs⟩ <;> simp [List.getLastD]
    rw [hlast, val_cons, List.length_cons, pow_succ]
    rw [shl_digit_eq hl hl32 hp]
    -- multiply the induction hypothesis by B
    have ihb := congrArg (fun t => B * t) ihe
    simp only [Nat.mul_add] at ihb
    have hre1 : B * (B ^ u.length * (u.getLastD a / 2 ^ (32 - lbs))) =
        B ^ u.length * B * (u.getLastD a / 2 ^ (32 - lbs)) := by ring
    have hre2 : B * (val u * 2 ^ lbs) = B * val u * 2 ^ lbs := by ring
    rw [hre1, hre2] at ihb
    -- digit identity: 2^lbs * (a % 2^rbs) + B * (a / 2^rbs) = a * 2^lbs
    have hdig : 2 ^ lbs * (a % 2 ^ (32 - lbs)) + B * (a / 2 ^ (32 - lbs)) = a * 2 ^ lbs := by
      have hB : B = 2 ^ lbs * 2 ^ (32 - lbs) := by
        unfold B
        rw [← Nat.pow_add]
        congr 1
        omega
      rw [hB]
      have : 2 ^ lbs * 2 ^ (32 - lbs) * (a / 2 ^ (32 - lbs)) =
          2 ^ lbs * (2 ^ (32 - lbs) * (a / 2 ^ (32 - lbs))) := by ring
      rw [this, ← Nat.mul_add]
      rw [Nat.mod_add_div a (2 ^ (32 - lbs))]
      ring
    simp only [val_cons]
    rw [Nat.add_mul]
    omega

theorem getLastD_ne_zero {l : List ℕ} (h : Canon l) (hne : l ≠ []) :
    l.getLastD 0 ≠ 0 := by
  obtain ⟨m, e, rfl⟩ := (List.eq_nil_or_concat l).resolve_left hne
  rw [List.concat_eq_append] at *
  have he : e ≠ 0 := by
    intro h0
    exact h.2 (by rw [getLast?_concat, h0])
  rw [List.getLastD_eq_getLast?, getLast?_concat]
  simpa using he

theorem getLastD_mem {l : List ℕ} (hne : l ≠ []) : l.getLastD 0 ∈ l := by
  obtain ⟨m, e, rfl⟩ := (List.eq_nil_or_concat l).resolve_left hne
  rw [List.concat_eq_append, List.getLastD_eq_getLast?, getLast?_concat]
  exact List.mem_append_right _ (by simp)

/-- Bounds on the top digit extracted from countLeadingZeroes. -/
theorem clzTop_spec {l : List ℕ} (h : Canon l) (hne : l ≠ []) :
    clzTop l ≤ 31 ∧ 2 ^ (31 - clzTop l) ≤ l.getLastD 0 ∧
      l.getLastD 0 < 2 ^ (32 - clzTop l) := by
  have he : l.getLastD 0 ≠ 0 := getLastD_ne_zero h hne
  have heB : l.getLastD 0 < B := h.1 _ (getLastD_mem hne)
  have hclz := clz32_spec (Nat.pos_of_ne_zero he) heB
  have hcl : clzTop l = clz32 (l.getLastD 0) := by
    unfold clzTop
    rw [if_neg hne]
  rw [hcl]
  set c := clz32 (l.getLastD 0) with hc
  set e := l.getLastD 0 with hee
  have hc31 : c ≤ 31 := by
    by_contra hcc
    push_neg at hcc
    have : 2 ^ 32 ≤ e * 2 ^ c := by
      calc (2:ℕ) ^ 32 ≤ 2 ^ c := Nat.pow_le_pow_right (by omega) (by omega)
        _ ≤ e * 2 ^ c := Nat.le_mul_of_pos_left _ (Nat.pos_of_ne_zero he)
    omega
  refine ⟨hc31, ?_, ?_⟩
  · have h1 : (2:ℕ) ^ 31 = 2 ^ (31 - c) * 2 ^ c := by
      rw [← Nat.pow_add]
      congr 1
      omega
    rcases Nat.lt_or_ge e (2 ^ (31 - c)) with hc2 | hc2
    · exfalso
      have : e * 2 ^ c < 2 ^ (31 - c) * 2 ^ c :=
        (Nat.mul_lt_mul_right (Nat.pos_pow_of_pos _ (show 0 < 2 by omega))).mpr hc2
      rw [← h1] at this
      omega
    · exact hc2
  · have h1 : (2:ℕ) ^ 32 = 2 ^ (32 - c) * 2 ^ c := by
      rw [← Nat.pow_add]
      congr 1
      omega
    rcases Nat.lt_or_ge e (2 ^ (32 - c)) with hc2 | hc2
    · exact hc2
    · exfalso
      have : 2 ^ (32 - c) * 2 ^ c ≤ e * 2 ^ c := Nat.mul_le_mul_right _ hc2
      rw [← h1] at this
      omega

theorem canon_replicate_append {k : ℕ} {l : List ℕ} (h : Canon l) (hne : l ≠ []) :
    Canon (List.replicate k 0 ++ l) := by
  constructor
  · intro d hd
    rcases List.mem_append.mp hd with hd | hd
    · have := List.eq_of_mem_replicate hd
      subst this
      exact B_pos
    · exact h.1 d hd
  · rw [List.getLast?_append]
    rcases List.eq_nil_or_concat l with rfl | ⟨m, e, rfl⟩
    · exact absurd rfl hne
    · rw [List.concat_eq_append, getLast?_concat]
      have := h.2
      rw [List.concat_eq_append, getLast?_concat] at this
      simpa using this

theorem val_replicate_append (k : ℕ) (l : List ℕ) :
    val (List.replicate k 0 ++ l) = B ^ k * val l := by
  rw [val_append, val_replicate_zero, List.length_replicate]
  omega

theorem shlCore_lt {lbs : ℕ} (hl : 0 < lbs) (hl32 : lbs < 32) :
    ∀ (u : List ℕ) (p : ℕ), (∀ d ∈ u, d < B) → p < B →
      ∀ x ∈ List.zipWith
        (fun cur prev => cur * 2 ^ lbs % B ||| prev / 2 ^ (32 - lbs)) u (p :: u), x < B := by
  intro u
  induction u with
  | nil => intro p _ _ x hx ; simp at hx
  | cons a u ih =>
    intro p hu hp x hx
    have ha : a < B := hu a (by simp)
    have hz : List.zipWith
        (fun cur prev => cur * 2 ^ lbs % B ||| prev / 2 ^ (32 - lbs)) (a :: u) (p :: a :: u) =
        (a * 2 ^ lbs % B ||| p / 2 ^ (32 - lbs)) ::
          List.zipWith (fun cur prev => cur * 2 ^ lbs % B ||| prev / 2 ^ (32 - lbs)) u (a :: u) := rfl
    rw [hz, List.mem_cons] at hx
    rcases hx with rfl | hx
    · rw [shl_digit_eq hl hl32 hp]
      have h1 : a % 2 ^ (32 - lbs) < 2 ^ (32 - lbs) :=
        Nat.mod_lt _ (Nat.pos_pow_of_pos _ (by omega))
      have h2 : p / 2 ^ (32 - lbs) < 2 ^ lbs := by
        apply Nat.div_lt_of_lt_mul
        calc p < B := hp
          _ = 2 ^ (32 - lbs) * 2 ^ lbs := by
              unfold B
              rw [← Nat.pow_add]
              congr 1
              omega
      have hB : B = 2 ^ lbs * 2 ^ (32 - lbs) := by
        unfold B
        rw [← Nat.pow_add]
        congr 1
        omega
      calc 2 ^ lbs * (a % 2 ^ (32 - lbs)) + p / 2 ^ (32 - lbs) <
            2 ^ lbs * (a % 2 ^ (32 - lbs)) + 2 ^ lbs := by omega
        _ = 2 ^ lbs * (a % 2 ^ (32 - lbs) + 1) := by ring
        _ ≤ 2 ^ lbs * 2 ^ (32 - lbs) := Nat.mul_le_mul_left _ (by omega)
        _ = B := hB.symm
    · exact ih a (fun d hd => hu d (by simp [hd])) ha x hx

/-- Correctness of the non-member left shift: value multiplied by 2^s and
the canonical representation is preserved. -/
theorem shlDigits_spec {u : List ℕ} (hu : Canon u) (s : ℕ) :
    val (shlDigits u s) = val u * 2 ^ s ∧ Canon (shlDigits u s) := by
  rcases Nat.eq_zero_or_pos s with rfl | hs
  · unfold shlDigits
    rw [if_pos rfl]
    simpa using hu
  rcases List.eq_nil_or_concat u with rfl | hne'
  · unfold shlDigits
    rw [if_neg (by omega), if_pos (by simp)]
    exact ⟨by simp, canon_nil⟩
  have hne : u ≠ [] := by
    obtain ⟨m, e, rfl⟩ := hne'
    simp
  have hlenpos : u.length ≠ 0 := by
    intro h0
    exact hne (List.length_eq_zero.mp h0)
  rcases Nat.eq_zero_or_pos (s % 32) with hlbs | hlbs
  · -- whole-digit shift
    unfold shlDigits
    rw [if_neg (by omega), if_neg hlenpos, if_pos hlbs]
    refine ⟨?_, canon_replicate_append hu hne⟩
    rw [val_replicate_append]
    have : (B:ℕ) ^ (s / 32) = 2 ^ s := by
      unfold B
      rw [← Nat.pow_mul]
      congr 1
      omega
    rw [this]
    ring
  · -- intra-digit shift
    have hl32 : s % 32 < 32 := Nat.mod_lt _ (by omega)
    obtain ⟨hc31, hclo, hchi⟩ := clzTop_spec hu hne
    have hcore := shlCore_val hlbs hl32 u 0 hu.1 B_pos
    have hlt := shlCore_lt hlbs hl32 u 0 hu.1 B_pos
    have hzero : (0:ℕ) / 2 ^ (32 - s % 32) = 0 := Nat.zero_div _
    rw [hzero, Nat.add_zero] at hcore
    have hlenz : (List.zipWith
        (fun cur prev => cur * 2 ^ (s % 32) % B ||| prev / 2 ^ (32 - s % 32))
        u (0 :: u)).length = u.length := by
      rw [List.length_zipWith]
      simp
    have hbitsu := bitsD_spec hu hne
    have hbval : 2 ^ (32 * u.length - clzTop u - 1) ≤ val u := by
      have h1 := hbitsu.1
      unfold bitsD at h1
      exact h1
    unfold shlDigits
    rw [if_neg (by omega), if_neg hlenpos, if_neg (by omega)]
    rcases Nat.lt_or_ge (clzTop u) (s % 32) with hcmp | hcmp
    · rw [if_pos hcmp]
      have hval2 : val (List.zipWith
          (fun cur prev => cur * 2 ^ (s % 32) % B ||| prev / 2 ^ (32 - s % 32)) u (0 :: u) ++
            [u.getLastD 0 / 2 ^ (32 - s % 32)]) = val u * 2 ^ (s % 32) := by
        rw [val_append, hlenz]
        simp only [val_cons, val_nil, Nat.mul_zero, Nat.add_zero]
        omega
      have hdig : ∀ d ∈ (List.zipWith
          (fun cur prev => cur * 2 ^ (s % 32) % B ||| prev / 2 ^ (32 - s % 32)) u (0 :: u) ++
            [u.getLastD 0 / 2 ^ (32 - s % 32)]), d < B := by
        intro d hd
        rcases List.mem_append.mp hd with hd | hd
        · exact hlt d hd
        · simp only [List.mem_singleton] at hd
          subst hd
          exact Nat.lt_of_le_of_lt (Nat.div_le_self _ _) (hu.1 _ (getLastD_mem hne))
      have hcanon2 : Canon (List.zipWith
          (fun cur prev => cur * 2 ^ (s % 32) % B ||| prev / 2 ^ (32 - s % 32)) u (0 :: u) ++
            [u.getLastD 0 / 2 ^ (32 - s % 32)]) := by
        apply canon_of_ge hdig
        · rw [hval2]
          have hlen2 : (List.zipWith
              (fun cur prev => cur * 2 ^ (s % 32) % B ||| prev / 2 ^ (32 - s % 32)) u (0 :: u) ++
                [u.getLastD 0 / 2 ^ (32 - s % 32)]).length = u.length + 1 := by
            rw [List.length_append, hlenz]
            rfl
          rw [hlen2]
          have hstep : 2 ^ (32 * u.length) ≤ val u * 2 ^ (s % 32) := by
            calc (2:ℕ) ^ (32 * u.length) =
                2 ^ (32 * u.length - clzTop u - 1) * 2 ^ (clzTop u + 1) := by
                  rw [← Nat.pow_add]
                  congr 1
                  omega
              _ ≤ val u * 2 ^ (s % 32) := by
                  apply Nat.mul_le_mul hbval
                  exact Nat.pow_le_pow_right (by omega) (by omega)
          have hBp : (B:ℕ) ^ (u.length + 1 - 1) = 2 ^ (32 * u.length) := by
            have e : u.length + 1 - 1 = u.length := rfl
            rw [e]
            unfold B
            rw [← Nat.pow_mul]
          calc (B:ℕ) ^ (u.length + 1 - 1) = 2 ^ (32 * u.length) := hBp
            _ ≤ val u * 2 ^ (s % 32) := hstep
        · simp
      refine ⟨?_, canon_replicate_append hcanon2 (by simp)⟩
      rw [val_replicate_append, hval2]
      have hB2 : (B:ℕ) ^ (s / 32) = 2 ^ (32 * (s / 32)) := by
        unfold B
        rw [← Nat.pow_mul]
      rw [hB2, ← Nat.mul_assoc]
      rw [Nat.mul_comm (2 ^ (32 * (s / 32))) (val u), Nat.mul_assoc, ← Nat.pow_add]
      congr 2
      omega
    · rw [if_neg (by omega)]
      have htop0 : u.getLastD 0 / 2 ^ (32 - s % 32) = 0 := by
        apply Nat.div_eq_of_lt
        calc u.getLastD 0 < 2 ^ (32 - clzTop u) := hchi
          _ ≤ 2 ^ (32 - s % 32) := Nat.pow_le_pow_right (by omega) (by omega)
      rw [htop0, Nat.mul_zero, Nat.add_zero] at hcore
      have hcanon2 : Canon (List.zipWith
          (fun cur prev => cur * 2 ^ (s % 32) % B ||| prev / 2 ^ (32 - s % 32)) u (0 :: u) ++ []) := by
        rw [List.append_nil]
        apply canon_of_ge (fun d hd => hlt d hd)
        · rw [hlenz, hcore]
          have h1 : B ^ (u.length - 1) ≤ val u := canon_le_val hu hne
          calc (B:ℕ) ^ (u.length - 1) ≤ val u := h1
            _ ≤ val u * 2 ^ (s % 32) := Nat.le_mul_of_pos_right _ (Nat.pos_pow_of_pos _ (by omega))
        · intro h0
          have := congrArg List.length h0
          rw [hlenz] at this
          simp at this
          exact hne this
      refine ⟨?_, by
        rw [List.append_nil] at hcanon2 ⊢
        exact canon_replicate_append hcanon2 (by
          intro h0
          have := congrArg List.length h0
          rw [hlenz] at this
          simp at this
          exact hne this)⟩
      rw [List.append_nil, val_replicate_append, hcore]
      have hB2 : (B:ℕ) ^ (s / 32) = 2 ^ (32 * (s / 32)) := by
        unfold B
        rw [← Nat.pow_mul]
      rw [hB2, ← Nat.mul_assoc, Nat.mul_comm (2 ^ (32 * (s / 32))) (val u),
        Nat.mul_assoc, ← Nat.pow_add]
      congr 2
      omega

/-- operator>>(const Unsigned&, std::size_t): zero for shifts at least the
bit length, whole-digit shifts drop low digits, intra-digit shifts pull
spill bits from the next digit; the top output digit is written only when
the top input digit still contributes (lz < 32 - s%32), matching the
resized length m = (nb - s - 1)/32 + 1 of the source. -/
def shrDigits (u : List ℕ) (s : ℕ) : List ℕ :=
  if s = 0 then u
  else if u.length = 0 then u
  else
    if 32 * u.length - clzTop u ≤ s then []
    else
      if s % 32 = 0 then u.drop (s / 32)
      else
        List.zipWith (fun cur next => cur / 2 ^ (s % 32) ||| next * 2 ^ (32 - s % 32) % B)
          (u.drop (s / 32)) (u.drop (s / 32 + 1)) ++
        (if clzTop u < 32 - s % 32 then [u.getLastD 0 / 2 ^ (s % 32)] else [])

theorem shr_digit_eq {rbs cur next : ℕ} (hr32 : rbs < 32) (hc : cur < B) :
    cur / 2 ^ rbs ||| next * 2 ^ (32 - rbs) % B =
      2 ^ (32 - rbs) * (next % 2 ^ rbs) + cur / 2 ^ rbs := by
  have h1 : next * 2 ^ (32 - rbs) % B = 2 ^ (32 - rbs) * (next % 2 ^ rbs) := by
    have hB : B = 2 ^ (32 - rbs) * 2 ^ rbs := by
      unfold B
      rw [← Nat.pow_add]
      congr 1
      omega
    rw [hB, Nat.mul_comm next _, Nat.mul_mod_mul_left]
  have h2 : cur / 2 ^ rbs < 2 ^ (32 - rbs) := by
    apply Nat.div_lt_of_lt_mul
    calc cur < B := hc
      _ = 2 ^ rbs * 2 ^ (32 - rbs) := by
          unfold B
          rw [← Nat.pow_add]
          congr 1
          omega
  rw [h1, Nat.lor_comm, or_disjoint h2]

theorem shr_digit_lt {rbs cur next : ℕ} (hr32 : rbs < 32) (hc : cur < B) :
    cur / 2 ^ rbs ||| next * 2 ^ (32 - rbs) % B < B := by
  rw [shr_digit_eq hr32 hc]
  have h1 : next % 2 ^ rbs < 2 ^ rbs := Nat.mod_lt _ (Nat.pos_pow_of_pos _ (by omega))
  have h2 : cur / 2 ^ rbs < 2 ^ (32 - rbs) := by
    apply Nat.div_lt_of_lt_mul
    calc cur < B := hc
      _ = 2 ^ rbs * 2 ^ (32 - rbs) := by
          unfold B
          rw [← Nat.pow_add]
          congr 1
          omega
  have hB : B = 2 ^ (32 - rbs) * 2 ^ rbs := by
    unfold B
    rw [← Nat.pow_add]
    congr 1
    omega
  calc 2 ^ (32 - rbs) * (next % 2 ^ rbs) + cur / 2 ^ rbs <
        2 ^ (32 - rbs) * (next % 2 ^ rbs) + 2 ^ (32 - rbs) := by omega
    _ = 2 ^ (32 - rbs) * (next % 2 ^ rbs + 1) := by ring
    _ ≤ 2 ^ (32 - rbs) * 2 ^ rbs := Nat.mul_le_mul_left _ (by omega)
    _ = B := hB.symm

theorem shrCore_val {rbs : ℕ} (hr32 : rbs < 32) :
    ∀ (w : List ℕ), (∀ d ∈ w, d < B) → w ≠ [] →
      val (List.zipWith (fun cur next => cur / 2 ^ rbs ||| next * 2 ^ (32 - rbs) % B)
          w w.tail ++ [w.getLastD 0 / 2 ^ rbs]) = val w / 2 ^ rbs := by
  intro w
  induction w with
  | nil => intro _ h ; exact absurd rfl h
  | cons a w ih =>
    intro hd _
    have ha : a < B := hd a (by simp)
    rcases w with _ | ⟨b, w⟩
    · simp [val]
    · have hz : List.zipWith (fun cur next => cur / 2 ^ rbs ||| next * 2 ^ (32 - rbs) % B)
          (a :: b :: w) (a :: b :: w).tail =
          (a / 2 ^ rbs ||| b * 2 ^ (32 - rbs) % B) ::
            List.zipWith (fun cur next => cur / 2 ^ rbs ||| next * 2 ^ (32 - rbs) % B)
              (b :: w) (b :: w).tail := rfl
      have hlast : (a :: b :: w).getLastD 0 = (b :: w).getLastD 0 := by
        simp [List.getLastD]
      rw [hz, hlast, List.cons_append, val_cons]
      rw [ih (fun d hdm => hd d (by simp [hdm])) (by simp)]
      rw [shr_digit_eq hr32 ha]
      have hkey : val (a :: b :: w) / 2 ^ rbs =
          a / 2 ^ rbs + 2 ^ (32 - rbs) * val (b :: w) := by
        have hBv : (B : ℕ) * val (b :: w) = (2 ^ (32 - rbs) * val (b :: w)) * 2 ^ rbs := by
          have hB : B = 2 ^ (32 - rbs) * 2 ^ rbs := by
            unfold B
            rw [← Nat.pow_add]
            congr 1
            omega
          rw [hB]
          ring
        show (a + B * val (b :: w)) / 2 ^ rbs = _
        rw [hBv, Nat.add_mul_div_right _ _ (Nat.pos_pow_of_pos _ (show 0 < 2 by omega))]
      rw [hkey]
      have hmod : val (b :: w) % 2 ^ rbs = b % 2 ^ rbs := by
        have hBe : (B:ℕ) * val w = (2 ^ (32 - rbs) * val w) * 2 ^ rbs := by
          have hB : B = 2 ^ (32 - rbs) * 2 ^ rbs := by
            unfold B
            rw [← Nat.pow_add]
            congr 1
            omega
          rw [hB]
          ring
        show (b + B * val w) % 2 ^ rbs = b % 2 ^ rbs
        rw [hBe, Nat.add_mul_mod_self_right]
      rw [← hmod]
      have hsplit : (B:ℕ) * (val (b :: w) / 2 ^ rbs) =
          2 ^ (32 - rbs) * (2 ^ rbs * (val (b :: w) / 2 ^ rbs)) := by
        have hB : B = 2 ^ (32 - rbs) * 2 ^ rbs := by
          unfold B
          rw [← Nat.pow_add]
          congr 1
          omega
        rw [hB]
        ring
      rw [hsplit]
      calc 2 ^ (32 - rbs) * (val (b :: w) % 2 ^ rbs) + a / 2 ^ rbs +
            2 ^ (32 - rbs) * (2 ^ rbs * (val (b :: w) / 2 ^ rbs))
          = a / 2 ^ rbs +
            2 ^ (32 - rbs) * (val (b :: w) % 2 ^ rbs + 2 ^ rbs * (val (b :: w) / 2 ^ rbs)) := by
            ring
        _ = a / 2 ^ rbs + 2 ^ (32 - rbs) * val (b :: w) := by
            rw [Nat.mod_add_div]

theorem getLast?_drop_of_lt {l : List ℕ} {k : ℕ} (hk : k < l.length) :
    (l.drop k).getLast? = l.getLast? := by
  have hne : l.drop k ≠ [] := by
    intro h0
    have := congrArg List.length h0
    simp only [List.length_drop] at this
    simp at this
    omega
  conv_rhs => rw [← List.take_append_drop k l]
  rw [List.getLast?_append]
  rcases he : (l.drop k).getLast? with _ | x
  · exact absurd (List.getLast?_eq_none_iff.mp he) hne
  · simp [he]

theorem canon_drop {l : List ℕ} (h : Canon l) {k : ℕ} (hk : k < l.length) :
    Canon (l.drop k) := by
  refine ⟨fun d hd => h.1 d (List.mem_of_mem_drop hd), ?_⟩
  rw [getLast?_drop_of_lt hk]
  exact h.2

theorem getLastD_drop_of_lt {l : List ℕ} {k : ℕ} (hk : k < l.length) :
    (l.drop k).getLastD 0 = l.getLastD 0 := by
  rw [List.getLastD_eq_getLast?, List.getLastD_eq_getLast?, getLast?_drop_of_lt hk]

/-- Correctness of the non-member right shift: the value is divided by 2^s
and the canonical representation is preserved. -/
theorem shrDigits_spec {u : List ℕ} (hu : Canon u) (s : ℕ) :
    val (shrDigits u s) = val u / 2 ^ s ∧ Canon (shrDigits u s) := by
  rcases Nat.eq_zero_or_pos s with rfl | hs
  · unfold shrDigits
    rw [if_pos rfl]
    simpa using hu
  rcases List.eq_nil_or_concat u with rfl | hne'
  · unfold shrDigits
    rw [if_neg (by omega), if_pos (by simp)]
    exact ⟨by simp, canon_nil⟩
  have hne : u ≠ [] := by
    obtain ⟨m, e, rfl⟩ := hne'
    simp
  have hlenpos : u.length ≠ 0 := fun h0 => hne (List.length_eq_zero.mp h0)
  obtain ⟨hc31, hclo, hchi⟩ := clzTop_spec hu hne
  obtain ⟨hblo, hbhi, _⟩ := bitsD_spec hu hne
  have hbeq : bitsD u = 32 * u.length - clzTop u := rfl
  rcases Nat.lt_or_ge s (32 * u.length - clzTop u) with hsnb | hsnb
  · -- s below the bit length
    have hds : s / 32 < u.length := by
      have h32 : 32 * (s / 32) ≤ s := Nat.mul_div_le s 32
      omega
    rcases Nat.eq_zero_or_pos (s % 32) with hrbs | hrbs
    · -- whole-digit shift
      unfold shrDigits
      rw [if_neg (by omega), if_neg hlenpos, if_neg (by omega), if_pos hrbs]
      refine ⟨?_, canon_drop hu hds⟩
      rw [val_drop u (s / 32) (by omega) hu.1]
      congr 1
      unfold B
      rw [← Nat.pow_mul]
      congr 1
      omega
    · -- intra-digit shift
      have hr32 : s % 32 < 32 := Nat.mod_lt _ (by omega)
      unfold shrDigits
      rw [if_neg (by omega), if_neg hlenpos, if_neg (by omega), if_neg (by omega)]
      have hwne : u.drop (s / 32) ≠ [] := by
        intro h0
        have := congrArg List.length h0
        simp only [List.length_drop] at this
        simp at this
        omega
      have htail : u.drop (s / 32 + 1) = (u.drop (s / 32)).tail := by
        rw [← List.drop_drop]
        rw [List.drop_one]
      have hcore := shrCore_val hr32 (u.drop (s / 32))
        (fun d hd => hu.1 d (List.mem_of_mem_drop hd)) hwne
      have hlastd : (u.drop (s / 32)).getLastD 0 = u.getLastD 0 := getLastD_drop_of_lt hds
      rw [htail] at *
      have hdropval : val (u.drop (s / 32)) = val u / 2 ^ (32 * (s / 32)) := by
        rw [val_drop u (s / 32) (by omega) hu.1]
        congr 1
        unfold B
        rw [← Nat.pow_mul]
      have hvalfull : val (u.drop (s / 32)) / 2 ^ (s % 32) = val u / 2 ^ s := by
        rw [hdropval, Nat.div_div_eq_div_mul, ← Nat.pow_add]
        congr 2
        omega
      have hlenz : (List.zipWith
          (fun cur next => cur / 2 ^ (s % 32) ||| next * 2 ^ (32 - s % 32) % B)
          (u.drop (s / 32)) (u.drop (s / 32)).tail).length = u.length - s / 32 - 1 := by
        rw [List.length_zipWith, List.length_tail, List.length_drop]
        omega
      have hdigall : ∀ d ∈ List.zipWith
          (fun cur next => cur / 2 ^ (s % 32) ||| next * 2 ^ (32 - s % 32) % B)
          (u.drop (s / 32)) (u.drop (s / 32)).tail, d < B := by
        intro d hd
        obtain ⟨i, hi, rfl⟩ := List.getElem_of_mem hd
        rw [List.getElem_zipWith]
        apply shr_digit_lt hr32
        exact hu.1 _ (List.mem_of_mem_drop (List.getElem_mem _))
      -- value lower bound after the shift
      have hvlow : 2 ^ (32 * u.length - clzTop u - 1 - s) ≤ val u / 2 ^ s := by
        have h1 : 2 ^ (32 * u.length - clzTop u - 1) / 2 ^ s =
            2 ^ (32 * u.length - clzTop u - 1 - s) := by
          rw [Nat.pow_div (by omega) (by omega)]
        rw [← h1]
        apply Nat.div_le_div_right
        rw [hbeq] at hblo
        exact hblo
      rcases Nat.lt_or_ge (clzTop u) (32 - s % 32) with hcmp | hcmp
      · rw [if_pos hcmp]
        rw [hlastd] at hcore
        refine ⟨by rw [hcore, hvalfull], ?_⟩
        apply canon_of_ge
        · intro d hd
          rcases List.mem_append.mp hd with hd | hd
          · exact hdigall d hd
          · simp only [List.mem_singleton] at hd
            subst hd
            exact Nat.lt_of_le_of_lt (Nat.div_le_self _ _) (hu.1 _ (getLastD_mem hne))
        · rw [hcore, hvalfull]
          have hlen2 : (List.zipWith
              (fun cur next => cur / 2 ^ (s % 32) ||| next * 2 ^ (32 - s % 32) % B)
              (u.drop (s / 32)) (u.drop (s / 32)).tail ++
                [u.getLastD 0 / 2 ^ (s % 32)]).length = u.length - s / 32 := by
            rw [List.length_append, hlenz]
            simp
            omega
          rw [hlen2]
          have hexp : 32 * (u.length - s / 32 - 1) ≤ 32 * u.length - clzTop u - 1 - s := by
            omega
          calc (B:ℕ) ^ (u.length - s / 32 - 1) = 2 ^ (32 * (u.length - s / 32 - 1)) := by
                unfold B
                rw [← Nat.pow_mul]
            _ ≤ 2 ^ (32 * u.length - clzTop u - 1 - s) := Nat.pow_le_pow_right (by omega) hexp
            _ ≤ val u / 2 ^ s := hvlow
        · simp
      · rw [if_neg (by omega)]
        have htop0 : u.getLastD 0 / 2 ^ (s % 32) = 0 := by
          apply Nat.div_eq_of_lt
          calc u.getLastD 0 < 2 ^ (32 - clzTop u) := hchi
            _ ≤ 2 ^ (s % 32) := Nat.pow_le_pow_right (by omega) (by omega)
        have hcore2 : val (List.zipWith
            (fun cur next => cur / 2 ^ (s % 32) ||| next * 2 ^ (32 - s % 32) % B)
            (u.drop (s / 32)) (u.drop (s / 32)).tail) = val u / 2 ^ s := by
          rw [hlastd, htop0] at hcore
          rw [val_append] at hcore
          simp only [val_cons, val_nil] at hcore
          rw [← hvalfull, ← hcore]
          omega
        rw [List.append_nil]
        refine ⟨hcore2, ?_⟩
        apply canon_of_ge hdigall
        · rw [hcore2, hlenz]
          have hexp : 32 * (u.length - s / 32 - 1 - 1) ≤ 32 * u.length - clzTop u - 1 - s := by
            omega
          calc (B:ℕ) ^ (u.length - s / 32 - 1 - 1) = 2 ^ (32 * (u.length - s / 32 - 1 - 1)) := by
                unfold B
                rw [← Nat.pow_mul]
            _ ≤ 2 ^ (32 * u.length - clzTop u - 1 - s) := Nat.pow_le_pow_right (by omega) hexp
            _ ≤ val u / 2 ^ s := hvlow
        · intro h0
          have := congrArg List.length h0
          rw [hlenz] at this
          simp only [List.length_nil] at this
          -- u.length - s/32 - 1 = 0 forces s ≥ nb, contradiction
          omega
  · -- s at least the bit length: result is zero
    unfold shrDigits
    rw [if_neg (by omega), if_neg hlenpos, if_pos (by omega)]
    refine ⟨?_, canon_nil⟩
    have hvu : val u < 2 ^ s := by
      calc val u < 2 ^ bitsD u := hbhi
        _ ≤ 2 ^ s := Nat.pow_le_pow_right (by omega) (by rw [hbeq] ; omega)
    rw [val_nil, Nat.div_eq_of_lt hvu]

/-- C8: for every natural number u and every shift amount s,
(u << s) >> s == u with the non-member shift operators, and right-shifting
any value by at least its bit length yields zero. -/
theorem claim_C8 (u : List ℕ) (s : ℕ) (hu : Canon u) :
    shrDigits (shlDigits u s) s = u ∧ (bitsD u ≤ s → shrDigits u s = []) := by
  obtain ⟨hv1, hc1⟩ := shlDigits_spec hu s
  obtain ⟨hv2, hc2⟩ := shrDigits_spec hc1 s
  constructor
  · apply canon_val_inj hc2 hu
    rw [hv2, hv1, Nat.mul_div_cancel _ (Nat.pos_pow_of_pos _ (show 0 < 2 by omega))]
  · intro hbits
    obtain ⟨hv3, hc3⟩ := shrDigits_spec hu s
    apply canon_val_inj hc3 canon_nil
    rw [hv3, val_nil]
    apply Nat.div_eq_of_lt
    rcases List.eq_nil_or_concat u with rfl | hne'
    · simpa using Nat.pos_pow_of_pos s (show 0 < 2 by omega)
    · have hne : u ≠ [] := by
        obtain ⟨m, e, rfl⟩ := hne'
        simp
      obtain ⟨_, hhi, _⟩ := bitsD_spec hu hne
      calc val u < 2 ^ bitsD u := hhi
        _ ≤ 2 ^ s := Nat.pow_le_pow_right (by omega) hbits

theorem claim_C8_witness :
    Canon [5] ∧
      (shrDigits (shlDigits [5] 35) 35 = [5] ∧ (bitsD [5] ≤ 35 → shrDigits [5] 35 = [])) :=
  ⟨by decide, claim_C8 [5] 35 (by decide)⟩

/-- The ascending copy loop of the whole-digit branch of
Unsigned::operator<<= : for i = 0..k-1 starting at index i0,
digit[i + ds] = digit[i], reading the CURRENT buffer contents (this is the
source's aliasing behaviour; for 0 < ds < n the source reads slots it has
already overwritten). -/
def copyUp (ds : ℕ) : ℕ → ℕ → List ℕ → List ℕ
  | _, 0, arr => arr
  | i, k + 1, arr => copyUp ds (i + 1) k (arr.set (i + ds) (arr.getD i 0))

/-- Unsigned::operator<<= — the in-place left shift. The whole-digit branch
(s % 32 == 0) resizes to n + ds and runs the ascending copy loop before
zero-filling the low ds digits. In the intra-digit branch the writes run
from the top index downwards and never touch a slot that is still to be
read, so that branch computes digit-for-digit the same expression as the
non-member operator<< (shlDigits); it is therefore written with the same
zipWith expression. -/
def shlAssign (u : List ℕ) (s : ℕ) : List ℕ :=
  if s = 0 then u
  else if u.length = 0 then u
  else
    if s % 32 = 0 then
      List.replicate (s / 32) 0 ++
        (copyUp (s / 32) 0 u.length (u ++ List.replicate (s / 32) 0)).drop (s / 32)
    else
      List.replicate (s / 32) 0 ++
        (List.zipWith (fun cur prev => cur * 2 ^ (s % 32) % B ||| prev / 2 ^ (32 - s % 32))
          u (0 :: u) ++
        (if clzTop u < s % 32 then [u.getLastD 0 / 2 ^ (32 - s % 32)] else []))

theorem copyUp_length (ds : ℕ) :
    ∀ (k i : ℕ) (arr : List ℕ), (copyUp ds i k arr).length = arr.length := by
  intro k
  induction k with
  | zero => intro i arr ; rfl
  | succ k ih =>
    intro i arr
    show (copyUp ds (i + 1) k (arr.set (i + ds) (arr.getD i 0))).length = arr.length
    rw [ih, List.length_set]

theorem copyUp_getD (ds : ℕ) :
    ∀ (k i : ℕ) (arr : List ℕ) (j : ℕ), k ≤ ds → i + k + ds ≤ arr.length →
      (copyUp ds i k arr).getD j 0 =
        if i + ds ≤ j ∧ j < i + k + ds then arr.getD (j - ds) 0 else arr.getD j 0 := by
  intro k
  induction k with
  | zero =>
    intro i arr j _ _
    have : ¬(i + ds ≤ j ∧ j < i + 0 + ds) := by omega
    rw [if_neg this]
    rfl
  | succ k ih =>
    intro i arr j hk hlen
    show (copyUp ds (i + 1) k (arr.set (i + ds) (arr.getD i 0))).getD j 0 = _
    rw [ih (i + 1) _ j (by omega) (by rw [List.length_set] ; omega)]
    have hset_out : ∀ m, m ≠ i + ds → (arr.set (i + ds) (arr.getD i 0)).getD m 0 = arr.getD m 0 := by
      intro m hm
      simp only [List.getD_eq_getElem?_getD]
      rw [List.getElem?_set_ne (by omega)]
    have hset_in : i + ds < arr.length →
        (arr.set (i + ds) (arr.getD i 0)).getD (i + ds) 0 = arr.getD i 0 := by
      intro hb
      simp only [List.getD_eq_getElem?_getD]
      rw [List.getElem?_set_self hb]
      simp
    rcases Nat.lt_or_ge j (i + ds) with hj1 | hj1
    · -- below every write of this call
      rw [if_neg (by omega), if_neg (by omega)]
      exact hset_out j (by omega)
    · rcases Nat.eq_or_lt_of_le hj1 with rfl | hj2
      · -- exactly the slot written in this step
        rw [if_neg (by omega), if_pos (by omega)]
        have : i + ds - ds = i := by omega
        rw [this]
        exact hset_in (by omega)
      · rcases Nat.lt_or_ge j (i + 1 + k + ds) with hj3 | hj3
        · -- written by a later step: the read slot j - ds is untouched
          rw [if_pos (by omega), if_pos (by omega)]
          exact hset_out (j - ds) (by omega)
        · -- beyond all writes
          rw [if_neg (by omega), if_neg (by omega)]
          exact hset_out j (by omega)

/-- Under no aliasing (ds ≥ n) the copy loop moves the digits cleanly, so
the whole-digit branch of operator<<= agrees with operator<<. -/
theorem shlAssign_eq_shlDigits {u : List ℕ} {s : ℕ}
    (hsafe : 0 < s → s % 32 = 0 → u.length ≤ s / 32) :
    shlAssign u s = shlDigits u s := by
  rcases Nat.eq_zero_or_pos s with rfl | hs
  · rfl
  rcases Nat.eq_zero_or_pos u.length with hn | hn
  · have hu0 : u = [] := List.length_eq_zero.mp hn
    subst hu0
    simp [shlAssign, shlDigits]
  rcases Nat.eq_zero_or_pos (s % 32) with hm | hm
  · have hds : u.length ≤ s / 32 := hsafe hs hm
    have hL : shlAssign u s = List.replicate (s / 32) 0 ++
        (copyUp (s / 32) 0 u.length (u ++ List.replicate (s / 32) 0)).drop (s / 32) := by
      unfold shlAssign
      rw [if_neg (show ¬s = 0 by omega), if_neg (show ¬u.length = 0 by omega), if_pos hm]
    have hR : shlDigits u s = List.replicate (s / 32) 0 ++ u := by
      unfold shlDigits
      rw [if_neg (show ¬s = 0 by omega), if_neg (show ¬u.length = 0 by omega), if_pos hm]
    rw [hL, hR]
    congr 1
    have hlen1 : (copyUp (s / 32) 0 u.length (u ++ List.replicate (s / 32) 0)).length =
        u.length + s / 32 := by
      rw [copyUp_length]
      simp
    apply List.ext_getElem?
    intro j
    rcases Nat.lt_or_ge j u.length with hj | hj
    · rw [List.getElem?_drop]
      have hget := copyUp_getD (s / 32) u.length 0 (u ++ List.replicate (s / 32) 0)
        (s / 32 + j) hds (by simp)
      rw [if_pos (by omega)] at hget
      have he : s / 32 + j - s / 32 = j := by omega
      rw [he] at hget
      simp only [List.getD_eq_getElem?_getD] at hget
      rw [List.getElem?_append_left hj] at hget
      rw [List.getElem?_eq_getElem (show s / 32 + j < _ by rw [hlen1] ; omega),
        List.getElem?_eq_getElem hj] at hget ⊢
      simp only [Option.getD_some] at hget
      rw [hget]
    · rw [List.getElem?_eq_none (by rw [List.length_drop, hlen1] ; omega),
        List.getElem?_eq_none hj]
  · have hL : shlAssign u s = List.replicate (s / 32) 0 ++
        (List.zipWith (fun cur prev => cur * 2 ^ (s % 32) % B ||| prev / 2 ^ (32 - s % 32))
          u (0 :: u) ++
        (if clzTop u < s % 32 then [u.getLastD 0 / 2 ^ (32 - s % 32)] else [])) := by
      unfold shlAssign
      rw [if_neg (show ¬s = 0 by omega), if_neg (show ¬u.length = 0 by omega),
        if_neg (show ¬s % 32 = 0 by omega)]
    have hR : shlDigits u s = List.replicate (s / 32) 0 ++
        (List.zipWith (fun cur prev => cur * 2 ^ (s % 32) % B ||| prev / 2 ^ (32 - s % 32))
          u (0 :: u) ++
        (if clzTop u < s % 32 then [u.getLastD 0 / 2 ^ (32 - s % 32)] else [])) := by
      unfold shlDigits
      rw [if_neg (show ¬s = 0 by omega), if_neg (show ¬u.length = 0 by omega),
        if_neg (show ¬s % 32 = 0 by omega)]
    rw [hL, hR]

/-- C9 counterexample: the two-digit magnitude with digits (1, 2)
(value 2·2^32 + 1) shifted in place by one whole digit: the ascending copy
loop reads an already-overwritten slot and duplicates the low digit. -/
theorem claim_C9_counterexample :
    shlAssign [1, 2] 32 = [0, 1, 1] ∧ shlDigits [1, 2] 32 = [0, 1, 2] ∧
      Canon [1, 2] ∧ val [0, 1, 1] ≠ val [1, 2] * 2 ^ 32 := by
  refine ⟨by decide, by decide, by decide, by decide⟩

/-- The digit-wise sweep of Unsigned::divideByDigitReturnRem, processing
digits from the most significant end (the input list here is already
reversed, most significant first), carrying the running remainder. -/
def divDigitLoop (dv : ℕ) : List ℕ → ℕ → List ℕ × ℕ
  | [], r => ([], r)
  | a :: rest, r =>
    ((((r * B + a) / dv) % B) :: (divDigitLoop dv rest ((r * B + a) % dv)).1,
      (divDigitLoop dv rest ((r * B + a) % dv)).2)

/-- Unsigned::divideByDigitReturnRem — divide the magnitude in place by a
single digit and return the remainder; a divisor of 1 short-circuits, and
one leading zero quotient digit is trimmed. -/
def divremByDigit (u : List ℕ) (dv : ℕ) : List ℕ × ℕ :=
  if dv = 1 then (u, 0)
  else
    ((if (divDigitLoop dv u.reverse 0).1.reverse.getLast? = some 0 then
        (divDigitLoop dv u.reverse 0).1.reverse.dropLast
      else (divDigitLoop dv u.reverse 0).1.reverse),
      (divDigitLoop dv u.reverse 0).2)

theorem divDigitLoop_spec {dv : ℕ} (hdv : 0 < dv) (hdvB : dv < B) :
    ∀ (l : List ℕ) (r : ℕ), r < dv → (∀ d ∈ l, d < B) →
      val (divDigitLoop dv l r).1.reverse * dv + (divDigitLoop dv l r).2 =
          r * B ^ l.length + val l.reverse ∧
        (divDigitLoop dv l r).2 < dv ∧
        (divDigitLoop dv l r).1.length = l.length ∧
        ∀ d ∈ (divDigitLoop dv l r).1, d < B := by
  intro l
  induction l with
  | nil =>
    intro r hr _
    refine ⟨by simp [divDigitLoop], hr, rfl, by simp [divDigitLoop]⟩
  | cons a rest ih =>
    intro r hr hd
    have ha : a < B := hd a (by simp)
    have hq0 : ((r * B + a) / dv) % B = (r * B + a) / dv := by
      apply Nat.mod_eq_of_lt
      rw [Nat.div_lt_iff_lt_mul hdv, Nat.mul_comm B dv]
      have h2 : (r + 1) * B ≤ dv * B := Nat.mul_le_mul_right B (by omega)
      rw [Nat.add_mul, Nat.one_mul] at h2
      omega
    have hr1 : (r * B + a) % dv < dv := Nat.mod_lt _ (by omega)
    obtain ⟨ih1, ih2, ih3, ih4⟩ := ih ((r * B + a) % dv) hr1
      (fun d hdm => hd d (by simp [hdm]))
    have hstep1 : (divDigitLoop dv (a :: rest) r).1 =
        ((r * B + a) / dv) % B :: (divDigitLoop dv rest ((r * B + a) % dv)).1 := rfl
    have hstep2 : (divDigitLoop dv (a :: rest) r).2 =
        (divDigitLoop dv rest ((r * B + a) % dv)).2 := rfl
    refine ⟨?_, by rw [hstep2]; exact ih2, ?_, ?_⟩
    · have hdm : dv * ((r * B + a) / dv) + (r * B + a) % dv = r * B + a :=
        Nat.div_add_mod _ _
      have e1 : (divDigitLoop dv (a :: rest) r).1.reverse =
          (divDigitLoop dv rest ((r * B + a) % dv)).1.reverse ++ [(r * B + a) / dv] := by
        rw [hstep1, List.reverse_cons, hq0]
      rw [e1, hstep2, val_append, List.length_reverse, ih3]
      have e2 : val [(r * B + a) / dv] = (r * B + a) / dv := by
        simp [val]
      rw [e2]
      have e3 : val (a :: rest).reverse = val rest.reverse + B ^ rest.length * a := by
        rw [List.reverse_cons, val_append, List.length_reverse]
        simp [val]
      rw [List.length_cons, e3]
      zify
      zify at ih1 hdm
      linear_combination ih1 + (B : ℤ) ^ rest.length * hdm
    · rw [hstep1]
      simp [ih3]
    · intro d hdm
      rw [hstep1, List.mem_cons] at hdm
      rcases hdm with rfl | hdm
      · exact Nat.mod_lt _ B_pos
      · exact ih4 d hdm

theorem val_dropLast {l : List ℕ} (h : l.getLast? = some 0) :
    val l.dropLast = val l := by
  have hne : l ≠ [] := by rintro rfl ; simp at h
  have hg : l.getLast hne = 0 := by
    rw [List.getLast?_eq_getLast l hne] at h
    exact Option.some.inj h
  conv_rhs => rw [← List.dropLast_append_getLast hne]
  rw [hg, val_append]
  simp [val]

theorem divremByDigit_spec {u : List ℕ} {dv : ℕ} (hu : Canon u) (hdv : 0 < dv)
    (hdvB : dv < B) :
    val (divremByDigit u dv).1 = val u / dv ∧
      (divremByDigit u dv).2 = val u % dv ∧ Canon (divremByDigit u dv).1 := by
  by_cases h1 : dv = 1
  · subst h1
    simp only [divremByDigit, if_pos rfl, Nat.div_one, Nat.mod_one]
    exact ⟨rfl, rfl, hu⟩
  · obtain ⟨s1, s2, s3, s4⟩ := divDigitLoop_spec hdv hdvB u.reverse 0 hdv
      (fun d hm => hu.1 d (List.mem_reverse.mp hm))
    rw [List.reverse_reverse, Nat.zero_mul, Nat.zero_add] at s1
    have hqd : ∀ d ∈ (divDigitLoop dv u.reverse 0).1.reverse, d < B :=
      fun d hm => s4 d (List.mem_reverse.mp hm)
    have hlen : (divDigitLoop dv u.reverse 0).1.reverse.length = u.length := by
      rw [List.length_reverse, s3, List.length_reverse]
    rw [Nat.mul_comm] at s1
    have hvq : val (divDigitLoop dv u.reverse 0).1.reverse = val u / dv := by
      rw [← s1, Nat.mul_add_div hdv, Nat.div_eq_of_lt s2, Nat.add_zero]
    have hrem : (divDigitLoop dv u.reverse 0).2 = val u % dv := by
      have hdm := Nat.div_add_mod (val u) dv
      rw [← hvq] at hdm
      omega
    by_cases hz : (divDigitLoop dv u.reverse 0).1.reverse.getLast? = some 0
    · have hres : (divremByDigit u dv).1 =
          (divDigitLoop dv u.reverse 0).1.reverse.dropLast := by
        rw [divremByDigit, if_neg h1, if_pos hz]
      have hvd : val (divDigitLoop dv u.reverse 0).1.reverse.dropLast = val u / dv := by
        rw [val_dropLast hz, hvq]
      refine ⟨by rw [hres, hvd], by rw [divremByDigit, if_neg h1] ; exact hrem, ?_⟩
      rw [hres]
      by_cases hnil : (divDigitLoop dv u.reverse 0).1.reverse.dropLast = []
      · rw [hnil] ; exact canon_nil
      · have hqne : (divDigitLoop dv u.reverse 0).1.reverse ≠ [] := by
          intro h0 ; rw [h0] at hnil ; exact hnil rfl
        have hune : u ≠ [] := by
          intro h0
          apply hqne
          apply List.eq_nil_of_length_eq_zero
          rw [hlen, h0]
          rfl
        have hlen2 : 2 ≤ u.length := by
          have := List.length_pos.mpr hnil
          rw [List.length_dropLast, hlen] at this
          omega
        apply canon_of_ge
          (fun d hm => hqd d (List.dropLast_sublist _ |>.subset hm)) ?_ hnil
        have hexp : (divDigitLoop dv u.reverse 0).1.reverse.dropLast.length - 1 =
            u.length - 2 := by
          rw [List.length_dropLast, hlen]
          omega
        rw [hexp, hvd, Nat.le_div_iff_mul_le hdv]
        have hval : B ^ (u.length - 1) ≤ val u := canon_le_val hu hune
        have hmul : B ^ (u.length - 2) * dv ≤ B ^ (u.length - 2) * B :=
          Nat.mul_le_mul_left _ (Nat.le_of_lt hdvB)
        have hpow : B ^ (u.length - 2) * B = B ^ (u.length - 1) := by
          have e : u.length - 1 = u.length - 2 + 1 := by omega
          rw [e, Nat.pow_succ]
        omega
    · have hres : (divremByDigit u dv).1 = (divDigitLoop dv u.reverse 0).1.reverse := by
        rw [divremByDigit, if_neg h1, if_neg hz]
      exact ⟨by rw [hres, hvq], by rw [divremByDigit, if_neg h1] ; exact hrem,
        by rw [hres] ; exact ⟨hqd, hz⟩⟩

/-- Loop of Unsigned::multiplyByDigit: each digit goes through multiplyAdd
with the running carry, and a surviving carry is appended as a new digit. -/
def mulDigitLoop (d : ℕ) : List ℕ → ℕ → List ℕ
  | [], c => if c ≠ 0 then [c] else []
  | a :: rest, c => (multiplyAdd a d c).1 :: mulDigitLoop d rest (multiplyAdd a d c).2

/-- Unsigned::multiplyByDigit — multiply the magnitude in place by one digit. -/
def multiplyByDigit (u : List ℕ) (d : ℕ) : List ℕ := mulDigitLoop d u 0

/-- Carry-propagation loop of Unsigned::addDigit: add zero with carry to the
remaining digits until the carry dies, appending a final 1 if it survives. -/
def addCarryLoop : List ℕ → Bool → List ℕ
  | l, false => l
  | [], true => [1]
  | a :: rest, true => (addCarry a 0 true).1 :: addCarryLoop rest (addCarry a 0 true).2

/-- Unsigned::addDigit — add one digit to the magnitude in place. -/
def addDigit (u : List ℕ) (d : ℕ) : List ℕ :=
  match u with
  | [] => if d ≠ 0 then [d] else []
  | a :: rest => (addCarry a d false).1 :: addCarryLoop rest (addCarry a d false).2

theorem mulDigitLoop_spec {d : ℕ} (hd : d < B) :
    ∀ (u : List ℕ) (c : ℕ), (∀ x ∈ u, x < B) → c < B →
      val (mulDigitLoop d u c) = val u * d + c ∧
        (∀ x ∈ mulDigitLoop d u c, x < B) ∧
        ((mulDigitLoop d u c).length = u.length ∨
          ((mulDigitLoop d u c).length = u.length + 1 ∧
            B ^ u.length ≤ val (mulDigitLoop d u c))) := by
  intro u
  induction u with
  | nil =>
    intro c _ hc
    by_cases h0 : c = 0
    · subst h0
      refine ⟨by simp [mulDigitLoop], by simp [mulDigitLoop], Or.inl (by simp [mulDigitLoop])⟩
    · have he : mulDigitLoop d [] c = [c] := by
        simp [mulDigitLoop, h0]
      refine ⟨by rw [he] ; simp only [val_cons, val_nil] ; omega, ?_,
        Or.inr ⟨by rw [he] ; rfl, ?_⟩⟩
      · intro x hx
        rw [he, List.mem_singleton] at hx
        subst hx ; exact hc
      · rw [he] ; simp only [val_cons, val_nil, List.length_nil, pow_zero] ; omega
  | cons a rest ih =>
    intro c hu hc
    have ha : a < B := hu a (by simp)
    have hc2 : (multiplyAdd a d c).2 < B := by
      show (a * d + c) / B < B
      rw [Nat.div_lt_iff_lt_mul B_pos]
      have h1 : a * d ≤ (B - 1) * (B - 1) :=
        Nat.mul_le_mul (by omega) (by omega)
      have h2 : (B - 1) * (B - 1) + (B - 1) = (B - 1) * B := by
        have hB1 : B - 1 + 1 = B := Nat.succ_pred_eq_of_pos B_pos
        calc (B - 1) * (B - 1) + (B - 1) = (B - 1) * (B - 1 + 1) := by ring
          _ = (B - 1) * B := by rw [hB1]
      have h3 : (B - 1) * B < B * B :=
        (Nat.mul_lt_mul_right B_pos).mpr (by omega)
      omega
    obtain ⟨ih1, ih2, ih3⟩ := ih (multiplyAdd a d c).2 (fun x hx => hu x (by simp [hx])) hc2
    have hstep : mulDigitLoop d (a :: rest) c =
        (multiplyAdd a d c).1 :: mulDigitLoop d rest (multiplyAdd a d c).2 := rfl
    have hm1 : (multiplyAdd a d c).1 = (a * d + c) % B := rfl
    have hm2 : (multiplyAdd a d c).2 = (a * d + c) / B := rfl
    have hdm : B * ((a * d + c) / B) + (a * d + c) % B = a * d + c :=
      Nat.div_add_mod _ _
    refine ⟨?_, ?_, ?_⟩
    · rw [hstep, val_cons, val_cons, ih1, hm1, hm2, Nat.mul_add, ← Nat.mul_assoc,
        Nat.add_mul]
      omega
    · intro x hx
      rw [hstep, List.mem_cons] at hx
      rcases hx with rfl | hx
      · exact Nat.mod_lt _ B_pos
      · exact ih2 x hx
    · rcases ih3 with hlen | ⟨hlen, hge⟩
      · exact Or.inl (by rw [hstep] ; simp [hlen])
      · refine Or.inr ⟨by rw [hstep] ; simp [hlen], ?_⟩
        rw [hstep, val_cons]
        have : B * B ^ rest.length ≤ B * val (mulDigitLoop d rest (multiplyAdd a d c).2) :=
          Nat.mul_le_mul_left _ hge
        calc B ^ (a :: rest).length = B * B ^ rest.length := by
              rw [List.length_cons, Nat.pow_succ] ; ring
          _ ≤ B * val (mulDigitLoop d rest (multiplyAdd a d c).2) := this
          _ ≤ _ := by omega

theorem addCarryLoop_spec :
    ∀ (l : List ℕ) (c : Bool), (∀ x ∈ l, x < B) →
      val (addCarryLoop l c) = val l + c.toNat ∧
        (∀ x ∈ addCarryLoop l c, x < B) ∧
        ((addCarryLoop l c).length = l.length ∨
          ((addCarryLoop l c).length = l.length + 1 ∧
            B ^ l.length ≤ val (addCarryLoop l c))) := by
  intro l
  induction l with
  | nil =>
    intro c _
    cases c with
    | false => exact ⟨by simp [addCarryLoop], by simp [addCarryLoop],
        Or.inl (by simp [addCarryLoop])⟩
    | true =>
      refine ⟨by simp [addCarryLoop, val], ?_, Or.inr ⟨rfl, by simp [addCarryLoop, val]⟩⟩
      intro x hx
      simp only [addCarryLoop, List.mem_singleton] at hx
      subst hx
      have := B_ge_two
      omega
  | cons a rest ih =>
    intro c hl
    cases c with
    | false => exact ⟨by simp [addCarryLoop], hl, Or.inl (by simp [addCarryLoop])⟩
    | true =>
      have ha : a < B := hl a (by simp)
      obtain ⟨hv, hltB⟩ := addCarry_val a 0 true ha B_pos
      obtain ⟨ih1, ih2, ih3⟩ := ih (addCarry a 0 true).2 (fun x hx => hl x (by simp [hx]))
      have hstep : addCarryLoop (a :: rest) true =
          (addCarry a 0 true).1 :: addCarryLoop rest (addCarry a 0 true).2 := rfl
      refine ⟨?_, ?_, ?_⟩
      · rw [hstep, val_cons, ih1, val_cons, Nat.mul_add]
        have hcn : ((true : Bool)).toNat = 1 := rfl
        rw [hcn] at hv ⊢
        omega
      · intro x hx
        rw [hstep, List.mem_cons] at hx
        rcases hx with rfl | hx
        · exact hltB
        · exact ih2 x hx
      · rcases ih3 with hlen | ⟨hlen, hge⟩
        · exact Or.inl (by rw [hstep] ; simp [hlen])
        · refine Or.inr ⟨by rw [hstep] ; simp [hlen], ?_⟩
          rw [hstep, val_cons]
          have : B * B ^ rest.length ≤ B * val (addCarryLoop rest (addCarry a 0 true).2) :=
            Nat.mul_le_mul_left _ hge
          calc B ^ (a :: rest).length = B * B ^ rest.length := by
                rw [List.length_cons, Nat.pow_succ] ; ring
            _ ≤ B * val (addCarryLoop rest (addCarry a 0 true).2) := this
            _ ≤ _ := by omega

theorem multiplyByDigit_spec {u : List ℕ} {d : ℕ} (hu : Canon u) (hd1 : 1 ≤ d)
    (hdB : d < B) :
    val (multiplyByDigit u d) = val u * d ∧ Canon (multiplyByDigit u d) := by
  obtain ⟨h1, h2, h3⟩ := mulDigitLoop_spec hdB u 0 hu.1 B_pos
  have hz : val u * d + 0 = val u * d := rfl
  rw [hz] at h1
  rcases List.eq_nil_or_concat u with rfl | ⟨m, e, rfl⟩
  · have he : multiplyByDigit [] d = [] := by
      simp [multiplyByDigit, mulDigitLoop]
    rw [he]
    exact ⟨by simp [val], canon_nil⟩
  · rw [List.concat_eq_append] at *
    have hne : m ++ [e] ≠ [] := by simp
    have hval : B ^ ((m ++ [e]).length - 1) ≤ val (m ++ [e]) := canon_le_val hu hne
    refine ⟨h1, ?_⟩
    show Canon (mulDigitLoop d (m ++ [e]) 0)
    rcases h3 with hlen | ⟨hlen, hge⟩
    · have hne2 : mulDigitLoop d (m ++ [e]) 0 ≠ [] := by
        intro hc ; rw [hc] at hlen ; simp at hlen
      have hge2 : B ^ ((mulDigitLoop d (m ++ [e]) 0).length - 1) ≤
          val (mulDigitLoop d (m ++ [e]) 0) := by
        rw [hlen, h1]
        calc B ^ ((m ++ [e]).length - 1) ≤ val (m ++ [e]) := hval
          _ = val (m ++ [e]) * 1 := by ring
          _ ≤ val (m ++ [e]) * d := Nat.mul_le_mul_left _ hd1
      exact canon_of_ge h2 hge2 hne2
    · have hne2 : mulDigitLoop d (m ++ [e]) 0 ≠ [] := by
        intro hc ; rw [hc] at hlen ; simp at hlen
      have hge2 : B ^ ((mulDigitLoop d (m ++ [e]) 0).length - 1) ≤
          val (mulDigitLoop d (m ++ [e]) 0) := by
        rw [hlen]
        have e2 : (m ++ [e]).length + 1 - 1 = (m ++ [e]).length := rfl
        rw [e2]
        exact hge
      exact canon_of_ge h2 hge2 hne2

theorem addDigit_spec {u : List ℕ} {d : ℕ} (hu : Canon u) (hd : d < B) :
    val (addDigit u d) = val u + d ∧ Canon (addDigit u d) := by
  match u with
  | [] =>
    by_cases h0 : d = 0
    · subst h0
      have he : addDigit [] 0 = [] := by simp [addDigit]
      rw [he]
      exact ⟨by simp [val], canon_nil⟩
    · have he : addDigit [] d = [d] := by simp [addDigit, h0]
      rw [he]
      refine ⟨by simp only [val_cons, val_nil] ; omega, ?_, ?_⟩
      · intro x hx
        rw [List.mem_singleton] at hx
        subst hx ; exact hd
      · simp [h0]
  | a :: rest =>
    have ha : a < B := hu.1 a (by simp)
    obtain ⟨hv, hltB⟩ := addCarry_val a d false ha hd
    have hfz : ((false : Bool)).toNat = 0 := rfl
    rw [hfz, Nat.add_zero] at hv
    obtain ⟨l1, l2, l3⟩ := addCarryLoop_spec rest (addCarry a d false).2
      (fun x hx => hu.1 x (by simp [hx]))
    have hstep : addDigit (a :: rest) d =
        (addCarry a d false).1 :: addCarryLoop rest (addCarry a d false).2 := rfl
    have hval : val (addDigit (a :: rest) d) = val (a :: rest) + d := by
      rw [hstep, val_cons, l1, val_cons, Nat.mul_add]
      omega
    refine ⟨hval, ?_⟩
    have hdig : ∀ x ∈ addDigit (a :: rest) d, x < B := by
      intro x hx
      rw [hstep, List.mem_cons] at hx
      rcases hx with rfl | hx
      · exact hltB
      · exact l2 x hx
    have hne : addDigit (a :: rest) d ≠ [] := by rw [hstep] ; simp
    apply canon_of_ge hdig ?_ hne
    rcases l3 with hlen | ⟨hlen, hge⟩
    · have hl : (addDigit (a :: rest) d).length = (a :: rest).length := by
        rw [hstep] ; simp [hlen]
      rw [hl, hval]
      calc B ^ ((a :: rest).length - 1) ≤ val (a :: rest) :=
            canon_le_val hu (by simp)
        _ ≤ val (a :: rest) + d := Nat.le_add_right _ _
    · have hl : (addDigit (a :: rest) d).length = rest.length + 2 := by
        rw [hstep] ; simp [hlen]
      rw [hl, hstep, val_cons]
      have hmul : B * B ^ rest.length ≤
          B * val (addCarryLoop rest (addCarry a d false).2) :=
        Nat.mul_le_mul_left _ hge
      have hexp : B ^ (rest.length + 2 - 1) = B * B ^ rest.length := by
        have e : rest.length + 2 - 1 = rest.length + 1 := rfl
        rw [e, Nat.pow_succ] ; ring
      rw [hexp]
      omega

/-- Inner accumulation loop of Unsigned::Unsigned(const char*): Horner
accumulation of one chunk of decimal characters (ASCII codes), failing on a
character outside 48..57 exactly where the constructor throws. -/
def chunkVal : List ℕ → ℕ → Option ℕ
  | [], acc => some acc
  | c :: rest, acc =>
    if c < 48 ∨ 57 < c then none
    else chunkVal rest (10 * acc + (c - 48))

/-- Outer loop of Unsigned::Unsigned(const char*): consume the decimal text in
chunks of at most nine characters (maxDecDigitsPerDigit for 32-bit digits),
multiply the accumulated magnitude by the chunk's power of ten
(maxPow10PerDigit for a full chunk) and add the chunk's value. -/
def parseLoop (u : List ℕ) (cs : List ℕ) : Option (List ℕ) :=
  if h : cs = [] then some u
  else
    match chunkVal (cs.take 9) 0 with
    | none => none
    | some add =>
      parseLoop
        (addDigit
          (multiplyByDigit u
            (if (cs.take 9).length = 9 then 1000000000 else 10 ^ (cs.take 9).length))
          add)
        (cs.drop 9)
termination_by cs.length
decreasing_by
  have hpos : 0 < cs.length := List.length_pos.mpr h
  simp only [List.length_drop]
  omega

/-- Unsigned::Unsigned(const char*): an empty string throws; otherwise the
chunk loop runs over the whole text starting from the zero magnitude. -/
def parseDec (cs : List ℕ) : Option (List ℕ) :=
  if cs = [] then none else parseLoop [] cs

/-- Numeric value of a string of decimal characters (ASCII codes, most
significant first). -/
def decNat (cs : List ℕ) : ℕ :=
  Nat.ofDigits 10 ((cs.map (fun c => c - 48)).reverse)

/-- Canonical decimal text of a natural number as ASCII codes: "0" for zero,
otherwise the base-10 digits most significant first with no leading zeros. -/
def decText (n : ℕ) : List ℕ :=
  if n = 0 then [48] else ((Nat.digits 10 n).map (fun d => 48 + d)).reverse

theorem decNat_nil : decNat [] = 0 := rfl

theorem decNat_cons (c : ℕ) (rest : List ℕ) :
    decNat (c :: rest) = decNat rest + 10 ^ rest.length * (c - 48) := by
  unfold decNat
  rw [List.map_cons, List.reverse_cons, Nat.ofDigits_append]
  simp [Nat.ofDigits_singleton]

theorem decNat_append (xs ys : List ℕ) :
    decNat (xs ++ ys) = decNat xs * 10 ^ ys.length + decNat ys := by
  unfold decNat
  rw [List.map_append, List.reverse_append, Nat.ofDigits_append]
  simp only [List.length_reverse, List.length_map]
  ring

theorem decNat_lt (cs : List ℕ) (h : ∀ c ∈ cs, c ≤ 57) :
    decNat cs < 10 ^ cs.length := by
  induction cs with
  | nil => simp [decNat_nil]
  | cons c rest ih =>
    rw [decNat_cons, List.length_cons]
    have h1 : decNat rest < 10 ^ rest.length := ih (fun x hx => h x (by simp [hx]))
    have h2 : c - 48 ≤ 9 := by
      have := h c (by simp)
      omega
    have h3 : 10 ^ rest.length * (c - 48) ≤ 10 ^ rest.length * 9 :=
      Nat.mul_le_mul_left _ h2
    have h4 : 10 ^ (rest.length + 1) = 10 ^ rest.length * 10 := Nat.pow_succ ..
    omega

theorem chunkVal_spec :
    ∀ (cs : List ℕ) (acc : ℕ), (∀ c ∈ cs, 48 ≤ c ∧ c ≤ 57) →
      chunkVal cs acc = some (acc * 10 ^ cs.length + decNat cs) := by
  intro cs
  induction cs with
  | nil =>
    intro acc _
    simp [chunkVal, decNat_nil]
  | cons c rest ih =>
    intro acc h
    obtain ⟨h48, h57⟩ := h c (by simp)
    have hstep : chunkVal (c :: rest) acc = chunkVal rest (10 * acc + (c - 48)) := by
      rw [chunkVal, if_neg (by omega)]
    rw [hstep, ih (10 * acc + (c - 48)) (fun x hx => h x (by simp [hx]))]
    congr 1
    rw [decNat_cons, List.length_cons]
    obtain ⟨e, rfl⟩ : ∃ e, c = 48 + e := ⟨c - 48, by omega⟩
    have he : 48 + e - 48 = e := by omega
    rw [he]
    ring

theorem pow10_lt_B {k : ℕ} (hk : k ≤ 9) : 10 ^ k < B := by
  have h1 : (10 : ℕ) ^ k ≤ 10 ^ 9 := Nat.pow_le_pow_right (by norm_num) hk
  have h2 : (10 : ℕ) ^ 9 < 2 ^ 32 := by norm_num
  unfold B
  omega

theorem parseLoop_spec :
    ∀ (N : ℕ) (cs : List ℕ), cs.length ≤ N → ∀ (u : List ℕ), Canon u →
      (∀ c ∈ cs, 48 ≤ c ∧ c ≤ 57) →
      ∃ w, parseLoop u cs = some w ∧
        val w = val u * 10 ^ cs.length + decNat cs ∧ Canon w := by
  intro N
  induction N with
  | zero =>
    intro cs hlen u hu _
    have hnil : cs = [] := List.eq_nil_of_length_eq_zero (Nat.le_zero.mp hlen)
    subst hnil
    exact ⟨u, by rw [parseLoop] ; rfl, by simp [decNat_nil], hu⟩
  | succ N ih =>
    intro cs hlen u hu hds
    by_cases hnil : cs = []
    · subst hnil
      exact ⟨u, by rw [parseLoop] ; rfl, by simp [decNat_nil], hu⟩
    · have htake : ∀ c ∈ cs.take 9, 48 ≤ c ∧ c ≤ 57 :=
        fun c hc => hds c (List.take_subset 9 cs hc)
      have hchunk := chunkVal_spec (cs.take 9) 0 htake
      rw [Nat.zero_mul, Nat.zero_add] at hchunk
      have hmul : (if (cs.take 9).length = 9 then 1000000000
          else 10 ^ (cs.take 9).length) = 10 ^ (cs.take 9).length := by
        by_cases h9 : (cs.take 9).length = 9
        · rw [if_pos h9, h9] ; norm_num
        · rw [if_neg h9]
      have hstep : parseLoop u cs =
          parseLoop
            (addDigit (multiplyByDigit u (10 ^ (cs.take 9).length))
              (decNat (cs.take 9)))
            (cs.drop 9) := by
        conv_lhs => rw [parseLoop]
        rw [dif_neg hnil]
        split
        · rename_i heq
          rw [hchunk] at heq
          exact absurd heq (by simp)
        · rename_i add heq
          rw [hchunk] at heq
          have hadd : add = decNat (cs.take 9) := by
            injection heq with h ; exact h.symm
          rw [hadd, hmul]
      have htl : (cs.take 9).length ≤ 9 := by
        rw [List.length_take] ; omega
      have hmul1 : 1 ≤ 10 ^ (cs.take 9).length := Nat.one_le_pow _ 10 (by norm_num)
      have hmulB : 10 ^ (cs.take 9).length < B := pow10_lt_B htl
      obtain ⟨hv1, hc1⟩ := multiplyByDigit_spec hu hmul1 hmulB
      have haddB : decNat (cs.take 9) < B := by
        have h1 : decNat (cs.take 9) < 10 ^ (cs.take 9).length :=
          decNat_lt _ (fun c hc => (htake c hc).2)
        omega
      obtain ⟨hv2, hc2⟩ := addDigit_spec hc1 haddB
      have hlen2 : (cs.drop 9).length ≤ N := by
        rw [List.length_drop]
        have : 0 < cs.length := List.length_pos.mpr hnil
        omega
      obtain ⟨w, hw1, hw2, hw3⟩ := ih (cs.drop 9) hlen2 _ hc2
        (fun c hc => hds c (List.drop_subset 9 cs hc))
      refine ⟨w, by rw [hstep] ; exact hw1, ?_, hw3⟩
      rw [hw2, hv2, hv1]
      have hsplit : decNat cs =
          decNat (cs.take 9) * 10 ^ (cs.drop 9).length + decNat (cs.drop 9) := by
        conv_lhs => rw [← List.take_append_drop 9 cs]
        rw [decNat_append]
      have hlensum : (cs.take 9).length + (cs.drop 9).length = cs.length := by
        rw [← List.length_append, List.take_append_drop]
      rw [hsplit, ← hlensum, pow_add]
      ring

theorem parseDec_spec {cs : List ℕ} (hne : cs ≠ [])
    (hds : ∀ c ∈ cs, 48 ≤ c ∧ c ≤ 57) :
    ∃ w, parseDec cs = some w ∧ val w = decNat cs ∧ Canon w := by
  obtain ⟨w, h1, h2, h3⟩ := parseLoop_spec cs.length cs (le_refl _) [] canon_nil hds
  refine ⟨w, ?_, ?_, h3⟩
  · rw [parseDec, if_neg hne] ; exact h1
  · rw [h2] ; simp [val]

/-- Character-emission loop of Unsigned::str: push the decimal characters of a
block remainder, least significant first (ASCII codes), nine per block. -/
def pushDigits : ℕ → ℕ → List ℕ
  | 0, _ => []
  | k + 1, m => (48 + m % 10) :: pushDigits k (m / 10)

/-- Main loop of Unsigned::str: repeatedly divide the working copy by 10^9 and
emit the block remainders, least significant block first. The source loop runs
until the magnitude is exhausted; the fuel argument bounds the iteration count
(any fuel above the magnitude's value is enough, as the value strictly shrinks
every round). -/
def strLoop : ℕ → List ℕ → List ℕ
  | 0, _ => []
  | fuel + 1, temp =>
    if temp = [] then []
    else
      pushDigits 9 (divremByDigit temp 1000000000).2 ++
        strLoop fuel (divremByDigit temp 1000000000).1

/-- Unsigned::str: zero prints as "0"; otherwise emit the blocks, strip the
trailing zero characters (the number's leading decimal zeros) and reverse into
most-significant-first order. -/
def str (u : List ℕ) : List ℕ :=
  if u = [] then [48]
  else (strLoop (val u + 1) u).reverse.dropWhile (fun c => decide (c = 48))

theorem pushDigits_append :
    ∀ (a : ℕ) (b n : ℕ), pushDigits a n ++ pushDigits b (n / 10 ^ a) =
      pushDigits (a + b) n := by
  intro a
  induction a with
  | zero =>
    intro b n
    simp [pushDigits, Nat.div_one]
  | succ a ih =>
    intro b n
    have hdd : n / 10 ^ (a + 1) = n / 10 / 10 ^ a := by
      rw [Nat.div_div_eq_div_mul]
      congr 1
      rw [pow_succ] ; ring
    have hstep : pushDigits (a + 1) n = (48 + n % 10) :: pushDigits a (n / 10) := rfl
    have he : a + 1 + b = a + b + 1 := by omega
    rw [hstep, hdd, List.cons_append, ih b (n / 10), he]
    rfl

theorem pushDigits_mod :
    ∀ (k m n : ℕ), k ≤ m → pushDigits k (n % 10 ^ m) = pushDigits k n := by
  intro k
  induction k with
  | zero => intro m n _ ; rfl
  | succ k ih =>
    intro m n hkm
    have hm1 : 1 ≤ m := by omega
    have hsplit : (10 : ℕ) ^ m = 10 * 10 ^ (m - 1) := by
      have e : m = m - 1 + 1 := by omega
      conv_lhs => rw [e]
      rw [pow_succ] ; ring
    have hmod : n % 10 ^ m % 10 = n % 10 := by
      apply Nat.mod_mod_of_dvd
      rw [hsplit]
      exact Dvd.intro _ rfl
    have hdiv : n % 10 ^ m / 10 = n / 10 % 10 ^ (m - 1) := by
      rw [hsplit]
      exact Nat.mod_mul_right_div_self n 10 (10 ^ (m - 1))
    have hstep : pushDigits (k + 1) (n % 10 ^ m) =
        (48 + n % 10 ^ m % 10) :: pushDigits k (n % 10 ^ m / 10) := rfl
    have hstep2 : pushDigits (k + 1) n = (48 + n % 10) :: pushDigits k (n / 10) := rfl
    rw [hstep, hstep2, hmod, hdiv, ih (m - 1) (n / 10) (by omega)]

theorem pushDigits_digits :
    ∀ (m n : ℕ), n < 10 ^ m →
      pushDigits m n = (Nat.digits 10 n).map (fun d => 48 + d) ++
        List.replicate (m - (Nat.digits 10 n).length) 48 := by
  intro m
  induction m with
  | zero =>
    intro n hn
    have : n = 0 := by simpa using hn
    subst this
    simp [pushDigits]
  | succ m ih =>
    intro n hn
    by_cases h0 : n = 0
    · subst h0
      have hz : ∀ k, pushDigits k 0 = List.replicate k 48 := by
        intro k
        induction k with
        | zero => rfl
        | succ k ihk =>
          have hstep : pushDigits (k + 1) 0 = (48 + 0 % 10) :: pushDigits k (0 / 10) := rfl
          rw [hstep, ihk]
          rfl
      rw [hz]
      simp
    · have hpos : 0 < n := Nat.pos_of_ne_zero h0
      have hdig : Nat.digits 10 n = n % 10 :: Nat.digits 10 (n / 10) :=
        Nat.digits_def' (by norm_num) hpos
      have hlt : n / 10 < 10 ^ m := by
        rw [Nat.div_lt_iff_lt_mul (by norm_num)]
        rw [pow_succ] at hn
        exact hn
      have hstep : pushDigits (m + 1) n = (48 + n % 10) :: pushDigits m (n / 10) := rfl
      rw [hstep, ih (n / 10) hlt, hdig]
      simp [List.replicate]

theorem strLoop_spec :
    ∀ (fuel : ℕ) (u : List ℕ), Canon u → val u < fuel →
      ∃ k, strLoop fuel u = pushDigits (9 * k) (val u) ∧ val u < 10 ^ (9 * k) := by
  intro fuel
  induction fuel with
  | zero => intro u _ h ; omega
  | succ fuel ih =>
    intro u hu hlt
    by_cases hnil : u = []
    · subst hnil
      exact ⟨0, rfl, by norm_num [val]⟩
    · have h9B : (1000000000 : ℕ) < B := by unfold B ; norm_num
      obtain ⟨hq, hr, hcq⟩ := divremByDigit_spec hu (by norm_num) h9B
      have hupos : 1 ≤ val u := by
        have h1 := canon_le_val hu hnil
        have h2 : 1 ≤ B ^ (u.length - 1) := Nat.one_le_pow _ _ B_pos
        omega
      have hqlt : val (divremByDigit u 1000000000).1 < fuel := by
        rw [hq]
        have := Nat.div_lt_self (show 0 < val u by omega)
          (show 1 < 1000000000 by norm_num)
        omega
      obtain ⟨k, hk1, hk2⟩ := ih _ hcq hqlt
      have h109 : (1000000000 : ℕ) = 10 ^ 9 := by norm_num
      rw [hq, h109] at hk2
      refine ⟨k + 1, ?_, ?_⟩
      · have hstep : strLoop (fuel + 1) u =
            pushDigits 9 (divremByDigit u 1000000000).2 ++
              strLoop fuel (divremByDigit u 1000000000).1 := by
          simp only [strLoop]
          rw [if_neg hnil]
        rw [hstep, hk1, hr, hq, h109]
        rw [pushDigits_mod 9 9 (val u) (le_refl 9), pushDigits_append 9 (9 * k) (val u)]
        congr 1
        omega
      · have hmodlt : val u % 10 ^ 9 < 10 ^ 9 := Nat.mod_lt _ (by norm_num)
        calc val u = 10 ^ 9 * (val u / 10 ^ 9) + val u % 10 ^ 9 :=
              (Nat.div_add_mod _ _).symm
          _ < 10 ^ 9 * (val u / 10 ^ 9) + 10 ^ 9 := by omega
          _ = 10 ^ 9 * (val u / 10 ^ 9 + 1) := by ring
          _ ≤ 10 ^ 9 * 10 ^ (9 * k) := Nat.mul_le_mul_left _ (by omega)
          _ = 10 ^ (9 * (k + 1)) := by rw [← pow_add] ; congr 1 ; omega

theorem dropWhile_replicate_append (p : ℕ → Bool) (j : ℕ) (a : ℕ) (l : List ℕ)
    (hp : p a = true) :
    List.dropWhile p (List.replicate j a ++ l) = List.dropWhile p l := by
  induction j with
  | zero => rfl
  | succ j ih =>
    rw [List.replicate_succ, List.cons_append, List.dropWhile_cons, hp]
    simpa using ih

theorem str_spec {u : List ℕ} (hu : Canon u) : str u = decText (val u) := by
  by_cases hnil : u = []
  · subst hnil
    rw [str, if_pos rfl]
    rfl
  · have hupos : 1 ≤ val u := by
      have h1 := canon_le_val hu hnil
      have h2 : 1 ≤ B ^ (u.length - 1) := Nat.one_le_pow _ _ B_pos
      omega
    obtain ⟨k, hk1, hk2⟩ := strLoop_spec (val u + 1) u hu (by omega)
    rw [str, if_neg hnil, hk1, pushDigits_digits (9 * k) (val u) hk2]
    rw [List.reverse_append, List.reverse_replicate]
    rw [dropWhile_replicate_append _ _ _ _ (by simp)]
    have hne : Nat.digits 10 (val u) ≠ [] :=
      Nat.digits_ne_nil_iff_ne_zero.mpr (by omega)
    obtain ⟨ds, e, hconcat⟩ :=
      (List.eq_nil_or_concat (Nat.digits 10 (val u))).resolve_left hne
    rw [List.concat_eq_append] at hconcat
    have hlast : (Nat.digits 10 (val u)).getLast hne ≠ 0 :=
      Nat.getLast_digit_ne_zero 10 (by omega)
    have he0 : e ≠ 0 := by
      have h1 : (Nat.digits 10 (val u)).getLast? = some e := by
        rw [hconcat] ; exact getLast?_concat _ _
      have h2 : (Nat.digits 10 (val u)).getLast? =
          some ((Nat.digits 10 (val u)).getLast hne) :=
        List.getLast?_eq_getLast _ hne
      rw [h1] at h2
      intro hc
      apply hlast
      rw [← Option.some.inj h2, hc]
    rw [hconcat, List.map_append, List.reverse_append]
    simp only [List.map_cons, List.map_nil, List.reverse_cons, List.reverse_nil,
      List.nil_append, List.singleton_append]
    rw [List.dropWhile_cons]
    have hp : decide (48 + e = 48) = false := by
      simp
      omega
    rw [hp]
    simp only [Bool.false_eq_true, if_false]
    rw [decText, if_neg (by omega), hconcat]
    simp [List.map_append, List.reverse_append]

theorem decText_chars (n : ℕ) : ∀ c ∈ decText n, 48 ≤ c ∧ c ≤ 57 := by
  intro c hc
  by_cases h0 : n = 0
  · subst h0
    rw [decText, if_pos rfl, List.mem_singleton] at hc
    omega
  · rw [decText, if_neg h0, List.mem_reverse, List.mem_map] at hc
    obtain ⟨d, hd, rfl⟩ := hc
    have : d < 10 := Nat.digits_lt_base (by norm_num) hd
    omega

theorem decText_ne_nil (n : ℕ) : decText n ≠ [] := by
  by_cases h0 : n = 0
  · subst h0 ; rw [decText, if_pos rfl] ; simp
  · rw [decText, if_neg h0]
    simp only [ne_eq, List.reverse_eq_nil_iff, List.map_eq_nil_iff]
    exact Nat.digits_ne_nil_iff_ne_zero.mpr h0

theorem decNat_decText (n : ℕ) : decNat (decText n) = n := by
  by_cases h0 : n = 0
  · subst h0 ; rfl
  · rw [decText, if_neg h0]
    unfold decNat
    rw [List.map_reverse, List.reverse_reverse, List.map_map]
    have he : ((fun c => c - 48) ∘ fun d => 48 + d) = fun d : ℕ => d :=
      funext fun d => by simp
    rw [he]
    have hid : List.map (fun d : ℕ => d) (Nat.digits 10 n) = Nat.digits 10 n := by
      simp
    rw [hid]
    exact Nat.ofDigits_digits 10 n

/-- C5: parsing the canonical decimal text of any natural number yields a
canonical magnitude with that value, and formatting it with str returns
exactly the same text; str of the zero magnitude is the single character
"0". -/
theorem claim_C5 (n : ℕ) :
    ∃ u, parseDec (decText n) = some u ∧ val u = n ∧ Canon u ∧
      str u = decText n ∧ str [] = [48] := by
  obtain ⟨w, h1, h2, h3⟩ := parseDec_spec (decText_ne_nil n) (decText_chars n)
  rw [decNat_decText] at h2
  exact ⟨w, h1, h2, h3, by rw [str_spec h3, h2], rfl⟩

/-- Unsigned::findDivQuotient on five digits (Knuth Algorithm D quotient-digit
estimation). Digit subtraction and decrement wrap modulo B exactly as the
unsigned digit_t arithmetic of the source does. -/
def findDivQuotientD (un un1 un2 vn1 vn2 : ℕ) : ℕ :=
  if un < vn1 then
    let q := (divideRemainder un1 vn1 un).1
    let r := (divideRemainder un1 vn1 un).2
    let p1 := (multiplyAdd q vn2 0).1
    let carry := (multiplyAdd q vn2 0).2
    if carry < r ∨ (carry = r ∧ p1 ≤ un2) then q
    else if (addCarry r vn1 false).2 then (q + B - 1) % B
    else
      let r2 := (addCarry r vn1 false).1
      let p1b := (subBorrow p1 vn2 false).1
      let carry2 := (carry + B - (subBorrow p1 vn2 false).2.toNat) % B
      if carry2 < r2 ∨ (carry2 = r2 ∧ p1b ≤ un2) then (q + B - 1) % B
      else (q + B - 2) % B
  else
    let un1b := (subBorrow un1 vn1 false).1
    let unb := (un + B - (subBorrow un1 vn1 false).2.toNat) % B
    if unb < vn1 then
      let q := (divideRemainder un1b vn1 unb).1
      let r := (divideRemainder un1b vn1 unb).2
      if (addCarry r vn1 false).2 then q
      else
        let r2 := (addCarry r vn1 false).1
        let p1 := (multiplyAdd q vn2 0).1
        let carry := (multiplyAdd q vn2 0).2
        if carry < r2 ∨ (carry = r2 ∧ p1 ≤ un2) then q
        else (q + B - 1) % B
    else
      let un1c := (un1b + B - vn1) % B
      let r := (unb + B - 1) % B
      (divideRemainder un1c vn1 r).1

/-- Unsigned::findDivQuotient on the dividend array: extract the three
relevant (virtually normalized) digits at index i and call the five-digit
estimator. -/
def findDivQuotientLs (u : List ℕ) (ls vn1 vn2 : ℕ) (i : ℕ) : ℕ :=
  if ls = 0 then
    findDivQuotientD (u.getD i 0) (u.getD (i - 1) 0) (u.getD (i - 2) 0) vn1 vn2
  else
    findDivQuotientD
      (u.getD i 0 * 2 ^ ls % B ||| u.getD (i - 1) 0 / 2 ^ (32 - ls))
      (u.getD (i - 1) 0 * 2 ^ ls % B ||| u.getD (i - 2) 0 / 2 ^ (32 - ls))
      (u.getD (i - 2) 0 * 2 ^ ls % B |||
        (if 0 < i - 2 then u.getD (i - 3) 0 / 2 ^ (32 - ls) else 0))
      vn1 vn2

/-- Step D4 inner loop of div: subtract qd times the divisor digits from the
low window digits, folding the multiply carry and the subtraction borrow into
one running carry (digit_t arithmetic, so the update wraps modulo B). -/
def mulSubLoop (qd : ℕ) : List ℕ → List ℕ → ℕ → List ℕ × ℕ
  | [], _, c => ([], c)
  | _ :: _, [], c => ([], c)
  | wv :: vrest, wu :: urest, c =>
    ((subBorrow wu (multiplyAdd qd wv c).1 false).1 ::
        (mulSubLoop qd vrest urest
          (((multiplyAdd qd wv c).2 +
            (subBorrow wu (multiplyAdd qd wv c).1 false).2.toNat) % B)).1,
      (mulSubLoop qd vrest urest
        (((multiplyAdd qd wv c).2 +
          (subBorrow wu (multiplyAdd qd wv c).1 false).2.toNat) % B)).2)

/-- Step D4 of div on one window (the n+1 dividend digits at positions
j..j+n): subtract qd times the divisor, returning the updated window and the
final borrow flag. -/
def divStep (qd : ℕ) (v w : List ℕ) : List ℕ × Bool :=
  ((mulSubLoop qd v (w.take v.length) 0).1 ++
      [(subBorrow (w.getD v.length 0) (mulSubLoop qd v (w.take v.length) 0).2 false).1],
    (subBorrow (w.getD v.length 0) (mulSubLoop qd v (w.take v.length) 0).2 false).2)

/-- Step D6 carry loop of div: add the divisor digits back into the low
window digits. -/
def addBackLoop : List ℕ → List ℕ → Bool → List ℕ × Bool
  | [], _, c => ([], c)
  | _ :: _, [], c => ([], c)
  | a :: vrest, b :: wrest, c =>
    ((addCarry b a c).1 :: (addBackLoop vrest wrest (addCarry b a c).2).1,
      (addBackLoop vrest wrest (addCarry b a c).2).2)

/-- Step D6 of div: add the divisor back into the window after an overlarge
quotient estimate; the final carry into the top digit wraps modulo B. -/
def addBack (v w : List ℕ) : List ℕ :=
  (addBackLoop v (w.take v.length) false).1 ++
    [(w.getD v.length 0 + (addBackLoop v (w.take v.length) false).2.toNat) % B]

/-- Steps D2–D7 of div: process quotient positions j = jm-1 down to 0. Each
round estimates the quotient digit, multiplies and subtracts on the window at
positions j..j+n of nu, and on a borrow decrements the digit (wrapping modulo
B as digit_t does) and adds the divisor back. Returns the little-endian
quotient digits and the final dividend array. -/
def divLoop (v : List ℕ) (ls vn1 vn2 : ℕ) : ℕ → List ℕ → List ℕ × List ℕ
  | 0, nu => ([], nu)
  | j + 1, nu =>
    ((divLoop v ls vn1 vn2 j
        (if (divStep (findDivQuotientLs nu ls vn1 vn2 (j + v.length)) v
              ((nu.drop j).take (v.length + 1))).2 then
          nu.take j ++
            addBack v
              (divStep (findDivQuotientLs nu ls vn1 vn2 (j + v.length)) v
                ((nu.drop j).take (v.length + 1))).1 ++
            nu.drop (j + v.length + 1)
        else
          nu.take j ++
            (divStep (findDivQuotientLs nu ls vn1 vn2 (j + v.length)) v
              ((nu.drop j).take (v.length + 1))).1 ++
            nu.drop (j + v.length + 1))).1 ++
      [if (divStep (findDivQuotientLs nu ls vn1 vn2 (j + v.length)) v
            ((nu.drop j).take (v.length + 1))).2 then
        (findDivQuotientLs nu ls vn1 vn2 (j + v.length) + B - 1) % B
      else findDivQuotientLs nu ls vn1 vn2 (j + v.length)],
      (divLoop v ls vn1 vn2 j
        (if (divStep (findDivQuotientLs nu ls vn1 vn2 (j + v.length)) v
              ((nu.drop j).take (v.length + 1))).2 then
          nu.take j ++
            addBack v
              (divStep (findDivQuotientLs nu ls vn1 vn2 (j + v.length)) v
                ((nu.drop j).take (v.length + 1))).1 ++
            nu.drop (j + v.length + 1)
        else
          nu.take j ++
            (divStep (findDivQuotientLs nu ls vn1 vn2 (j + v.length)) v
              ((nu.drop j).take (v.length + 1))).1 ++
            nu.drop (j + v.length + 1))).2)

theorem lex2 {a b c d : ℕ} (hb : b < B) (hd : d < B) :
    a * B + b ≤ c * B + d ↔ a < c ∨ (a = c ∧ b ≤ d) := by
  constructor
  · intro h
    rcases Nat.lt_trichotomy a c with h1 | h1 | h1
    · exact Or.inl h1
    · subst h1
      exact Or.inr ⟨rfl, by omega⟩
    · exfalso
      have h2 : (c + 1) * B ≤ a * B := Nat.mul_le_mul_right B h1
      rw [Nat.add_mul, Nat.one_mul] at h2
      omega
  · intro h
    rcases h with h1 | ⟨rfl, h1⟩
    · have h2 : (a + 1) * B ≤ c * B := Nat.mul_le_mul_right B h1
      rw [Nat.add_mul, Nat.one_mul] at h2
      omega
    · omega

theorem B_val : B = 4294967296 := by norm_num [B]

theorem fdq_tail_lemma {un un1 un2 vn1 vn2 q r c2 p2 : ℕ}
    (h2v : B ≤ 2 * vn1) (hv2B : vn2 < B) (hu2B : un2 < B)
    (hq1 : 1 ≤ q) (hq_lt : q < B)
    (hqr : vn1 * q + r = un * B + un1) (hr_lt : r < vn1)
    (hkey : c2 * B + p2 = (q - 1) * vn2) (hp2 : p2 < B)
    (hc1 : ¬ q * vn2 ≤ r * B + un2) :
    (if c2 < r + vn1 ∨ (c2 = r + vn1 ∧ p2 ≤ un2) then (q + B - 1) % B
      else (q + B - 2) % B) =
      min ((un * B ^ 2 + un1 * B + un2) / (vn1 * B + vn2)) (B - 1) := by
  obtain ⟨q', hq'⟩ : ∃ q', q = q' + 1 := ⟨q - 1, by omega⟩
  have hq'e : q - 1 = q' := by omega
  rw [hq'e] at hkey
  have e1 : un * B ^ 2 + un1 * B + un2 = (vn1 * q + r) * B + un2 := by
    rw [hqr] ; ring
  have hcond2 : (c2 < r + vn1 ∨ (c2 = r + vn1 ∧ p2 ≤ un2)) ↔
      q' * vn2 ≤ (r + vn1) * B + un2 := by
    rw [← hkey]
    exact (lex2 hp2 hu2B).symm
  have hupp1 : un * B ^ 2 + un1 * B + un2 < (q' + 1) * (vn1 * B + vn2) := by
    have e2 : (q' + 1) * (vn1 * B + vn2) = vn1 * q' * B + vn1 * B + (q' + 1) * vn2 := by
      ring
    have e3 : (vn1 * q + r) * B = vn1 * q' * B + vn1 * B + r * B := by
      rw [hq'] ; ring
    have e8 : q * vn2 = (q' + 1) * vn2 := by rw [hq']
    omega
  by_cases hc2 : q' * vn2 ≤ (r + vn1) * B + un2
  · rw [if_pos (hcond2.mpr hc2)]
    have hret : (q + B - 1) % B = q' := by
      rw [hq']
      have e : q' + 1 + B - 1 = q' + B := by omega
      rw [e, Nat.add_mod_right]
      exact Nat.mod_eq_of_lt (by omega)
    rw [hret]
    have hlow : q' * (vn1 * B + vn2) ≤ un * B ^ 2 + un1 * B + un2 := by
      have e2 : q' * (vn1 * B + vn2) = vn1 * q' * B + q' * vn2 := by ring
      have e3 : (vn1 * q + r) * B = vn1 * q' * B + vn1 * B + r * B := by
        rw [hq'] ; ring
      have e13 : (r + vn1) * B = r * B + vn1 * B := by ring
      omega
    rw [Nat.div_eq_of_lt_le hlow hupp1]
    exact (min_eq_left (by omega)).symm
  · rw [if_neg (fun hh => hc2 (hcond2.mp hh))]
    have hq'1 : 1 ≤ q' := by
      by_contra h0
      have hz : q' = 0 := by omega
      apply hc2
      rw [hz, Nat.zero_mul]
      exact Nat.zero_le _
    obtain ⟨q'', hq''⟩ : ∃ t, q' = t + 1 := ⟨q' - 1, by omega⟩
    have hret2 : (q + B - 2) % B = q'' := by
      rw [hq', hq'']
      have e : q'' + 1 + 1 + B - 2 = q'' + B := by omega
      rw [e, Nat.add_mod_right]
      exact Nat.mod_eq_of_lt (by omega)
    rw [hret2]
    have hlow : q'' * (vn1 * B + vn2) ≤ un * B ^ 2 + un1 * B + un2 := by
      have e2 : q'' * (vn1 * B + vn2) = vn1 * q'' * B + q'' * vn2 := by ring
      have e3 : (vn1 * q + r) * B = vn1 * q'' * B + 2 * (vn1 * B) + r * B := by
        rw [hq', hq''] ; ring
      have e4 : q'' * vn2 ≤ (B - 1) * (B - 1) :=
        Nat.mul_le_mul (by omega) (by omega)
      have e5 : (B - 1) * (B - 1) < B * B := by
        rw [B_val] ; norm_num
      have e6 : B * B ≤ 2 * vn1 * B := Nat.mul_le_mul_right B h2v
      have e7 : 2 * vn1 * B = 2 * (vn1 * B) := by ring
      omega
    have hupp : un * B ^ 2 + un1 * B + un2 < (q'' + 1) * (vn1 * B + vn2) := by
      have e2 : (q'' + 1) * (vn1 * B + vn2) = vn1 * q'' * B + vn1 * B + q' * vn2 := by
        rw [hq''] ; ring
      have e3 : (vn1 * q + r) * B = vn1 * q'' * B + 2 * (vn1 * B) + r * B := by
        rw [hq', hq''] ; ring
      have e13 : (r + vn1) * B = r * B + vn1 * B := by ring
      omega
    rw [Nat.div_eq_of_lt_le hlow hupp]
    exact (min_eq_left (by omega)).symm

theorem findDivQuotientD_spec_lt {un un1 un2 vn1 vn2 : ℕ}
    (h31 : 2 ^ 31 ≤ vn1) (hv1B : vn1 < B) (hv2B : vn2 < B)
    (hu1B : un1 < B) (hu2B : un2 < B)
    (hpre : un * B + un1 ≤ vn1 * B + vn2) (hA : un < vn1) :
    findDivQuotientD un un1 un2 vn1 vn2 =
      min ((un * B ^ 2 + un1 * B + un2) / (vn1 * B + vn2)) (B - 1) := by
  have hv1pos : 0 < vn1 := by
    have h0 : (0:ℕ) < 2 ^ 31 := by positivity
    omega
  have h2v : B ≤ 2 * vn1 := by
    have h1 : (2:ℕ) ^ 32 = 2 * 2 ^ 31 := by norm_num
    have h2 : B = 2 ^ 32 := rfl
    omega
  have hU2lt : un * B + un1 < vn1 * B := by
    have h1 : (un + 1) * B ≤ vn1 * B := Nat.mul_le_mul_right B hA
    rw [Nat.add_mul, Nat.one_mul] at h1
    omega
  have hq_lt : (un * B + un1) / vn1 < B := by
    rw [Nat.div_lt_iff_lt_mul hv1pos, Nat.mul_comm B vn1]
    exact hU2lt
  have hqB : (un * B + un1) / vn1 % B = (un * B + un1) / vn1 := Nat.mod_eq_of_lt hq_lt
  unfold findDivQuotientD
  rw [if_pos hA]
  simp only [divideRemainder, multiplyAdd, addCarry, subBorrow, Bool.toNat_false,
    Bool.toNat_true, Nat.add_zero, decide_eq_true_eq]
  simp only [hqB]
  set q := (un * B + un1) / vn1 with hqdef
  set r := (un * B + un1) % vn1 with hrdef
  have hqr : vn1 * q + r = un * B + un1 := Nat.div_add_mod _ _
  have hr_lt : r < vn1 := Nat.mod_lt _ hv1pos
  have hcarry_lt : q * vn2 / B < B := by
    rw [Nat.div_lt_iff_lt_mul B_pos]
    have h1 : q * vn2 ≤ (B - 1) * (B - 1) := Nat.mul_le_mul (by omega) (by omega)
    have h2 : (B - 1) * (B - 1) < B * B := by rw [B_val] ; norm_num
    omega
  have hp1_lt : q * vn2 % B < B := Nat.mod_lt _ B_pos
  have hdm : B * (q * vn2 / B) + q * vn2 % B = q * vn2 := Nat.div_add_mod _ _
  have hcond1 : (q * vn2 / B < r ∨ (q * vn2 / B = r ∧ q * vn2 % B ≤ un2)) ↔
      q * vn2 ≤ r * B + un2 := by
    constructor
    · intro h
      have h1 := (lex2 hp1_lt hu2B).mpr h
      rwa [Nat.div_add_mod'] at h1
    · intro h
      apply (lex2 hp1_lt hu2B).mp
      rwa [Nat.div_add_mod']
  have e1 : un * B ^ 2 + un1 * B + un2 = (vn1 * q + r) * B + un2 := by
    rw [hqr] ; ring
  by_cases hc1 : q * vn2 ≤ r * B + un2
  · rw [if_pos (hcond1.mpr hc1)]
    have hlow : q * (vn1 * B + vn2) ≤ un * B ^ 2 + un1 * B + un2 := by
      have e2 : q * (vn1 * B + vn2) = vn1 * q * B + q * vn2 := by ring
      have e3 : (vn1 * q + r) * B = vn1 * q * B + r * B := by ring
      omega
    have hupp : un * B ^ 2 + un1 * B + un2 < (q + 1) * (vn1 * B + vn2) := by
      have e2 : (q + 1) * (vn1 * B + vn2) = vn1 * q * B + vn1 * B + (q + 1) * vn2 := by
        ring
      have e3 : (vn1 * q + r) * B = vn1 * q * B + r * B := by ring
      have e4 : (r + 1) * B ≤ vn1 * B := Nat.mul_le_mul_right B hr_lt
      rw [Nat.add_mul, Nat.one_mul] at e4
      omega
    rw [Nat.div_eq_of_lt_le hlow hupp]
    exact (min_eq_left (by omega)).symm
  · rw [if_neg (fun hh => hc1 (hcond1.mp hh))]
    have hq1 : 1 ≤ q := by
      by_contra h0
      have hz : q = 0 := by omega
      apply hc1
      rw [hz, Nat.zero_mul]
      exact Nat.zero_le _
    obtain ⟨q', hq'⟩ : ∃ q', q = q' + 1 := ⟨q - 1, by omega⟩
    by_cases hac : B ≤ r + vn1
    · rw [if_pos hac]
      have hret : (q + B - 1) % B = q' := by
        rw [hq']
        have e : q' + 1 + B - 1 = q' + B := by omega
        rw [e, Nat.add_mod_right]
        exact Nat.mod_eq_of_lt (by omega)
      rw [hret]
      have hlow : q' * (vn1 * B + vn2) ≤ un * B ^ 2 + un1 * B + un2 := by
        have e2 : q' * (vn1 * B + vn2) = vn1 * q' * B + q' * vn2 := by ring
        have e3 : (vn1 * q + r) * B = vn1 * q' * B + vn1 * B + r * B := by
          rw [hq'] ; ring
        have e4 : q' * vn2 ≤ (B - 1) * (B - 1) :=
          Nat.mul_le_mul (by omega) (by omega)
        have e5 : (B - 1) * (B - 1) < B * B := by rw [B_val] ; norm_num
        have e6 : B * B ≤ (vn1 + r) * B := Nat.mul_le_mul_right B (by omega)
        have e7 : (vn1 + r) * B = vn1 * B + r * B := by ring
        omega
      have hupp : un * B ^ 2 + un1 * B + un2 < (q' + 1) * (vn1 * B + vn2) := by
        have e2 : (q' + 1) * (vn1 * B + vn2) = vn1 * q' * B + vn1 * B + (q' + 1) * vn2 := by
          ring
        have e3 : (vn1 * q + r) * B = vn1 * q' * B + vn1 * B + r * B := by
          rw [hq'] ; ring
        have e8 : q * vn2 = (q' + 1) * vn2 := by rw [hq']
        omega
      rw [Nat.div_eq_of_lt_le hlow hupp]
      exact (min_eq_left (by omega)).symm
    · rw [if_neg hac]
      have hr2 : (r + vn1) % B = r + vn1 := Nat.mod_eq_of_lt (by omega)
      simp only [hr2]
      by_cases hbo : q * vn2 % B < vn2
      · simp only [decide_eq_true hbo, Bool.toNat_true]
        have hCpos : 1 ≤ q * vn2 / B := by
          by_contra h0
          have hC0 : q * vn2 / B = 0 := by omega
          have hdm2 := hdm
          rw [hC0, Nat.mul_zero, Nat.zero_add] at hdm2
          have h1 : vn2 ≤ q * vn2 := by
            calc vn2 = 1 * vn2 := (Nat.one_mul _).symm
              _ ≤ q * vn2 := Nat.mul_le_mul_right _ hq1
          omega
        have hc2e : (q * vn2 / B + B - 1) % B = q * vn2 / B - 1 := by
          have e : q * vn2 / B + B - 1 = (q * vn2 / B - 1) + B := by omega
          rw [e, Nat.add_mod_right]
          exact Nat.mod_eq_of_lt (by omega)
        have hp1be : (B + q * vn2 % B - vn2) % B = B + q * vn2 % B - vn2 :=
          Nat.mod_eq_of_lt (by omega)
        simp only [hc2e, hp1be]
        have hkey : (q * vn2 / B - 1) * B + (B + q * vn2 % B - vn2) = (q - 1) * vn2 := by
          have e8 : q * vn2 = (q - 1) * vn2 + vn2 := by
            rw [hq']
            have e9 : q' + 1 - 1 = q' := by omega
            rw [e9] ; ring
          have e10 : (q * vn2 / B - 1) * B + B = q * vn2 / B * B := by
            have e11 : q * vn2 / B - 1 + 1 = q * vn2 / B := by omega
            calc (q * vn2 / B - 1) * B + B = (q * vn2 / B - 1 + 1) * B := by ring
              _ = q * vn2 / B * B := by rw [e11]
          have e12 : q * vn2 / B * B = B * (q * vn2 / B) := Nat.mul_comm _ _
          omega
        exact fdq_tail_lemma h2v hv2B hu2B hq1 hq_lt hqr hr_lt hkey (by omega) hc1
      · -- borrow-free correction path
        simp only [decide_eq_false hbo, Bool.toNat_false]
        have hc2e : (q * vn2 / B + B - 0) % B = q * vn2 / B := by
          rw [Nat.sub_zero, Nat.add_mod_right]
          exact Nat.mod_eq_of_lt hcarry_lt
        have hp1be : (B + q * vn2 % B - vn2) % B = q * vn2 % B - vn2 := by
          have e : B + q * vn2 % B - vn2 = (q * vn2 % B - vn2) + B := by omega
          rw [e, Nat.add_mod_right]
          exact Nat.mod_eq_of_lt (by omega)
        simp only [hc2e, hp1be]
        have hkey : q * vn2 / B * B + (q * vn2 % B - vn2) = (q - 1) * vn2 := by
          have e8 : q * vn2 = (q - 1) * vn2 + vn2 := by
            rw [hq']
            have e9 : q' + 1 - 1 = q' := by omega
            rw [e9] ; ring
          have e12 : q * vn2 / B * B = B * (q * vn2 / B) := Nat.mul_comm _ _
          omega
        exact fdq_tail_lemma h2v hv2B hu2B hq1 hq_lt hqr hr_lt hkey (by omega) hc1

theorem findDivQuotientD_spec_ge {un un1 un2 vn1 vn2 : ℕ}
    (h31 : 2 ^ 31 ≤ vn1) (hv1B : vn1 < B) (hv2B : vn2 < B)
    (hu1B : un1 < B) (hu2B : un2 < B)
    (hpre : un * B + un1 ≤ vn1 * B + vn2) (hA : ¬ un < vn1) :
    findDivQuotientD un un1 un2 vn1 vn2 =
      min ((un * B ^ 2 + un1 * B + un2) / (vn1 * B + vn2)) (B - 1) := by
  have hv1pos : 0 < vn1 := by
    have h0 : (0:ℕ) < 2 ^ 31 := by positivity
    omega
  have h2v : B ≤ 2 * vn1 := by
    have h1 : (2:ℕ) ^ 32 = 2 * 2 ^ 31 := by norm_num
    have h2 : B = 2 ^ 32 := rfl
    omega
  have hVpos : 0 < vn1 * B + vn2 := by
    have := Nat.mul_pos hv1pos B_pos
    omega
  have hun_le : un ≤ vn1 := by
    by_contra hgt
    have h1 : (vn1 + 1) * B ≤ un * B := Nat.mul_le_mul_right B (by omega)
    rw [Nat.add_mul, Nat.one_mul] at h1
    omega
  have hun_eq : vn1 = un := (Nat.le_antisymm hun_le (Nat.le_of_not_lt hA)).symm
  subst hun_eq
  have hun1v2 : un1 ≤ vn2 := by omega
  unfold findDivQuotientD
  rw [if_neg hA]
  simp only [divideRemainder, multiplyAdd, addCarry, subBorrow, Bool.toNat_false,
    Bool.toNat_true, Nat.add_zero, decide_eq_true_eq]
  by_cases hb1 : un1 < vn1
  · simp only [decide_eq_true hb1, Bool.toNat_true]
    have hun1b : (B + un1 - vn1) % B = B + un1 - vn1 := Nat.mod_eq_of_lt (by omega)
    have hunb : (vn1 + B - 1) % B = vn1 - 1 := by
      have e : vn1 + B - 1 = (vn1 - 1) + B := by omega
      rw [e, Nat.add_mod_right]
      exact Nat.mod_eq_of_lt (by omega)
    simp only [hun1b, hunb]
    rw [if_pos (show vn1 - 1 < vn1 by omega)]
    have hX : (vn1 - 1) * B + (B + un1 - vn1) = vn1 * (B - 1) + un1 := by
      have e1 : (vn1 - 1) * B + B = vn1 * B := by
        have e2 : vn1 - 1 + 1 = vn1 := by omega
        calc (vn1 - 1) * B + B = (vn1 - 1 + 1) * B := by ring
          _ = vn1 * B := by rw [e2]
      have e3 : vn1 * (B - 1) + vn1 = vn1 * B := by
        have e4 : B - 1 + 1 = B := by omega
        calc vn1 * (B - 1) + vn1 = vn1 * (B - 1 + 1) := by ring
          _ = vn1 * B := by rw [e4]
      omega
    have hdiv : (vn1 * (B - 1) + un1) / vn1 = B - 1 := by
      apply Nat.div_eq_of_lt_le
      · have e : (B - 1) * vn1 = vn1 * (B - 1) := Nat.mul_comm _ _
        omega
      · have e : (B - 1 + 1) * vn1 = vn1 * (B - 1) + vn1 := by
          rw [Nat.add_mul, Nat.one_mul, Nat.mul_comm (B - 1) vn1]
        omega
    have hmod : (vn1 * (B - 1) + un1) % vn1 = un1 := by
      rw [Nat.mul_add_mod]
      exact Nat.mod_eq_of_lt hb1
    have hqBe : (B - 1) % B = B - 1 := Nat.mod_eq_of_lt (by omega)
    simp only [hX, hdiv, hmod, hqBe]
    by_cases hac : B ≤ un1 + vn1
    · rw [if_pos hac]
      have hge : B - 1 ≤ (vn1 * B ^ 2 + un1 * B + un2) / (vn1 * B + vn2) := by
        rw [Nat.le_div_iff_mul_le hVpos]
        have e1 : B * (vn1 * B + vn2) = vn1 * B ^ 2 + vn2 * B := by ring
        have e2 : vn2 * B ≤ (un1 + vn1) * B := Nat.mul_le_mul_right B (by omega)
        have e3 : (un1 + vn1) * B = un1 * B + vn1 * B := by ring
        have e4 : (B - 1) * (vn1 * B + vn2) + (vn1 * B + vn2) = B * (vn1 * B + vn2) := by
          have e5 : B - 1 + 1 = B := by omega
          calc (B - 1) * (vn1 * B + vn2) + (vn1 * B + vn2)
              = (B - 1 + 1) * (vn1 * B + vn2) := by ring
            _ = B * (vn1 * B + vn2) := by rw [e5]
        omega
      exact (min_eq_right hge).symm
    · rw [if_neg hac]
      have hr2 : (un1 + vn1) % B = un1 + vn1 := Nat.mod_eq_of_lt (by omega)
      simp only [hr2]
      have hp1_lt : (B - 1) * vn2 % B < B := Nat.mod_lt _ B_pos
      have hdm : B * ((B - 1) * vn2 / B) + (B - 1) * vn2 % B = (B - 1) * vn2 :=
        Nat.div_add_mod _ _
      have hcond : ((B - 1) * vn2 / B < un1 + vn1 ∨
          ((B - 1) * vn2 / B = un1 + vn1 ∧ (B - 1) * vn2 % B ≤ un2)) ↔
          (B - 1) * vn2 ≤ (un1 + vn1) * B + un2 := by
        constructor
        · intro h
          have h1 := (lex2 hp1_lt hu2B).mpr h
          rwa [Nat.div_add_mod'] at h1
        · intro h
          apply (lex2 hp1_lt hu2B).mp
          rwa [Nat.div_add_mod']
      have e2big : (B - 1) * vn1 * B + vn1 * B = vn1 * B ^ 2 := by
        have e3 : (B - 1) * vn1 + vn1 = B * vn1 := by
          have e5 : B - 1 + 1 = B := by omega
          calc (B - 1) * vn1 + vn1 = (B - 1 + 1) * vn1 := by ring
            _ = B * vn1 := by rw [e5]
        calc (B - 1) * vn1 * B + vn1 * B = ((B - 1) * vn1 + vn1) * B := by ring
          _ = B * vn1 * B := by rw [e3]
          _ = vn1 * B ^ 2 := by ring
      by_cases hc : (B - 1) * vn2 ≤ (un1 + vn1) * B + un2
      · rw [if_pos (hcond.mpr hc)]
        have hge : B - 1 ≤ (vn1 * B ^ 2 + un1 * B + un2) / (vn1 * B + vn2) := by
          rw [Nat.le_div_iff_mul_le hVpos]
          have e1 : (B - 1) * (vn1 * B + vn2) = (B - 1) * vn1 * B + (B - 1) * vn2 := by
            ring
          have e4 : (un1 + vn1) * B = un1 * B + vn1 * B := by ring
          omega
        exact (min_eq_right hge).symm
      · rw [if_neg (fun hh => hc (hcond.mp hh))]
        have hret : (B - 1 + B - 1) % B = B - 2 := by
          have e : B - 1 + B - 1 = (B - 2) + B := by omega
          rw [e, Nat.add_mod_right]
          exact Nat.mod_eq_of_lt (by omega)
        rw [hret]
        have hlow : (B - 2) * (vn1 * B + vn2) ≤ vn1 * B ^ 2 + un1 * B + un2 := by
          have e1 : (B - 2) * (vn1 * B + vn2) = (B - 2) * vn1 * B + (B - 2) * vn2 := by
            ring
          have e2 : (B - 2) * vn1 * B + 2 * (vn1 * B) = vn1 * B ^ 2 := by
            have e3 : (B - 2) * vn1 + 2 * vn1 = B * vn1 := by
              have e5 : B - 2 + 2 = B := by omega
              calc (B - 2) * vn1 + 2 * vn1 = (B - 2 + 2) * vn1 := by ring
                _ = B * vn1 := by rw [e5]
            calc (B - 2) * vn1 * B + 2 * (vn1 * B) = ((B - 2) * vn1 + 2 * vn1) * B := by
                  ring
              _ = B * vn1 * B := by rw [e3]
              _ = vn1 * B ^ 2 := by ring
          have e4 : (B - 2) * vn2 ≤ (B - 1) * (B - 1) :=
            Nat.mul_le_mul (by omega) (by omega)
          have e5 : (B - 1) * (B - 1) < B * B := by rw [B_val] ; norm_num
          have e6 : B * B ≤ 2 * vn1 * B := Nat.mul_le_mul_right B h2v
          have e7 : 2 * vn1 * B = 2 * (vn1 * B) := by ring
          omega
        have hupp : vn1 * B ^ 2 + un1 * B + un2 < (B - 2 + 1) * (vn1 * B + vn2) := by
          have e0 : B - 2 + 1 = B - 1 := by omega
          rw [e0]
          have e1 : (B - 1) * (vn1 * B + vn2) = (B - 1) * vn1 * B + (B - 1) * vn2 := by
            ring
          have e4 : (un1 + vn1) * B = un1 * B + vn1 * B := by ring
          omega
        rw [Nat.div_eq_of_lt_le hlow hupp]
        exact (min_eq_left (by omega)).symm
  · simp only [decide_eq_false hb1, Bool.toNat_false]
    have hun1b : (B + un1 - vn1) % B = un1 - vn1 := by
      have e : B + un1 - vn1 = (un1 - vn1) + B := by omega
      rw [e, Nat.add_mod_right]
      exact Nat.mod_eq_of_lt (by omega)
    have hunb : (vn1 + B - 0) % B = vn1 := by
      rw [Nat.sub_zero, Nat.add_mod_right]
      exact Nat.mod_eq_of_lt hv1B
    simp only [hun1b, hunb]
    rw [if_neg hA]
    have hun1c : (un1 - vn1 + B - vn1) % B = un1 - vn1 + B - vn1 :=
      Nat.mod_eq_of_lt (by omega)
    have hr : (vn1 + B - 1) % B = vn1 - 1 := by
      have e : vn1 + B - 1 = (vn1 - 1) + B := by omega
      rw [e, Nat.add_mod_right]
      exact Nat.mod_eq_of_lt (by omega)
    simp only [hun1c, hr]
    have hX : (vn1 - 1) * B + (un1 - vn1 + B - vn1) = vn1 * (B - 2) + un1 := by
      have e1 : (vn1 - 1) * B + B = vn1 * B := by
        have e2 : vn1 - 1 + 1 = vn1 := by omega
        calc (vn1 - 1) * B + B = (vn1 - 1 + 1) * B := by ring
          _ = vn1 * B := by rw [e2]
      have e3 : vn1 * (B - 2) + 2 * vn1 = vn1 * B := by
        have e4 : B - 2 + 2 = B := by omega
        calc vn1 * (B - 2) + 2 * vn1 = vn1 * (B - 2 + 2) := by ring
          _ = vn1 * B := by rw [e4]
      omega
    have hdiv : (vn1 * (B - 2) + un1) / vn1 = B - 1 := by
      apply Nat.div_eq_of_lt_le
      · have e : (B - 1) * vn1 = vn1 * (B - 2) + vn1 := by
          have e5 : B - 2 + 1 = B - 1 := by omega
          calc (B - 1) * vn1 = vn1 * (B - 1) := Nat.mul_comm _ _
            _ = vn1 * (B - 2 + 1) := by rw [e5]
            _ = vn1 * (B - 2) + vn1 := by ring
        omega
      · have e : (B - 1 + 1) * vn1 = vn1 * (B - 2) + 2 * vn1 := by
          have e5 : B - 1 + 1 = B := by omega
          have e6 : B - 2 + 2 = B := by omega
          calc (B - 1 + 1) * vn1 = B * vn1 := by rw [e5]
            _ = vn1 * B := Nat.mul_comm _ _
            _ = vn1 * (B - 2 + 2) := by rw [e6]
            _ = vn1 * (B - 2) + 2 * vn1 := by ring
        omega
    have hqBe : (B - 1) % B = B - 1 := Nat.mod_eq_of_lt (by omega)
    simp only [hX, hdiv, hqBe]
    have hge : B - 1 ≤ (vn1 * B ^ 2 + un1 * B + un2) / (vn1 * B + vn2) := by
      rw [Nat.le_div_iff_mul_le hVpos]
      have e1 : B * (vn1 * B + vn2) = vn1 * B ^ 2 + vn2 * B := by ring
      have e2 : vn2 * B ≤ (un1 + vn1) * B := Nat.mul_le_mul_right B (by omega)
      have e3 : (un1 + vn1) * B = un1 * B + vn1 * B := by ring
      have e4 : (B - 1) * (vn1 * B + vn2) + (vn1 * B + vn2) = B * (vn1 * B + vn2) := by
        have e5 : B - 1 + 1 = B := by omega
        calc (B - 1) * (vn1 * B + vn2) + (vn1 * B + vn2)
            = (B - 1 + 1) * (vn1 * B + vn2) := by ring
          _ = B * (vn1 * B + vn2) := by rw [e5]
      omega
    exact (min_eq_right hge).symm

theorem subBorrow_eq (a d : ℕ) (br : Bool) (ha : a < B) (hd : d < B) :
    (subBorrow a d br).1 + d + br.toNat = a + B * (subBorrow a d br).2.toNat := by
  obtain ⟨h1, h2⟩ := subBorrow_val a d br ha hd
  have hbr : br.toNat ≤ 1 := Bool.toNat_le br
  rcases subBorrow_cases a d br with ⟨h3, h4, h5⟩ | ⟨h3, h4, h5⟩
  · rw [h3] at h1 ⊢
    omega
  · rw [h3] at h1 ⊢
    omega

theorem mulSubLoop_spec {qd : ℕ} (hqd : qd < B) :
    ∀ (vl wl : List ℕ) (c : ℕ), vl.length = wl.length →
      (∀ x ∈ vl, x < B) → (∀ x ∈ wl, x < B) → c < B →
      val (mulSubLoop qd vl wl c).1 + qd * val vl + c =
          val wl + B ^ vl.length * (mulSubLoop qd vl wl c).2 ∧
        (mulSubLoop qd vl wl c).2 < B ∧
        (mulSubLoop qd vl wl c).1.length = vl.length ∧
        ∀ x ∈ (mulSubLoop qd vl wl c).1, x < B := by
  intro vl
  induction vl with
  | nil =>
    intro wl c hlen _ _ hc
    have hwl : wl = [] := List.eq_nil_of_length_eq_zero hlen.symm
    subst hwl
    refine ⟨by simp [mulSubLoop, val], hc, rfl, by simp [mulSubLoop]⟩
  | cons wv vrest ih =>
    intro wl c hlen hv hw hc
    match wl, hlen with
    | wu :: urest, hlen =>
      have hwv : wv < B := hv wv (by simp)
      have hwu : wu < B := hw wu (by simp)
      have hlen2 : vrest.length = urest.length := by
        simpa using hlen
      have hmd_lt : (qd * wv + c) % B < B := Nat.mod_lt _ B_pos
      have hdm : B * ((qd * wv + c) / B) + (qd * wv + c) % B = qd * wv + c :=
        Nat.div_add_mod _ _
      have hqc : qd * wv + c ≤ (B - 1) * B := by
        have h1 : qd * wv ≤ (B - 1) * (B - 1) := Nat.mul_le_mul (by omega) (by omega)
        have h2 : (B - 1) * (B - 1) + (B - 1) = (B - 1) * B := by
          have e5 : B - 1 + 1 = B := by omega
          calc (B - 1) * (B - 1) + (B - 1) = (B - 1) * (B - 1 + 1) := by ring
            _ = (B - 1) * B := by rw [e5]
        omega
      have hhc_lt : (qd * wv + c) / B < B := by
        rw [Nat.div_lt_iff_lt_mul B_pos]
        have h2 : (B - 1) * B < B * B :=
          Nat.mul_lt_mul_of_lt_of_le (by omega) (le_refl B) B_pos
        omega
      have hsb := subBorrow_eq wu ((qd * wv + c) % B) false hwu hmd_lt
      rw [Bool.toNat_false, Nat.add_zero] at hsb
      have hcnext : ((qd * wv + c) / B +
          (subBorrow wu ((qd * wv + c) % B) false).2.toNat) % B =
          (qd * wv + c) / B +
            (subBorrow wu ((qd * wv + c) % B) false).2.toNat := by
        apply Nat.mod_eq_of_lt
        rcases subBorrow_cases wu ((qd * wv + c) % B) false with ⟨h3, h4, h5⟩ | ⟨h3, h4, h5⟩
        · omega
        · rw [Bool.toNat_false, Nat.add_zero] at h5
          by_contra h0
          have hce : (qd * wv + c) / B = B - 1 := by omega
          rw [hce] at hdm
          have e6 : B * (B - 1) = (B - 1) * B := Nat.mul_comm _ _
          omega
      have hc' : (qd * wv + c) / B +
          (subBorrow wu ((qd * wv + c) % B) false).2.toNat < B := by
        rcases subBorrow_cases wu ((qd * wv + c) % B) false with ⟨h3, h4, h5⟩ | ⟨h3, h4, h5⟩
        · omega
        · rw [Bool.toNat_false, Nat.add_zero] at h5
          by_contra h0
          have hce : (qd * wv + c) / B = B - 1 := by omega
          rw [hce] at hdm
          have e6 : B * (B - 1) = (B - 1) * B := Nat.mul_comm _ _
          omega
      obtain ⟨ih1, ih2, ih3, ih4⟩ := ih urest
        (((qd * wv + c) / B +
          (subBorrow wu ((qd * wv + c) % B) false).2.toNat) % B)
        hlen2 (fun x hx => hv x (by simp [hx])) (fun x hx => hw x (by simp [hx]))
        (Nat.mod_lt _ B_pos)
      have hstep : mulSubLoop qd (wv :: vrest) (wu :: urest) c =
          ((subBorrow wu ((multiplyAdd qd wv c).1) false).1 ::
            (mulSubLoop qd vrest urest
              (((multiplyAdd qd wv c).2 +
                (subBorrow wu ((multiplyAdd qd wv c).1) false).2.toNat) % B)).1,
            (mulSubLoop qd vrest urest
              (((multiplyAdd qd wv c).2 +
                (subBorrow wu ((multiplyAdd qd wv c).1) false).2.toNat) % B)).2) := rfl
      have hma1 : (multiplyAdd qd wv c).1 = (qd * wv + c) % B := rfl
      have hma2 : (multiplyAdd qd wv c).2 = (qd * wv + c) / B := rfl
      rw [hstep, hma1, hma2]
      refine ⟨?_, ?_, ?_, ?_⟩
      · simp only [val_cons]
        rw [hcnext] at ih1 ⊢
        have ihB := congrArg (fun t => B * t) ih1
        simp only [Nat.mul_add] at ihB
        have e1 : qd * (wv + B * val vrest) = qd * wv + B * (qd * val vrest) := by ring
        have e2 : B ^ (wv :: vrest).length *
            (mulSubLoop qd vrest urest
              ((qd * wv + c) / B +
                (subBorrow wu ((qd * wv + c) % B) false).2.toNat)).2 =
            B * (B ^ vrest.length *
              (mulSubLoop qd vrest urest
                ((qd * wv + c) / B +
                  (subBorrow wu ((qd * wv + c) % B) false).2.toNat)).2) := by
          rw [List.length_cons, Nat.pow_succ] ; ring
        rw [e1, e2]
        omega
      · rw [hcnext] at ih2 ⊢
        exact ih2
      · simp only [List.length_cons]
        rw [hcnext] at ih3 ⊢
        rw [ih3]
      · intro x hx
        rw [List.mem_cons] at hx
        rcases hx with rfl | hx
        · exact (subBorrow_val wu ((qd * wv + c) % B) false hwu hmd_lt).2
        · exact ih4 x hx

theorem take_concat_getD {w : List ℕ} {n : ℕ} (hlen : w.length = n + 1) :
    w = w.take n ++ [w.getD n 0] := by
  have h1 : (w.drop n).length = 1 := by
    rw [List.length_drop, hlen]
    omega
  obtain ⟨a, ha⟩ := List.length_eq_one.mp h1
  have h2 : w[n]? = some a := by
    have h3 : (w.drop n)[0]? = some a := by rw [ha] ; rfl
    rw [List.getElem?_drop] at h3
    simpa using h3
  have h4 : w.getD n 0 = a := by
    rw [List.getD_eq_getElem?_getD, h2]
    rfl
  conv_lhs => rw [← List.take_append_drop n w]
  rw [ha, h4]

theorem divStep_spec {qd : ℕ} (hqd : qd < B) {v w : List ℕ}
    (hlen : w.length = v.length + 1) (hv : ∀ x ∈ v, x < B) (hw : ∀ x ∈ w, x < B) :
    val (divStep qd v w).1 + qd * val v =
        val w + B ^ (v.length + 1) * (divStep qd v w).2.toNat ∧
      (divStep qd v w).1.length = v.length + 1 ∧
      (∀ x ∈ (divStep qd v w).1, x < B) ∧
      ((divStep qd v w).2 = true ↔ val w < qd * val v) := by
  have htlen : (w.take v.length).length = v.length := by
    rw [List.length_take, hlen]
    omega
  obtain ⟨m1, m2, m3, m4⟩ := mulSubLoop_spec hqd v (w.take v.length) 0 htlen.symm hv
    (fun x hx => hw x (List.take_subset _ _ hx)) B_pos
  rw [Nat.add_zero] at m1
  have hw_eq := take_concat_getD hlen
  have htop_mem : w.getD v.length 0 ∈ w := by
    have h1 : w.getD v.length 0 ∈ w.take v.length ++ [w.getD v.length 0] :=
      List.mem_append_right _ (by simp)
    rw [← hw_eq] at h1
    exact h1
  have htop : w.getD v.length 0 < B := hw _ htop_mem
  have hvw : val w = val (w.take v.length) + B ^ v.length * w.getD v.length 0 := by
    conv_lhs => rw [hw_eq]
    rw [val_append, htlen]
    simp [val]
  have hsb := subBorrow_eq (w.getD v.length 0) (mulSubLoop qd v (w.take v.length) 0).2
    false htop m2
  rw [Bool.toNat_false, Nat.add_zero] at hsb
  have hstep : divStep qd v w =
      ((mulSubLoop qd v (w.take v.length) 0).1 ++
        [(subBorrow (w.getD v.length 0) (mulSubLoop qd v (w.take v.length) 0).2
            false).1],
        (subBorrow (w.getD v.length 0) (mulSubLoop qd v (w.take v.length) 0).2
          false).2) := rfl
  have hval1 : val (divStep qd v w).1 =
      val (mulSubLoop qd v (w.take v.length) 0).1 +
        B ^ v.length *
          (subBorrow (w.getD v.length 0) (mulSubLoop qd v (w.take v.length) 0).2
            false).1 := by
    rw [hstep, val_append, m3]
    simp [val]
  have hlen1 : (divStep qd v w).1.length = v.length + 1 := by
    rw [hstep]
    simp [m3]
  have hdig1 : ∀ x ∈ (divStep qd v w).1, x < B := by
    intro x hx
    rw [hstep] at hx
    simp only [List.mem_append, List.mem_singleton] at hx
    rcases hx with hx | rfl
    · exact m4 x hx
    · exact (subBorrow_val _ _ false htop m2).2
  have hveq : val (divStep qd v w).1 + qd * val v =
      val w + B ^ (v.length + 1) * (divStep qd v w).2.toNat := by
    rw [hval1, hvw]
    have hmul := congrArg (fun t => B ^ v.length * t) hsb
    simp only [Nat.mul_add] at hmul
    have e1 : B ^ v.length *
        (B * (subBorrow (w.getD v.length 0)
          (mulSubLoop qd v (w.take v.length) 0).2 false).2.toNat) =
        B ^ (v.length + 1) *
          (subBorrow (w.getD v.length 0)
            (mulSubLoop qd v (w.take v.length) 0).2 false).2.toNat := by
      rw [Nat.pow_succ] ; ring
    rw [e1] at hmul
    have e2 : (divStep qd v w).2 =
        (subBorrow (w.getD v.length 0) (mulSubLoop qd v (w.take v.length) 0).2
          false).2 := rfl
    rw [e2]
    omega
  refine ⟨hveq, hlen1, hdig1, ?_⟩
  have hval_lt : val (divStep qd v w).1 < B ^ (v.length + 1) := by
    have h1 := val_lt (divStep qd v w).1 hdig1
    rwa [hlen1] at h1
  cases hbo : (divStep qd v w).2 with
  | false =>
    rw [hbo] at hveq
    simp only [Bool.toNat_false, Nat.mul_zero, Nat.add_zero] at hveq
    constructor
    · intro h ; exact absurd h (by simp)
    · intro h ; omega
  | true =>
    rw [hbo] at hveq
    simp only [Bool.toNat_true, Nat.mul_one] at hveq
    constructor
    · intro _ ; omega
    · intro _ ; rfl

theorem addBackLoop_spec :
    ∀ (vl wl : List ℕ) (c : Bool), vl.length = wl.length →
      (∀ x ∈ vl, x < B) → (∀ x ∈ wl, x < B) →
      val (addBackLoop vl wl c).1 + B ^ vl.length * (addBackLoop vl wl c).2.toNat =
          val vl + val wl + c.toNat ∧
        (addBackLoop vl wl c).1.length = vl.length ∧
        ∀ x ∈ (addBackLoop vl wl c).1, x < B := by
  intro vl
  induction vl with
  | nil =>
    intro wl c hlen _ _
    have hwl : wl = [] := List.eq_nil_of_length_eq_zero hlen.symm
    subst hwl
    refine ⟨by simp [addBackLoop, val], rfl, by simp [addBackLoop]⟩
  | cons a vrest ih =>
    intro wl c hlen hv hw
    match wl, hlen with
    | b :: wrest, hlen =>
      have ha : a < B := hv a (by simp)
      have hb : b < B := hw b (by simp)
      have hlen2 : vrest.length = wrest.length := by simpa using hlen
      obtain ⟨hac, hacB⟩ := addCarry_val b a c hb ha
      obtain ⟨ih1, ih2, ih3⟩ := ih wrest (addCarry b a c).2 hlen2
        (fun x hx => hv x (by simp [hx])) (fun x hx => hw x (by simp [hx]))
      have hstep : addBackLoop (a :: vrest) (b :: wrest) c =
          ((addCarry b a c).1 :: (addBackLoop vrest wrest (addCarry b a c).2).1,
            (addBackLoop vrest wrest (addCarry b a c).2).2) := rfl
      rw [hstep]
      refine ⟨?_, by simp [ih2], ?_⟩
      · simp only [val_cons, List.length_cons]
        have ihB := congrArg (fun t => B * t) ih1
        simp only [Nat.mul_add] at ihB
        have e1 : B * (B ^ vrest.length *
            (addBackLoop vrest wrest (addCarry b a c).2).2.toNat) =
            B ^ (vrest.length + 1) *
              (addBackLoop vrest wrest (addCarry b a c).2).2.toNat := by
          rw [Nat.pow_succ] ; ring
        rw [e1] at ihB
        omega
      · intro x hx
        rw [List.mem_cons] at hx
        rcases hx with rfl | hx
        · exact hacB
        · exact ih3 x hx

theorem addBack_spec {v w : List ℕ} (hlen : w.length = v.length + 1)
    (hv : ∀ x ∈ v, x < B) (hw : ∀ x ∈ w, x < B) :
    val (addBack v w) = (val w + val v) % B ^ (v.length + 1) ∧
      (addBack v w).length = v.length + 1 ∧
      ∀ x ∈ addBack v w, x < B := by
  have htlen : (w.take v.length).length = v.length := by
    rw [List.length_take, hlen]
    omega
  obtain ⟨l1, l2, l3⟩ := addBackLoop_spec v (w.take v.length) false htlen.symm hv
    (fun x hx => hw x (List.take_subset _ _ hx))
  rw [Bool.toNat_false, Nat.add_zero] at l1
  have hw_eq := take_concat_getD hlen
  have htop_mem : w.getD v.length 0 ∈ w := by
    have h1 : w.getD v.length 0 ∈ w.take v.length ++ [w.getD v.length 0] :=
      List.mem_append_right _ (by simp)
    rw [← hw_eq] at h1
    exact h1
  have htop : w.getD v.length 0 < B := hw _ htop_mem
  have hvw : val w = val (w.take v.length) + B ^ v.length * w.getD v.length 0 := by
    conv_lhs => rw [hw_eq]
    rw [val_append, htlen]
    simp [val]
  have hstep : addBack v w =
      (addBackLoop v (w.take v.length) false).1 ++
        [(w.getD v.length 0 +
          (addBackLoop v (w.take v.length) false).2.toNat) % B] := rfl
  have hval : val (addBack v w) =
      val (addBackLoop v (w.take v.length) false).1 +
        B ^ v.length *
          ((w.getD v.length 0 +
            (addBackLoop v (w.take v.length) false).2.toNat) % B) := by
    rw [hstep, val_append, l2]
    simp [val]
  have hlen1 : (addBack v w).length = v.length + 1 := by
    rw [hstep]
    simp [l2]
  have hdig : ∀ x ∈ addBack v w, x < B := by
    intro x hx
    rw [hstep] at hx
    simp only [List.mem_append, List.mem_singleton] at hx
    rcases hx with hx | rfl
    · exact l3 x hx
    · exact Nat.mod_lt _ B_pos
  refine ⟨?_, hlen1, hdig⟩
  have hlpv : val (addBackLoop v (w.take v.length) false).1 < B ^ v.length := by
    have h1 := val_lt (addBackLoop v (w.take v.length) false).1 l3
    rwa [l2] at h1
  have hcB : (addBackLoop v (w.take v.length) false).2.toNat ≤ 1 :=
    Bool.toNat_le _
  by_cases hov : w.getD v.length 0 +
      (addBackLoop v (w.take v.length) false).2.toNat < B
  · have hm : (w.getD v.length 0 +
        (addBackLoop v (w.take v.length) false).2.toNat) % B =
        w.getD v.length 0 +
          (addBackLoop v (w.take v.length) false).2.toNat := Nat.mod_eq_of_lt hov
    rw [hval, hm]
    have hres_lt : val (addBackLoop v (w.take v.length) false).1 +
        B ^ v.length *
          (w.getD v.length 0 +
            (addBackLoop v (w.take v.length) false).2.toNat) <
        B ^ (v.length + 1) := by
      have h1 : B ^ v.length *
          (w.getD v.length 0 +
            (addBackLoop v (w.take v.length) false).2.toNat) ≤
          B ^ v.length * (B - 1) := Nat.mul_le_mul_left _ (by omega)
      have h2 : B ^ v.length * (B - 1) + B ^ v.length = B ^ (v.length + 1) := by
        have e5 : B - 1 + 1 = B := by omega
        calc B ^ v.length * (B - 1) + B ^ v.length
            = B ^ v.length * (B - 1 + 1) := by ring
          _ = B ^ v.length * B := by rw [e5]
          _ = B ^ (v.length + 1) := (Nat.pow_succ ..).symm
      omega
    rw [Nat.mod_eq_of_lt (by
      have e3 : B ^ v.length *
          (w.getD v.length 0 + (addBackLoop v (w.take v.length) false).2.toNat) =
          B ^ v.length * w.getD v.length 0 +
            B ^ v.length * (addBackLoop v (w.take v.length) false).2.toNat := by
        ring
      omega)]
    have e3 : B ^ v.length *
        (w.getD v.length 0 + (addBackLoop v (w.take v.length) false).2.toNat) =
        B ^ v.length * w.getD v.length 0 +
          B ^ v.length * (addBackLoop v (w.take v.length) false).2.toNat := by
      ring
    omega
  · have hsum : w.getD v.length 0 +
        (addBackLoop v (w.take v.length) false).2.toNat = B := by omega
    have hm : (w.getD v.length 0 +
        (addBackLoop v (w.take v.length) false).2.toNat) % B = 0 := by
      rw [hsum, Nat.mod_self]
    rw [hval, hm, Nat.mul_zero, Nat.add_zero]
    have hsum2 : val w + val v =
        val (addBackLoop v (w.take v.length) false).1 + B ^ (v.length + 1) := by
      have hmul := congrArg (fun t => B ^ v.length * t) hsum
      simp only [Nat.mul_add] at hmul
      have e4 : B ^ v.length * B = B ^ (v.length + 1) := (Nat.pow_succ ..).symm
      rw [e4] at hmul
      omega
    rw [hsum2, Nat.add_mod_right]
    exact (Nat.mod_eq_of_lt (by
      have h1 : (0:ℕ) < B ^ (v.length) := Nat.pos_pow_of_pos _ B_pos
      have h2 : B ^ v.length ≤ B ^ (v.length + 1) :=
        Nat.pow_le_pow_right (by omega) (by omega)
      omega)).symm

theorem digits_getD : ∀ (l : List ℕ), (∀ d ∈ l, d < B) → ∀ (k : ℕ),
    l.getD k 0 = val l / B ^ k % B := by
  intro l
  induction l with
  | nil =>
    intro _ k
    simp [val, List.getD]
  | cons a t ih =>
    intro h k
    have ha : a < B := h a (by simp)
    cases k with
    | zero =>
      simp only [List.getD_cons_zero, val_cons, pow_zero, Nat.div_one]
      rw [Nat.add_mul_mod_self_left]
      exact (Nat.mod_eq_of_lt ha).symm
    | succ k =>
      simp only [List.getD_cons_succ, val_cons]
      rw [ih (fun d hd => h d (by simp [hd])) k]
      congr 1
      have e1 : B ^ (k + 1) = B * B ^ k := by
        rw [Nat.pow_succ] ; ring
      rw [e1, ← Nat.div_div_eq_div_mul, Nat.add_mul_div_left _ _ B_pos,
        Nat.div_eq_of_lt ha, Nat.zero_add]

theorem getD_lt_B {l : List ℕ} (h : ∀ d ∈ l, d < B) (k : ℕ) : l.getD k 0 < B := by
  rw [digits_getD l h k]
  exact Nat.mod_lt _ B_pos

theorem pow_B (j : ℕ) : B ^ j = 2 ^ (32 * j) := by
  have h2 : B = 2 ^ 32 := rfl
  rw [h2, ← Nat.pow_mul]

theorem shl_digit0 {l : List ℕ} (h : ∀ d ∈ l, d < B) (ls : ℕ) :
    l.getD 0 0 * 2 ^ ls % B = val l * 2 ^ ls % B := by
  cases l with
  | nil => simp [val, List.getD]
  | cons a t =>
    simp only [List.getD_cons_zero, val_cons]
    have e : (a + B * val t) * 2 ^ ls = a * 2 ^ ls + B * (val t * 2 ^ ls) := by ring
    rw [e, Nat.add_mul_mod_self_left]

theorem shl_digit_val {l : List ℕ} (h : ∀ d ∈ l, d < B) {ls : ℕ} (hls0 : 0 < ls)
    (hls : ls < 32) (k : ℕ) (hk : 1 ≤ k) :
    l.getD k 0 * 2 ^ ls % B ||| l.getD (k - 1) 0 / 2 ^ (32 - ls) =
      val l * 2 ^ ls / B ^ k % B := by
  have ha : l.getD (k - 1) 0 < B := getD_lt_B h (k - 1)
  rw [shl_digit_eq hls0 hls ha]
  have hBsplit : B = 2 ^ (32 - ls) * 2 ^ ls := by
    have h2 : B = 2 ^ 32 := rfl
    rw [h2, ← Nat.pow_add]
    congr 1
    omega
  have hYdef : val l * 2 ^ ls / B ^ k = val l / B ^ (k - 1) / 2 ^ (32 - ls) := by
    have e1 : B ^ k = 2 ^ ls * 2 ^ (32 * k - ls) := by
      rw [pow_B, ← Nat.pow_add]
      congr 1
      have : ls ≤ 32 * k := by
        calc ls ≤ 32 := by omega
          _ ≤ 32 * k := by omega
      omega
    have e2 : val l * 2 ^ ls = 2 ^ ls * val l := Nat.mul_comm _ _
    rw [e1, e2, Nat.mul_div_mul_left _ _ (by positivity)]
    have e3 : (2:ℕ) ^ (32 * k - ls) = 2 ^ (32 * (k - 1)) * 2 ^ (32 - ls) := by
      rw [← Nat.pow_add]
      congr 1
      omega
    rw [e3, ← Nat.div_div_eq_div_mul, ← pow_B]
  rw [hYdef]
  set Y := val l / B ^ (k - 1) with hY
  have hYsplit : Y = 2 ^ (32 - ls) * (2 ^ ls * (Y / B)) + Y % B := by
    have h1 := Nat.div_add_mod Y B
    have e : 2 ^ (32 - ls) * (2 ^ ls * (Y / B)) = B * (Y / B) := by
      rw [hBsplit] ; ring
    omega
  have hmodB : Y % B < B := Nat.mod_lt _ B_pos
  have hdivrs : Y / 2 ^ (32 - ls) = 2 ^ ls * (Y / B) + Y % B / 2 ^ (32 - ls) := by
    conv_lhs => rw [hYsplit]
    rw [Nat.add_comm, Nat.add_mul_div_left _ _ (by positivity : (0:ℕ) < 2 ^ (32 - ls))]
    ring
  rw [hdivrs]
  have hlow_lt : Y % B / 2 ^ (32 - ls) < 2 ^ ls := by
    apply Nat.div_lt_of_lt_mul
    calc Y % B < B := hmodB
      _ = 2 ^ (32 - ls) * 2 ^ ls := hBsplit
  have hmulmod : ∀ t : ℕ, 2 ^ ls * t % B = 2 ^ ls * (t % 2 ^ (32 - ls)) := by
    intro t
    have hBsplit2 : B = 2 ^ ls * 2 ^ (32 - ls) := by rw [hBsplit] ; ring
    rw [hBsplit2, Nat.mul_mod_mul_left]
  have hmm : (2 ^ ls * (Y / B) + Y % B / 2 ^ (32 - ls)) % B =
      2 ^ ls * (Y / B % 2 ^ (32 - ls)) + Y % B / 2 ^ (32 - ls) := by
    rw [Nat.add_mod]
    have h2 : Y % B / 2 ^ (32 - ls) % B = Y % B / 2 ^ (32 - ls) := by
      apply Nat.mod_eq_of_lt
      have : (2:ℕ) ^ ls ≤ B := by
        rw [hBsplit]
        exact Nat.le_mul_of_pos_left _ (by positivity)
      omega
    rw [hmulmod (Y / B), h2]
    apply Nat.mod_eq_of_lt
    have h3 : 2 ^ ls * (Y / B % 2 ^ (32 - ls)) ≤ 2 ^ ls * (2 ^ (32 - ls) - 1) := by
      apply Nat.mul_le_mul_left
      have := Nat.mod_lt (Y / B) (show 0 < 2 ^ (32 - ls) by positivity)
      omega
    have h4 : 2 ^ ls * (2 ^ (32 - ls) - 1) + 2 ^ ls = B := by
      have h5 : (0:ℕ) < 2 ^ (32 - ls) := by positivity
      have e : 2 ^ (32 - ls) - 1 + 1 = 2 ^ (32 - ls) := by omega
      calc 2 ^ ls * (2 ^ (32 - ls) - 1) + 2 ^ ls
          = 2 ^ ls * (2 ^ (32 - ls) - 1 + 1) := by ring
        _ = 2 ^ ls * 2 ^ (32 - ls) := by rw [e]
        _ = B := by rw [hBsplit] ; ring
    omega
  rw [hmm]
  have hgk : l.getD k 0 % 2 ^ (32 - ls) = Y / B % 2 ^ (32 - ls) := by
    rw [digits_getD l h k]
    have ek : k - 1 + 1 = k := by omega
    have epow : B ^ (k - 1) * B = B ^ k := by
      conv_rhs => rw [← ek]
      rw [Nat.pow_succ]
    have e1 : val l / B ^ k = Y / B := by
      rw [hY, Nat.div_div_eq_div_mul, epow]
    rw [e1]
    exact Nat.mod_mod_of_dvd _ ⟨2 ^ ls, by rw [hBsplit]⟩
  have hgk1 : l.getD (k - 1) 0 = Y % B := by
    rw [digits_getD l h (k - 1), hY]
  rw [hgk, hgk1]

theorem three_digits (X m : ℕ) (hX : X < B ^ (m + 3)) :
    X / B ^ (m + 2) % B * B ^ 2 + X / B ^ (m + 1) % B * B + X / B ^ m % B =
      X / B ^ m := by
  set Z := X / B ^ m with hZ
  have hZ3 : Z < B ^ 3 := by
    rw [hZ]
    apply Nat.div_lt_of_lt_mul
    calc X < B ^ (m + 3) := hX
      _ = B ^ m * B ^ 3 := by rw [← Nat.pow_add]
  have hZ1 : X / B ^ (m + 1) = Z / B := by
    rw [hZ, Nat.div_div_eq_div_mul, ← Nat.pow_succ]
  have hZ2 : X / B ^ (m + 2) = Z / B ^ 2 := by
    rw [hZ, Nat.div_div_eq_div_mul, ← Nat.pow_add]
  rw [hZ1, hZ2]
  have h1 := Nat.div_add_mod Z B
  have h2 := Nat.div_add_mod (Z / B) B
  have h3 : Z / B / B = Z / B ^ 2 := by
    rw [Nat.div_div_eq_div_mul, Nat.pow_two]
  have h4 : Z / B ^ 2 < B := by
    apply Nat.div_lt_of_lt_mul
    calc Z < B ^ 3 := hZ3
      _ = B ^ 2 * B := by rw [← Nat.pow_succ]
  have h5 : Z / B ^ 2 % B = Z / B ^ 2 := Nat.mod_eq_of_lt h4
  rw [h3] at h2
  rw [h5]
  have e1 : Z / B ^ 2 * B ^ 2 = B * (B * (Z / B ^ 2)) := by ring
  have e2 : Z / B % B * B = B * (Z / B % B) := by ring
  have e3 : B * (Z / B) = B * (B * (Z / B ^ 2)) + B * (Z / B % B) := by
    have := congrArg (fun t => B * t) h2
    simp only [Nat.mul_add] at this
    omega
  omega

theorem two_digits (X m : ℕ) (hX : X < B ^ (m + 2)) :
    X / B ^ (m + 1) % B * B + X / B ^ m % B = X / B ^ m := by
  set Z := X / B ^ m with hZ
  have hZ2 : Z < B ^ 2 := by
    rw [hZ]
    apply Nat.div_lt_of_lt_mul
    calc X < B ^ (m + 2) := hX
      _ = B ^ m * B ^ 2 := by rw [← Nat.pow_add]
  have hZ1 : X / B ^ (m + 1) = Z / B := by
    rw [hZ, Nat.div_div_eq_div_mul, ← Nat.pow_succ]
  rw [hZ1]
  have h1 := Nat.div_add_mod Z B
  have h4 : Z / B < B := by
    apply Nat.div_lt_of_lt_mul
    calc Z < B ^ 2 := hZ2
      _ = B * B := by rw [Nat.pow_two]
  have h5 : Z / B % B = Z / B := Nat.mod_eq_of_lt h4
  rw [h5]
  have e1 : Z / B * B = B * (Z / B) := by ring
  omega

theorem lt_div_succ_mul (a b : ℕ) (hb : 0 < b) : a < (a / b + 1) * b := by
  have h1 := Nat.div_add_mod a b
  have h2 : a % b < b := Nat.mod_lt _ hb
  have e : (a / b + 1) * b = b * (a / b) + b := by ring
  omega

theorem qhat_bounds {NW NV U3 n : ℕ} (hn : 2 ≤ n)
    (hNV1 : B ^ n ≤ 2 * NV) (hNV2 : NV < B ^ n) (hW : NW < B * NV)
    (hU3low : NW / B ^ (n - 2) ≤ U3)
    (hU3high : U3 * B ^ (n - 2) ≤ NW + B - 1) :
    NW / NV ≤ min (U3 / (NV / B ^ (n - 2))) (B - 1) ∧
      min (U3 / (NV / B ^ (n - 2))) (B - 1) ≤ NW / NV + 1 := by
  have hP : (0:ℕ) < B ^ (n - 2) := Nat.pos_pow_of_pos _ B_pos
  have hNVpos : 0 < NV := by
    have h1 : (0:ℕ) < B ^ n := Nat.pos_pow_of_pos _ B_pos
    omega
  have hsplit : B ^ n = B ^ (n - 2) * B ^ 2 := by
    rw [← Nat.pow_add]
    congr 1
    omega
  have hB2le : (2:ℕ) * B ^ (n - 2) ≤ B ^ (n - 2) * B ^ 2 := by
    have h1 : (2:ℕ) ≤ B ^ 2 := by rw [B_val] ; norm_num
    calc 2 * B ^ (n - 2) = B ^ (n - 2) * 2 := Nat.mul_comm _ _
      _ ≤ B ^ (n - 2) * B ^ 2 := Nat.mul_le_mul_left _ h1
  have hNVge : B ^ (n - 2) ≤ NV := by omega
  have hV2pos : 0 < NV / B ^ (n - 2) := Nat.div_pos hNVge hP
  have hq_le : NW / NV ≤ B - 1 := by
    have h1 : NW / NV < B := by
      rw [Nat.div_lt_iff_lt_mul hNVpos]
      have e : B * NV = NV * B := Nat.mul_comm _ _
      omega
    omega
  have hq_le2 : NW / NV ≤ U3 / (NV / B ^ (n - 2)) := by
    rw [Nat.le_div_iff_mul_le hV2pos]
    calc NW / NV * (NV / B ^ (n - 2)) ≤ NW / NV * NV / B ^ (n - 2) :=
          Nat.mul_div_le_mul_div_assoc _ _ _
      _ ≤ NW / B ^ (n - 2) := Nat.div_le_div_right (Nat.div_mul_le_self NW NV)
      _ ≤ U3 := hU3low
  refine ⟨Nat.le_min.mpr ⟨hq_le2, hq_le⟩, ?_⟩
  by_contra hcon
  have h2 : NW / NV + 2 ≤ min (U3 / (NV / B ^ (n - 2))) (B - 1) := by omega
  have hU3V2 : NW / NV + 2 ≤ U3 / (NV / B ^ (n - 2)) :=
    le_trans h2 (min_le_left _ _)
  have hqB : NW / NV + 2 ≤ B - 1 := le_trans h2 (min_le_right _ _)
  have hmul : (NW / NV + 2) * (NV / B ^ (n - 2)) ≤ U3 :=
    (Nat.le_div_iff_mul_le hV2pos).mp hU3V2
  have h3 : (NW / NV + 2) * (NV / B ^ (n - 2)) * B ^ (n - 2) ≤ NW + B - 1 :=
    le_trans (Nat.mul_le_mul_right _ hmul) hU3high
  have h4 : NV < (NV / B ^ (n - 2) + 1) * B ^ (n - 2) := lt_div_succ_mul NV _ hP
  have h5 : NW < (NW / NV + 1) * NV := lt_div_succ_mul NW NV hNVpos
  have h6 : (NW / NV + 2) * (NV + 1) ≤
      (NW / NV + 2) * (NV / B ^ (n - 2) * B ^ (n - 2) + B ^ (n - 2)) := by
    apply Nat.mul_le_mul_left
    have e : (NV / B ^ (n - 2) + 1) * B ^ (n - 2) =
        NV / B ^ (n - 2) * B ^ (n - 2) + B ^ (n - 2) := by ring
    omega
  have e7 : (NW / NV + 2) * (NV / B ^ (n - 2) * B ^ (n - 2) + B ^ (n - 2)) =
      (NW / NV + 2) * (NV / B ^ (n - 2)) * B ^ (n - 2) +
        (NW / NV + 2) * B ^ (n - 2) := by ring
  have e9 : (NW / NV + 2) * NV = (NW / NV + 1) * NV + NV := by ring
  have e10 : (NW / NV + 2) * (NV + 1) = (NW / NV + 2) * NV + (NW / NV + 2) := by
    ring
  have h11 : (NW / NV + 2) * B ^ (n - 2) ≤ (B + 1) * B ^ (n - 2) :=
    Nat.mul_le_mul_right _ (by omega)
  have h13 : (2:ℕ) * ((B + 1) * B ^ (n - 2)) = (2 * B + 2) * B ^ (n - 2) := by ring
  have h15 : (2:ℕ) * B ≤ 2 * B * B ^ (n - 2) := Nat.le_mul_of_pos_right _ hP
  have h16 : (2 * B + 2) * B ^ (n - 2) + 2 * B * B ^ (n - 2) =
      (4 * B + 2) * B ^ (n - 2) := by ring
  have h17 : (4 * B + 2) * B ^ (n - 2) ≤ B ^ (n - 2) * B ^ 2 := by
    have h18 : 4 * B + 2 ≤ B ^ 2 := by rw [B_val] ; norm_num
    calc (4 * B + 2) * B ^ (n - 2) ≤ B ^ 2 * B ^ (n - 2) :=
          Nat.mul_le_mul_right _ h18
      _ = B ^ (n - 2) * B ^ 2 := Nat.mul_comm _ _
  have hBpos : (0:ℕ) < B := B_pos
  have s1 : NW + NV < (NW / NV + 2) * NV := by
    rw [e9]
    omega
  have s2 : (NW / NV + 2) * NV ≤ (NW / NV + 2) * (NV + 1) :=
    Nat.mul_le_mul_left _ (by omega)
  have s3 : NW + NV < (NW / NV + 2) * (NV / B ^ (n - 2)) * B ^ (n - 2) +
      (NW / NV + 2) * B ^ (n - 2) := by
    calc NW + NV < (NW / NV + 2) * NV := s1
      _ ≤ (NW / NV + 2) * (NV + 1) := s2
      _ ≤ (NW / NV + 2) * (NV / B ^ (n - 2) * B ^ (n - 2) + B ^ (n - 2)) := h6
      _ = _ := e7
  have s4 : NV + 1 ≤ B + (B + 1) * B ^ (n - 2) := by omega
  have s5 : B ^ (n - 2) * B ^ 2 ≤ 2 * NV := by
    rw [← hsplit]
    exact hNV1
  have s6 : 2 * NV < 2 * B + 2 * ((B + 1) * B ^ (n - 2)) := by omega
  have s7 : 2 * B + 2 * ((B + 1) * B ^ (n - 2)) ≤ B ^ (n - 2) * B ^ 2 := by
    rw [h13]
    omega
  omega

theorem getD_drop (l : List ℕ) (m t : ℕ) : (l.drop m).getD t 0 = l.getD (m + t) 0 := by
  rw [List.getD_eq_getElem?_getD, List.getD_eq_getElem?_getD, List.getElem?_drop]

theorem divLoop_succ_true {v : List ℕ} {ls vn1 vn2 j : ℕ} {nu : List ℕ}
    (h : (divStep (findDivQuotientLs nu ls vn1 vn2 (j + v.length)) v
      ((nu.drop j).take (v.length + 1))).2 = true) :
    divLoop v ls vn1 vn2 (j + 1) nu =
      ((divLoop v ls vn1 vn2 j
          (nu.take j ++
            addBack v
              (divStep (findDivQuotientLs nu ls vn1 vn2 (j + v.length)) v
                ((nu.drop j).take (v.length + 1))).1 ++
            nu.drop (j + v.length + 1))).1 ++
        [(findDivQuotientLs nu ls vn1 vn2 (j + v.length) + B - 1) % B],
        (divLoop v ls vn1 vn2 j
          (nu.take j ++
            addBack v
              (divStep (findDivQuotientLs nu ls vn1 vn2 (j + v.length)) v
                ((nu.drop j).take (v.length + 1))).1 ++
            nu.drop (j + v.length + 1))).2) := by
  simp only [divLoop]
  rw [h]
  simp

theorem divLoop_succ_false {v : List ℕ} {ls vn1 vn2 j : ℕ} {nu : List ℕ}
    (h : (divStep (findDivQuotientLs nu ls vn1 vn2 (j + v.length)) v
      ((nu.drop j).take (v.length + 1))).2 = false) :
    divLoop v ls vn1 vn2 (j + 1) nu =
      ((divLoop v ls vn1 vn2 j
          (nu.take j ++
            (divStep (findDivQuotientLs nu ls vn1 vn2 (j + v.length)) v
              ((nu.drop j).take (v.length + 1))).1 ++
            nu.drop (j + v.length + 1))).1 ++
        [findDivQuotientLs nu ls vn1 vn2 (j + v.length)],
        (divLoop v ls vn1 vn2 j
          (nu.take j ++
            (divStep (findDivQuotientLs nu ls vn1 vn2 (j + v.length)) v
              ((nu.drop j).take (v.length + 1))).1 ++
            nu.drop (j + v.length + 1))).2) := by
  simp only [divLoop]
  rw [h]
  simp

theorem val_eq_zero {l : List ℕ} (h : ∀ d ∈ l, d = 0) : val l = 0 := by
  induction l with
  | nil => rfl
  | cons a t ih =>
    rw [val_cons, h a (by simp), ih (fun d hd => h d (by simp [hd]))]
    rfl

theorem getD_eq_getElem {l : List ℕ} {p : ℕ} (hp : p < l.length) :
    l.getD p 0 = l[p] := by
  rw [List.getD_eq_getElem?_getD, List.getElem?_eq_getElem hp]
  rfl

theorem drop_zeros_val {l : List ℕ} {k : ℕ} (h : ∀ p, k ≤ p → l.getD p 0 = 0) :
    val (l.drop k) = 0 := by
  apply val_eq_zero
  intro d hd
  obtain ⟨t, ht, rfl⟩ := List.mem_iff_getElem.mp hd
  have h1 : k + t < l.length := by
    rw [List.length_drop] at ht
    omega
  rw [List.getElem_drop]
  rw [← getD_eq_getElem h1]
  exact h (k + t) (by omega)

theorem getD_append_left {x y : List ℕ} {p : ℕ} (h : p < x.length) :
    (x ++ y).getD p 0 = x.getD p 0 := by
  rw [List.getD_eq_getElem?_getD, List.getD_eq_getElem?_getD,
    List.getElem?_append_left h]

theorem getD_append_right {x y : List ℕ} {p : ℕ} (h : x.length ≤ p) :
    (x ++ y).getD p 0 = y.getD (p - x.length) 0 := by
  rw [List.getD_eq_getElem?_getD, List.getD_eq_getElem?_getD,
    List.getElem?_append_right h]

theorem window_decomp {nu : List ℕ} {j n : ℕ} (hjn : j + 1 + n ≤ nu.length)
    (hzero : ∀ p, j + 1 + n ≤ p → nu.getD p 0 = 0) :
    val nu = val (nu.take j) + B ^ j * val ((nu.drop j).take (n + 1)) := by
  have h1 := val_take_add_drop nu j
  have hjlen : (nu.take j).length = j := by
    rw [List.length_take]
    omega
  rw [hjlen] at h1
  have h2 := val_take_add_drop (nu.drop j) (n + 1)
  have hwlen : ((nu.drop j).take (n + 1)).length = n + 1 := by
    rw [List.length_take, List.length_drop]
    omega
  rw [hwlen] at h2
  have h3 : (nu.drop j).drop (n + 1) = nu.drop (j + n + 1) := by
    rw [List.drop_drop]
    congr 1
  have h4 : val (nu.drop (j + n + 1)) = 0 :=
    drop_zeros_val (fun p hp => hzero p (by omega))
  rw [h3, h4, Nat.mul_zero, Nat.add_zero] at h2
  rw [h1, h2]

theorem div_div_pow {X a b : ℕ} : X / B ^ a / B ^ b = X / B ^ (a + b) := by
  rw [Nat.div_div_eq_div_mul, ← Nat.pow_add]

theorem findDivQuotientD_spec {un un1 un2 vn1 vn2 : ℕ}
    (h31 : 2 ^ 31 ≤ vn1) (hv1B : vn1 < B) (hv2B : vn2 < B)
    (hu1B : un1 < B) (hu2B : un2 < B)
    (hpre : un * B + un1 ≤ vn1 * B + vn2) :
    findDivQuotientD un un1 un2 vn1 vn2 =
      min ((un * B ^ 2 + un1 * B + un2) / (vn1 * B + vn2)) (B - 1) := by
  by_cases hA : un < vn1
  · exact findDivQuotientD_spec_lt h31 hv1B hv2B hu1B hu2B hpre hA
  · exact findDivQuotientD_spec_ge h31 hv1B hv2B hu1B hu2B hpre hA

theorem findDivQuotientLs_eq {nu : List ℕ} (hd : ∀ x ∈ nu, x < B) {ls : ℕ}
    (vn1 vn2 : ℕ) (hls : ls < 32) {i : ℕ} (hi : 2 ≤ i) :
    findDivQuotientLs nu ls vn1 vn2 i =
      findDivQuotientD (val nu * 2 ^ ls / B ^ i % B)
        (val nu * 2 ^ ls / B ^ (i - 1) % B) (val nu * 2 ^ ls / B ^ (i - 2) % B)
        vn1 vn2 := by
  unfold findDivQuotientLs
  by_cases h0 : ls = 0
  · subst h0
    rw [if_pos rfl]
    simp only [pow_zero, Nat.mul_one]
    rw [digits_getD nu hd i, digits_getD nu hd (i - 1), digits_getD nu hd (i - 2)]
  · rw [if_neg h0]
    have hls0 : 0 < ls := Nat.pos_of_ne_zero h0
    have h2v : nu.getD (i - 1) 0 * 2 ^ ls % B ||| nu.getD (i - 2) 0 / 2 ^ (32 - ls) =
        val nu * 2 ^ ls / B ^ (i - 1) % B := by
      have e12 : i - 2 = i - 1 - 1 := by omega
      rw [e12]
      exact shl_digit_val hd hls0 hls (i - 1) (by omega)
    rw [shl_digit_val hd hls0 hls i (by omega), h2v]
    by_cases h2 : 0 < i - 2
    · rw [if_pos h2]
      have e3 : i - 3 = i - 2 - 1 := by omega
      rw [e3, shl_digit_val hd hls0 hls (i - 2) (by omega)]
    · rw [if_neg h2]
      have e2 : i - 2 = 0 := by omega
      rw [e2, Nat.or_zero, shl_digit0 hd ls, pow_zero, Nat.div_one]

theorem qdigit_correct {v nu : List ℕ} {ls vn1 vn2 j : ℕ}
    (hn : 2 ≤ v.length) (hls : ls < 32)
    (hNV1 : B ^ v.length ≤ 2 * (val v * 2 ^ ls))
    (hNV2 : val v * 2 ^ ls < B ^ v.length)
    (hV2 : vn1 * B + vn2 = val v * 2 ^ ls / B ^ (v.length - 2))
    (h31 : 2 ^ 31 ≤ vn1) (hv1B : vn1 < B) (hv2B : vn2 < B)
    (hjn : j + 1 + v.length ≤ nu.length)
    (hnu : ∀ x ∈ nu, x < B)
    (hzero : ∀ p, j + 1 + v.length ≤ p → nu.getD p 0 = 0)
    (hW : val ((nu.drop j).take (v.length + 1)) < B * val v) :
    val ((nu.drop j).take (v.length + 1)) / val v ≤
        findDivQuotientLs nu ls vn1 vn2 (j + v.length) ∧
      findDivQuotientLs nu ls vn1 vn2 (j + v.length) ≤
        val ((nu.drop j).take (v.length + 1)) / val v + 1 ∧
      findDivQuotientLs nu ls vn1 vn2 (j + v.length) ≤ B - 1 := by
  have hlspos : (0:ℕ) < 2 ^ ls := by positivity
  have hlsB : (2:ℕ) ^ ls < B := by
    have h1 : (2:ℕ) ^ ls ≤ 2 ^ 31 := Nat.pow_le_pow_right (by norm_num) (by omega)
    have h2 : (2:ℕ) ^ 31 < 2 ^ 32 := by norm_num
    have h3 : B = 2 ^ 32 := rfl
    omega
  have hVVpos : 0 < val v := by
    by_contra h0
    have hz : val v = 0 := by omega
    rw [hz, Nat.zero_mul, Nat.mul_zero] at hNV1
    have := Nat.pos_pow_of_pos v.length B_pos
    omega
  have hdecomp := window_decomp hjn hzero
  have htakelt : val (nu.take j) < B ^ j := by
    have h1 := val_lt (nu.take j) (fun x hx => hnu x (List.take_subset _ _ hx))
    have h2 : (nu.take j).length = j := by
      rw [List.length_take] ; omega
    rwa [h2] at h1
  have hWlt : val ((nu.drop j).take (v.length + 1)) + 1 ≤ B * val v := hW
  have hNL : val nu * 2 ^ ls < B ^ (j + v.length + 1) := by
    have ha1 : val nu < B ^ j * (val ((nu.drop j).take (v.length + 1)) + 1) := by
      rw [hdecomp]
      have e : B ^ j * (val ((nu.drop j).take (v.length + 1)) + 1) =
          B ^ j * val ((nu.drop j).take (v.length + 1)) + B ^ j := by ring
      omega
    have ha2 : val nu * 2 ^ ls <
        B ^ j * (val ((nu.drop j).take (v.length + 1)) + 1) * 2 ^ ls :=
      (Nat.mul_lt_mul_right hlspos).mpr ha1
    have ha3 : B ^ j * (val ((nu.drop j).take (v.length + 1)) + 1) * 2 ^ ls ≤
        B ^ j * (B * (val v * 2 ^ ls)) := by
      have h4 : (val ((nu.drop j).take (v.length + 1)) + 1) * 2 ^ ls ≤
          B * (val v * 2 ^ ls) := by
        calc (val ((nu.drop j).take (v.length + 1)) + 1) * 2 ^ ls ≤
            (B * val v) * 2 ^ ls := Nat.mul_le_mul_right _ hWlt
          _ = B * (val v * 2 ^ ls) := by ring
      calc B ^ j * (val ((nu.drop j).take (v.length + 1)) + 1) * 2 ^ ls =
          B ^ j * ((val ((nu.drop j).take (v.length + 1)) + 1) * 2 ^ ls) := by ring
        _ ≤ B ^ j * (B * (val v * 2 ^ ls)) := Nat.mul_le_mul_left _ h4
    have ha4 : B ^ j * (B * (val v * 2 ^ ls)) < B ^ (j + v.length + 1) := by
      have h6 : B * (val v * 2 ^ ls) < B * B ^ v.length :=
        (Nat.mul_lt_mul_left B_pos).mpr hNV2
      have e : B ^ (j + v.length + 1) = B ^ j * (B * B ^ v.length) := by
        rw [Nat.pow_succ, Nat.pow_add]
        ring
      rw [e]
      exact (Nat.mul_lt_mul_left (Nat.pos_pow_of_pos _ B_pos)).mpr h6
    omega
  have hi2 : 2 ≤ j + v.length := by omega
  have hLs := findDivQuotientLs_eq hnu vn1 vn2 hls hi2
  -- the three extracted digits are the top digits of NF = NL / B^j
  have hNF_eq : val nu * 2 ^ ls / B ^ j =
      val (nu.take j) * 2 ^ ls / B ^ j +
        val ((nu.drop j).take (v.length + 1)) * 2 ^ ls := by
    have e : val nu * 2 ^ ls = val (nu.take j) * 2 ^ ls +
        B ^ j * (val ((nu.drop j).take (v.length + 1)) * 2 ^ ls) := by
      rw [hdecomp] ; ring
    rw [e, Nat.add_mul_div_left _ _ (Nat.pos_pow_of_pos _ B_pos)]
  have hlow_div : val (nu.take j) * 2 ^ ls / B ^ j < 2 ^ ls := by
    apply Nat.div_lt_of_lt_mul
    exact (Nat.mul_lt_mul_right hlspos).mpr htakelt
  have hNF_low : val ((nu.drop j).take (v.length + 1)) * 2 ^ ls ≤
      val nu * 2 ^ ls / B ^ j := by
    rw [hNF_eq]
    exact Nat.le_add_left _ _
  have hNF_high : val nu * 2 ^ ls / B ^ j ≤
      val ((nu.drop j).take (v.length + 1)) * 2 ^ ls + 2 ^ ls - 1 := by
    rw [hNF_eq]
    have h1 := hlow_div
    omega
  -- hpre for the five-digit estimator
  have hple : val nu * 2 ^ ls / B ^ (j + v.length - 1) ≤
      val v * 2 ^ ls / B ^ (v.length - 2) := by
    have e1 : val nu * 2 ^ ls / B ^ (j + v.length - 1) =
        val nu * 2 ^ ls / B ^ j / B ^ (v.length - 1) := by
      rw [div_div_pow]
      congr 2
      omega
    rw [e1]
    have hT := lt_div_succ_mul (val v * 2 ^ ls) (B ^ (v.length - 2))
      (Nat.pos_pow_of_pos _ B_pos)
    have hNWb : val ((nu.drop j).take (v.length + 1)) * 2 ^ ls <
        B * (val v * 2 ^ ls) := by
      calc val ((nu.drop j).take (v.length + 1)) * 2 ^ ls <
          (B * val v) * 2 ^ ls := (Nat.mul_lt_mul_right hlspos).mpr hW
        _ = B * (val v * 2 ^ ls) := by ring
    have hNFb : val nu * 2 ^ ls / B ^ j <
        (val v * 2 ^ ls / B ^ (v.length - 2) + 1) * B ^ (v.length - 1) := by
      have h7 : B * (val v * 2 ^ ls) + 2 ^ ls ≤
          B * ((val v * 2 ^ ls / B ^ (v.length - 2) + 1) * B ^ (v.length - 2)) := by
        have h8 : val v * 2 ^ ls + 1 ≤
            (val v * 2 ^ ls / B ^ (v.length - 2) + 1) * B ^ (v.length - 2) := hT
        have h9 : B * (val v * 2 ^ ls) + B ≤
            B * ((val v * 2 ^ ls / B ^ (v.length - 2) + 1) * B ^ (v.length - 2)) := by
          have := Nat.mul_le_mul_left B h8
          rw [Nat.mul_add, Nat.mul_one] at this
          omega
        omega
      have h10 : B * ((val v * 2 ^ ls / B ^ (v.length - 2) + 1) * B ^ (v.length - 2)) =
          (val v * 2 ^ ls / B ^ (v.length - 2) + 1) * B ^ (v.length - 1) := by
        have e2 : B * B ^ (v.length - 2) = B ^ (v.length - 1) := by
          rw [← Nat.pow_succ']
          congr 1
          omega
        calc B * ((val v * 2 ^ ls / B ^ (v.length - 2) + 1) * B ^ (v.length - 2)) =
            (val v * 2 ^ ls / B ^ (v.length - 2) + 1) * (B * B ^ (v.length - 2)) := by
              ring
          _ = (val v * 2 ^ ls / B ^ (v.length - 2) + 1) * B ^ (v.length - 1) := by
              rw [e2]
      omega
    have h12 : val nu * 2 ^ ls / B ^ j / B ^ (v.length - 1) <
        val v * 2 ^ ls / B ^ (v.length - 2) + 1 := by
      rw [Nat.div_lt_iff_lt_mul
        (show 0 < B ^ (v.length - 1) from Nat.pos_pow_of_pos _ B_pos)]
      exact hNFb
    omega
  have hq := @findDivQuotientD_spec (val nu * 2 ^ ls / B ^ (j + v.length) % B)
    (val nu * 2 ^ ls / B ^ (j + v.length - 1) % B)
    (val nu * 2 ^ ls / B ^ (j + v.length - 2) % B) vn1 vn2
    h31 hv1B hv2B (Nat.mod_lt _ B_pos)
    (Nat.mod_lt _ B_pos) (by
      have ht := two_digits (val nu * 2 ^ ls) (j + v.length - 1) (by
        have e : j + v.length - 1 + 2 = j + v.length + 1 := by omega
        rw [e]
        exact hNL)
      have e4 : j + v.length - 1 + 1 = j + v.length := by omega
      rw [e4] at ht
      rw [hV2, ht]
      exact hple)
  rw [hq] at hLs
  have hthree := three_digits (val nu * 2 ^ ls) (j + v.length - 2) (by
    have e : j + v.length - 2 + 3 = j + v.length + 1 := by omega
    rw [e]
    exact hNL)
  have e5 : j + v.length - 2 + 1 = j + v.length - 1 := by omega
  have e6 : j + v.length - 2 + 2 = j + v.length := by omega
  rw [e5, e6] at hthree
  rw [hthree, hV2] at hLs
  have hU3f : val nu * 2 ^ ls / B ^ (j + v.length - 2) =
      val nu * 2 ^ ls / B ^ j / B ^ (v.length - 2) := by
    rw [div_div_pow]
    congr 2
    omega
  rw [hU3f] at hLs
  have hqb := qhat_bounds hn hNV1 hNV2
    (show val ((nu.drop j).take (v.length + 1)) * 2 ^ ls < B * (val v * 2 ^ ls) by
      calc val ((nu.drop j).take (v.length + 1)) * 2 ^ ls <
          (B * val v) * 2 ^ ls := (Nat.mul_lt_mul_right hlspos).mpr hW
        _ = B * (val v * 2 ^ ls) := by ring)
    (Nat.div_le_div_right hNF_low)
    (by
      have h13 := Nat.div_mul_le_self (val nu * 2 ^ ls / B ^ j) (B ^ (v.length - 2))
      have h14 : val nu * 2 ^ ls / B ^ j / B ^ (v.length - 2) * B ^ (v.length - 2) ≤
          val ((nu.drop j).take (v.length + 1)) * 2 ^ ls + 2 ^ ls - 1 :=
        le_trans h13 hNF_high
      omega)
  have hscale : val ((nu.drop j).take (v.length + 1)) * 2 ^ ls /
      (val v * 2 ^ ls) = val ((nu.drop j).take (v.length + 1)) / val v :=
    Nat.mul_div_mul_right _ _ hlspos
  rw [hscale] at hqb
  rw [hLs]
  refine ⟨hqb.1, hqb.2, ?_⟩
  exact min_le_right _ _

theorem divLoop_step {v : List ℕ} {ls vn1 vn2 j : ℕ} {nu X : List ℕ} {d : ℕ}
    (hVpos : 0 < val v) (hVltBn : val v < B ^ v.length)
    (hjn : j + 1 + v.length ≤ nu.length) (hnu : ∀ x ∈ nu, x < B)
    (hzero : ∀ p, j + 1 + v.length ≤ p → nu.getD p 0 = 0)
    (hW : val ((nu.drop j).take (v.length + 1)) < B * val v)
    (hXlen : X.length = v.length + 1) (hXdig : ∀ x ∈ X, x < B)
    (hXval : val X = val ((nu.drop j).take (v.length + 1)) % val v)
    (hdeq : d = val ((nu.drop j).take (v.length + 1)) / val v)
    (ih : ∀ nu2 : List ℕ, j + v.length ≤ nu2.length → (∀ x ∈ nu2, x < B) →
      (∀ p, j + v.length ≤ p → nu2.getD p 0 = 0) →
      (1 ≤ j → val ((nu2.drop (j - 1)).take (v.length + 1)) < B * val v) →
      (divLoop v ls vn1 vn2 j nu2).1.length = j ∧
        (∀ x ∈ (divLoop v ls vn1 vn2 j nu2).1, x < B) ∧
        (∀ x ∈ (divLoop v ls vn1 vn2 j nu2).2, x < B) ∧
        val (divLoop v ls vn1 vn2 j nu2).2 +
            val v * val (divLoop v ls vn1 vn2 j nu2).1 = val nu2 ∧
        (1 ≤ j → val (divLoop v ls vn1 vn2 j nu2).2 < val v)) :
    ((divLoop v ls vn1 vn2 j
        (nu.take j ++ X ++ nu.drop (j + v.length + 1))).1 ++ [d]).length = j + 1 ∧
      (∀ x ∈ (divLoop v ls vn1 vn2 j
        (nu.take j ++ X ++ nu.drop (j + v.length + 1))).1 ++ [d], x < B) ∧
      (∀ x ∈ (divLoop v ls vn1 vn2 j
        (nu.take j ++ X ++ nu.drop (j + v.length + 1))).2, x < B) ∧
      val (divLoop v ls vn1 vn2 j (nu.take j ++ X ++ nu.drop (j + v.length + 1))).2 +
          val v * val ((divLoop v ls vn1 vn2 j
            (nu.take j ++ X ++ nu.drop (j + v.length + 1))).1 ++ [d]) = val nu ∧
      val (divLoop v ls vn1 vn2 j
        (nu.take j ++ X ++ nu.drop (j + v.length + 1))).2 < val v := by
  have hq := Nat.div_add_mod (val ((nu.drop j).take (v.length + 1))) (val v)
  have hRlt : val ((nu.drop j).take (v.length + 1)) % val v < val v :=
    Nat.mod_lt _ hVpos
  have hqlt : val ((nu.drop j).take (v.length + 1)) / val v < B := by
    rw [Nat.div_lt_iff_lt_mul hVpos]
    exact hW
  have htakelen : (nu.take j).length = j := by
    rw [List.length_take]
    omega
  have hnu2len : (nu.take j ++ X ++ nu.drop (j + v.length + 1)).length = nu.length := by
    rw [List.length_append, List.length_append, htakelen, hXlen, List.length_drop]
    omega
  have hnu2dig : ∀ x ∈ nu.take j ++ X ++ nu.drop (j + v.length + 1), x < B := by
    intro x hx
    rcases List.mem_append.mp hx with hx1 | hx2
    · rcases List.mem_append.mp hx1 with hx3 | hx4
      · exact hnu x (List.take_subset _ _ hx3)
      · exact hXdig x hx4
    · exact hnu x (List.drop_subset _ _ hx2)
  have hRVV : val X < val v := by
    rw [hXval]
    exact hRlt
  have hBge : 1 ≤ B := B_pos
  have hXtop : ∀ p, v.length ≤ p → X.getD p 0 = 0 := by
    intro p hp
    rw [digits_getD X hXdig p]
    have h1 : val X < B ^ p :=
      lt_of_lt_of_le (lt_trans hRVV hVltBn) (Nat.pow_le_pow_right hBge hp)
    rw [Nat.div_eq_of_lt h1]
    exact Nat.zero_mod B
  have hzero2 : ∀ p, j + v.length ≤ p →
      (nu.take j ++ X ++ nu.drop (j + v.length + 1)).getD p 0 = 0 := by
    intro p hp
    by_cases hcase : p < j + (v.length + 1)
    · rw [getD_append_left (show p < (nu.take j ++ X).length by
        rw [List.length_append, htakelen, hXlen] ; omega)]
      rw [getD_append_right (show (nu.take j).length ≤ p by rw [htakelen] ; omega)]
      rw [htakelen]
      exact hXtop (p - j) (by omega)
    · rw [getD_append_right (show (nu.take j ++ X).length ≤ p by
        rw [List.length_append, htakelen, hXlen] ; omega)]
      rw [List.length_append, htakelen, hXlen, getD_drop]
      have he : j + v.length + 1 + (p - (j + (v.length + 1))) = p := by omega
      rw [he]
      exact hzero p (by omega)
  have hdval : val (nu.drop (j + v.length + 1)) = 0 :=
    drop_zeros_val (fun p hp => hzero p (by omega))
  have hnu2val : val (nu.take j ++ X ++ nu.drop (j + v.length + 1)) =
      val (nu.take j) + B ^ j * (val ((nu.drop j).take (v.length + 1)) % val v) := by
    rw [val_append (nu.take j ++ X) (nu.drop (j + v.length + 1)), hdval,
      Nat.mul_zero, Nat.add_zero, val_append (nu.take j) X, htakelen, hXval]
  have hvt : val (nu.take j) < B ^ j := by
    have h1 := val_lt (nu.take j) (fun x hx => hnu x (List.take_subset _ _ hx))
    rw [htakelen] at h1
    exact h1
  have hW2 : 1 ≤ j →
      val (((nu.take j ++ X ++ nu.drop (j + v.length + 1)).drop (j - 1)).take
        (v.length + 1)) < B * val v := by
    intro hj1
    have hdec := window_decomp
      (show j - 1 + 1 + v.length ≤ (nu.take j ++ X ++ nu.drop (j + v.length + 1)).length by
        rw [hnu2len] ; omega)
      (fun p hp => hzero2 p (by omega))
    have h2 : B ^ j = B ^ (j - 1) * B := by
      conv_lhs => rw [show j = j - 1 + 1 by omega]
      rw [pow_succ]
    have h3 : B ^ j * (val ((nu.drop j).take (v.length + 1)) % val v + 1) ≤
        B ^ j * val v :=
      Nat.mul_le_mul_left _ (by omega)
    have h4 : B ^ j * (val ((nu.drop j).take (v.length + 1)) % val v + 1) =
        B ^ j * (val ((nu.drop j).take (v.length + 1)) % val v) + B ^ j := by ring
    have h5 : B ^ j * val v = B ^ (j - 1) * (B * val v) := by
      rw [h2] ; ring
    have h6 : B ^ (j - 1) *
        val (((nu.take j ++ X ++ nu.drop (j + v.length + 1)).drop (j - 1)).take
          (v.length + 1)) <
        B ^ (j - 1) * (B * val v) := by omega
    exact Nat.lt_of_mul_lt_mul_left h6
  obtain ⟨ih1, ih2, ih3, ih4, ih5⟩ := ih (nu.take j ++ X ++ nu.drop (j + v.length + 1))
    (by rw [hnu2len] ; omega) hnu2dig hzero2 hW2
  have hvald : val [d] = d := by simp
  have hwdHi : val nu = val (nu.take j) +
      B ^ j * val ((nu.drop j).take (v.length + 1)) :=
    window_decomp hjn hzero
  refine ⟨?_, ?_, ih3, ?_, ?_⟩
  · rw [List.length_append, ih1]
    rfl
  · intro x hx
    rcases List.mem_append.mp hx with hx1 | hx2
    · exact ih2 x hx1
    · have hx3 : x = d := by simpa using hx2
      rw [hx3, hdeq]
      exact hqlt
  · rw [val_append, ih1, hvald, hdeq]
    have t1 : val v * (val (divLoop v ls vn1 vn2 j
          (nu.take j ++ X ++ nu.drop (j + v.length + 1))).1 +
        B ^ j * (val ((nu.drop j).take (v.length + 1)) / val v)) =
        val v * val (divLoop v ls vn1 vn2 j
          (nu.take j ++ X ++ nu.drop (j + v.length + 1))).1 +
        B ^ j * (val v * (val ((nu.drop j).take (v.length + 1)) / val v)) := by
      ring
    have t2 : B ^ j * val ((nu.drop j).take (v.length + 1)) =
        B ^ j * (val v * (val ((nu.drop j).take (v.length + 1)) / val v)) +
        B ^ j * (val ((nu.drop j).take (v.length + 1)) % val v) := by
      conv_lhs => rw [← hq]
      ring
    omega
  · by_cases hj : 1 ≤ j
    · exact ih5 hj
    · have hj0 : j = 0 := by omega
      subst hj0
      have hdl : (divLoop v ls vn1 vn2 0
          (nu.take 0 ++ X ++ nu.drop (0 + v.length + 1))).2 =
          nu.take 0 ++ X ++ nu.drop (0 + v.length + 1) := rfl
      have h0 : val (divLoop v ls vn1 vn2 0
          (nu.take 0 ++ X ++ nu.drop (0 + v.length + 1))).2 =
          val ((nu.drop 0).take (v.length + 1)) % val v := by
        rw [hdl, hnu2val]
        simp
      rw [h0]
      exact hRlt

/-- Steps D2–D7 preserve the division invariant: for jm rounds over a
normalized divisor the loop returns jm little-endian quotient digits and a
final array whose value is the remainder plus divisor times quotient, with
the remainder below the divisor. -/
theorem divLoop_spec {v : List ℕ} {ls vn1 vn2 : ℕ}
    (hv : ∀ x ∈ v, x < B) (hn : 2 ≤ v.length) (hls : ls < 32)
    (hNV1 : B ^ v.length ≤ 2 * (val v * 2 ^ ls))
    (hNV2 : val v * 2 ^ ls < B ^ v.length)
    (hV2 : vn1 * B + vn2 = val v * 2 ^ ls / B ^ (v.length - 2))
    (h31 : 2 ^ 31 ≤ vn1) (hv1B : vn1 < B) (hv2B : vn2 < B) :
    ∀ (jm : ℕ) (nu : List ℕ),
      jm + v.length ≤ nu.length →
      (∀ x ∈ nu, x < B) →
      (∀ p, jm + v.length ≤ p → nu.getD p 0 = 0) →
      (1 ≤ jm → val ((nu.drop (jm - 1)).take (v.length + 1)) < B * val v) →
      (divLoop v ls vn1 vn2 jm nu).1.length = jm ∧
        (∀ x ∈ (divLoop v ls vn1 vn2 jm nu).1, x < B) ∧
        (∀ x ∈ (divLoop v ls vn1 vn2 jm nu).2, x < B) ∧
        val (divLoop v ls vn1 vn2 jm nu).2 +
            val v * val (divLoop v ls vn1 vn2 jm nu).1 = val nu ∧
        (1 ≤ jm → val (divLoop v ls vn1 vn2 jm nu).2 < val v) := by
  have hVpos : 0 < val v := by
    by_contra h0
    have hz : val v = 0 := by omega
    rw [hz, Nat.zero_mul, Nat.mul_zero] at hNV1
    have := Nat.pos_pow_of_pos v.length B_pos
    omega
  have hVltBn : val v < B ^ v.length := by
    have h1 : val v * 1 ≤ val v * 2 ^ ls :=
      Nat.mul_le_mul_left _ (Nat.one_le_pow ls 2 (by norm_num))
    omega
  intro jm
  induction jm with
  | zero =>
    intro nu hjn hnu hzero hWc
    refine ⟨rfl, ?_, ?_, ?_, ?_⟩
    · intro x hx
      simp [divLoop] at hx
    · intro x hx
      exact hnu x hx
    · simp [divLoop]
    · intro h1
      omega
  | succ j ih =>
    intro nu hjn hnu hzero hWc
    have hW : val ((nu.drop j).take (v.length + 1)) < B * val v := by
      have h1 := hWc (by omega)
      simpa using h1
    have hjn1 : j + 1 + v.length ≤ nu.length := hjn
    obtain ⟨hql, hqu, hqB1⟩ := qdigit_correct hn hls hNV1 hNV2 hV2 h31 hv1B hv2B hjn1
      hnu hzero hW
    have hwlen : ((nu.drop j).take (v.length + 1)).length = v.length + 1 := by
      rw [List.length_take, List.length_drop]
      omega
    have hwdig : ∀ x ∈ (nu.drop j).take (v.length + 1), x < B := by
      intro x hx
      exact hnu x (List.drop_subset _ _ (List.take_subset _ _ hx))
    have hBge : 1 ≤ B := B_pos
    have hqB : findDivQuotientLs nu ls vn1 vn2 (j + v.length) < B := by omega
    obtain ⟨hd_val, hd_len, hd_dig, hd_bo⟩ := divStep_spec hqB hwlen hv hwdig
    have hq := Nat.div_add_mod (val ((nu.drop j).take (v.length + 1))) (val v)
    have hcomm : val ((nu.drop j).take (v.length + 1)) / val v * val v =
        val v * (val ((nu.drop j).take (v.length + 1)) / val v) := Nat.mul_comm _ _
    cases hbo : (divStep (findDivQuotientLs nu ls vn1 vn2 (j + v.length)) v
        ((nu.drop j).take (v.length + 1))).2 with
    | false =>
      rw [hbo] at hd_val
      simp only [Bool.toNat_false, Nat.mul_zero, Nat.add_zero] at hd_val
      have hnlt : ¬ (val ((nu.drop j).take (v.length + 1)) <
          findDivQuotientLs nu ls vn1 vn2 (j + v.length) * val v) := by
        intro hlt
        have h1 := hd_bo.mpr hlt
        rw [hbo] at h1
        exact Bool.false_ne_true h1
      have hge := Nat.not_lt.mp hnlt
      have hqeq : findDivQuotientLs nu ls vn1 vn2 (j + v.length) =
          val ((nu.drop j).take (v.length + 1)) / val v := by
        have h1 : findDivQuotientLs nu ls vn1 vn2 (j + v.length) ≤
            val ((nu.drop j).take (v.length + 1)) / val v :=
          (Nat.le_div_iff_mul_le hVpos).mpr hge
        omega
      have hXval : val (divStep (findDivQuotientLs nu ls vn1 vn2 (j + v.length)) v
          ((nu.drop j).take (v.length + 1))).1 =
          val ((nu.drop j).take (v.length + 1)) % val v := by
        have hlink : findDivQuotientLs nu ls vn1 vn2 (j + v.length) * val v =
            val v * (val ((nu.drop j).take (v.length + 1)) / val v) := by
          rw [hqeq]
          ring
        omega
      rw [divLoop_succ_false hbo]
      obtain ⟨s1, s2, s3, s4, s5⟩ := divLoop_step hVpos hVltBn hjn1 hnu hzero hW
        hd_len hd_dig hXval hqeq ih
      exact ⟨s1, s2, s3, s4, fun _ => s5⟩
    | true =>
      rw [hbo] at hd_val
      simp only [Bool.toNat_true, Nat.mul_one] at hd_val
      have hlt := hd_bo.mp hbo
      have hqlt2 : val ((nu.drop j).take (v.length + 1)) / val v <
          findDivQuotientLs nu ls vn1 vn2 (j + v.length) := by
        have h1 : val ((nu.drop j).take (v.length + 1)) / val v * val v ≤
            val ((nu.drop j).take (v.length + 1)) := Nat.div_mul_le_self _ _
        have hc2 : findDivQuotientLs nu ls vn1 vn2 (j + v.length) * val v =
            val v * findDivQuotientLs nu ls vn1 vn2 (j + v.length) := Nat.mul_comm _ _
        have h3 : val v * (val ((nu.drop j).take (v.length + 1)) / val v) <
            val v * findDivQuotientLs nu ls vn1 vn2 (j + v.length) := by omega
        exact Nat.lt_of_mul_lt_mul_left h3
      have hqeq : findDivQuotientLs nu ls vn1 vn2 (j + v.length) =
          val ((nu.drop j).take (v.length + 1)) / val v + 1 := by omega
      have hXV : val (divStep (findDivQuotientLs nu ls vn1 vn2 (j + v.length)) v
          ((nu.drop j).take (v.length + 1))).1 + val v =
          val ((nu.drop j).take (v.length + 1)) % val v + B ^ (v.length + 1) := by
        have hlink : findDivQuotientLs nu ls vn1 vn2 (j + v.length) * val v =
            val ((nu.drop j).take (v.length + 1)) / val v * val v + val v := by
          rw [hqeq]
          ring
        have hle := Nat.div_mul_le_self (val ((nu.drop j).take (v.length + 1))) (val v)
        omega
      obtain ⟨ab_val, ab_len, ab_dig⟩ := addBack_spec hd_len hv hd_dig
      have hVltB1 : val v < B ^ (v.length + 1) := by
        have h1 : B ^ v.length ≤ B ^ (v.length + 1) :=
          Nat.pow_le_pow_right hBge (by omega)
        omega
      have hrB : val ((nu.drop j).take (v.length + 1)) % val v < val v :=
        Nat.mod_lt _ hVpos
      have hYval : val (addBack v
          (divStep (findDivQuotientLs nu ls vn1 vn2 (j + v.length)) v
            ((nu.drop j).take (v.length + 1))).1) =
          val ((nu.drop j).take (v.length + 1)) % val v := by
        rw [ab_val, hXV, Nat.add_mod_right]
        exact Nat.mod_eq_of_lt (by omega)
      have hd2 : (findDivQuotientLs nu ls vn1 vn2 (j + v.length) + B - 1) % B =
          val ((nu.drop j).take (v.length + 1)) / val v := by
        rw [hqeq]
        have h1 : val ((nu.drop j).take (v.length + 1)) / val v + 1 + B - 1 =
            val ((nu.drop j).take (v.length + 1)) / val v + B := by omega
        rw [h1, Nat.add_mod_right]
        apply Nat.mod_eq_of_lt
        rw [Nat.div_lt_iff_lt_mul hVpos]
        exact hW
      rw [divLoop_succ_true hbo]
      obtain ⟨s1, s2, s3, s4, s5⟩ := divLoop_step hVpos hVltBn hjn1 hnu hzero hW
        ab_len ab_dig hYval hd2 ih
      exact ⟨s1, s2, s3, s4, fun _ => s5⟩

/-- div(const Unsigned&, const Unsigned&) — Knuth Algorithm D. Returns none
for a zero divisor (the source throws); otherwise the quotient/remainder
pair. The divisor normalization shift ls and the two top normalized divisor
digits are computed exactly as in D1, and the dividend gets one extra zero
digit appended. -/
def divD (u v : List ℕ) : Option (List ℕ × List ℕ) :=
  if v.length = 0 then none
  else if u.length < v.length then some ([], u)
  else if v.length = 1 then
    some ((divremByDigit u (v.getD 0 0)).1, rlz [(divremByDigit u (v.getD 0 0)).2])
  else
    some
      (rlz
        (divLoop v (clzTop v)
          (if clzTop v = 0 then v.getD (v.length - 1) 0
          else
            v.getD (v.length - 1) 0 * 2 ^ clzTop v % B |||
              v.getD (v.length - 2) 0 / 2 ^ (32 - clzTop v))
          (if clzTop v = 0 then v.getD (v.length - 2) 0
          else
            v.getD (v.length - 2) 0 * 2 ^ clzTop v % B |||
              (if 2 < v.length then v.getD (v.length - 3) 0 / 2 ^ (32 - clzTop v)
              else 0))
          (u.length - v.length + 1) (u ++ [0])).1,
      rlz
        (divLoop v (clzTop v)
          (if clzTop v = 0 then v.getD (v.length - 1) 0
          else
            v.getD (v.length - 1) 0 * 2 ^ clzTop v % B |||
              v.getD (v.length - 2) 0 / 2 ^ (32 - clzTop v))
          (if clzTop v = 0 then v.getD (v.length - 2) 0
          else
            v.getD (v.length - 2) 0 * 2 ^ clzTop v % B |||
              (if 2 < v.length then v.getD (v.length - 3) 0 / 2 ^ (32 - clzTop v)
              else 0))
          (u.length - v.length + 1) (u ++ [0])).2)


theorem divD_spec {u v : List ℕ} (hu : Canon u) (hv : Canon v) (hne : v ≠ []) :
    ∃ q r, divD u v = some (q, r) ∧
      val u = val q * val v + val r ∧ val r < val v ∧ Canon q ∧ Canon r := by
  have hvl0 : ¬ v.length = 0 := by
    intro h0
    exact hne (List.length_eq_zero.mp h0)
  unfold divD
  rw [if_neg hvl0]
  by_cases hlt : u.length < v.length
  · rw [if_pos hlt]
    refine ⟨[], u, rfl, by simp, ?_, ?_, hu⟩
    · have h1 : val u < B ^ u.length := val_lt u hu.1
      have h2 : B ^ u.length ≤ B ^ (v.length - 1) :=
        Nat.pow_le_pow_right B_pos (by omega)
      have h3 := canon_le_val hv hne
      omega
    · refine ⟨?_, ?_⟩
      · intro x hx
        exact absurd hx (List.not_mem_nil x)
      · simp
  · rw [if_neg hlt]
    by_cases h1 : v.length = 1
    · rw [if_pos h1]
      obtain ⟨d, hd⟩ := List.length_eq_one.mp h1
      subst hd
      have hdB : d < B := hv.1 d (by simp)
      have hd0 : d ≠ 0 := by
        intro h0
        apply hv.2
        rw [h0]
        simp
      have hdpos : 0 < d := Nat.pos_of_ne_zero hd0
      obtain ⟨q1, q2, q3⟩ := divremByDigit_spec hu hdpos hdB
      have hvald : val [d] = d := by simp
      simp only [List.getD_cons_zero]
      have hr : val (rlz [(divremByDigit u d).2]) = (divremByDigit u d).2 := by
        rw [rlz_val]
        simp
      refine ⟨_, _, rfl, ?_, ?_, q3, ?_⟩
      · rw [hvald, q1, hr, q2]
        have h2 := Nat.div_add_mod (val u) d
        have hc : d * (val u / d) = val u / d * d := Nat.mul_comm _ _
        omega
      · rw [hr, hvald, q2]
        exact Nat.mod_lt _ hdpos
      · apply rlz_canon
        intro x hx
        have hx2 : x = (divremByDigit u d).2 := by simpa using hx
        rw [hx2, q2]
        have h3 := Nat.mod_lt (val u) hdpos
        omega
    · rw [if_neg h1]
      have hn : 2 ≤ v.length := by omega
      have hul : v.length ≤ u.length := by omega
      obtain ⟨hb_lo, hb_hi, hcl31⟩ := bitsD_spec hv hne
      have hls : clzTop v < 32 := by omega
      have hBn : B ^ v.length = 2 ^ (32 * v.length) := pow_B _
      have hbits : bitsD v = 32 * v.length - clzTop v := rfl
      have hNV2 : val v * 2 ^ clzTop v < B ^ v.length := by
        calc val v * 2 ^ clzTop v < 2 ^ bitsD v * 2 ^ clzTop v :=
              (Nat.mul_lt_mul_right (Nat.pos_pow_of_pos _ (by norm_num))).mpr hb_hi
          _ = 2 ^ (bitsD v + clzTop v) := by rw [← Nat.pow_add]
          _ = 2 ^ (32 * v.length) := by
              congr 1
              rw [hbits]
              omega
          _ = B ^ v.length := hBn.symm
      have hNV1 : B ^ v.length ≤ 2 * (val v * 2 ^ clzTop v) := by
        have h2 : 2 ^ (bitsD v - 1) * (2 * 2 ^ clzTop v) ≤ val v * (2 * 2 ^ clzTop v) :=
          Nat.mul_le_mul_right _ hb_lo
        have h3 : 2 ^ (bitsD v - 1) * (2 * 2 ^ clzTop v) = 2 ^ (32 * v.length) := by
          rw [← Nat.pow_succ', ← Nat.pow_add]
          congr 1
          rw [hbits]
          omega
        have h4 : val v * (2 * 2 ^ clzTop v) = 2 * (val v * 2 ^ clzTop v) := by ring
        omega
      have hvn1 : (if clzTop v = 0 then v.getD (v.length - 1) 0
          else v.getD (v.length - 1) 0 * 2 ^ clzTop v % B |||
            v.getD (v.length - 2) 0 / 2 ^ (32 - clzTop v)) =
          val v * 2 ^ clzTop v / B ^ (v.length - 1) % B := by
        by_cases h0 : clzTop v = 0
        · rw [if_pos h0, h0, pow_zero, Nat.mul_one]
          exact digits_getD v hv.1 (v.length - 1)
        · rw [if_neg h0]
          have he : v.length - 2 = v.length - 1 - 1 := by omega
          rw [he]
          exact shl_digit_val hv.1 (Nat.pos_of_ne_zero h0) hls (v.length - 1) (by omega)
      have hvn2 : (if clzTop v = 0 then v.getD (v.length - 2) 0
          else v.getD (v.length - 2) 0 * 2 ^ clzTop v % B |||
            (if 2 < v.length then v.getD (v.length - 3) 0 / 2 ^ (32 - clzTop v)
            else 0)) =
          val v * 2 ^ clzTop v / B ^ (v.length - 2) % B := by
        by_cases h0 : clzTop v = 0
        · rw [if_pos h0, h0, pow_zero, Nat.mul_one]
          exact digits_getD v hv.1 (v.length - 2)
        · rw [if_neg h0]
          by_cases h2 : 2 < v.length
          · rw [if_pos h2]
            have he : v.length - 3 = v.length - 2 - 1 := by omega
            rw [he]
            exact shl_digit_val hv.1 (Nat.pos_of_ne_zero h0) hls (v.length - 2) (by omega)
          · rw [if_neg h2]
            have he : v.length - 2 = 0 := by omega
            rw [he, Nat.or_zero, pow_zero, Nat.div_one]
            exact shl_digit0 hv.1 _
      have hV2 : (if clzTop v = 0 then v.getD (v.length - 1) 0
          else v.getD (v.length - 1) 0 * 2 ^ clzTop v % B |||
            v.getD (v.length - 2) 0 / 2 ^ (32 - clzTop v)) * B +
          (if clzTop v = 0 then v.getD (v.length - 2) 0
          else v.getD (v.length - 2) 0 * 2 ^ clzTop v % B |||
            (if 2 < v.length then v.getD (v.length - 3) 0 / 2 ^ (32 - clzTop v)
            else 0)) =
          val v * 2 ^ clzTop v / B ^ (v.length - 2) := by
        rw [hvn1, hvn2]
        have he : v.length - 1 = v.length - 2 + 1 := by omega
        rw [he]
        have hb : val v * 2 ^ clzTop v < B ^ (v.length - 2 + 2) := by
          have he2 : v.length - 2 + 2 = v.length := by omega
          rw [he2]
          exact hNV2
        exact two_digits _ _ hb
      have hdivlt : val v * 2 ^ clzTop v / B ^ (v.length - 1) < B := by
        rw [Nat.div_lt_iff_lt_mul (Nat.pos_pow_of_pos _ B_pos)]
        have he : B * B ^ (v.length - 1) = B ^ v.length := by
          rw [← Nat.pow_succ']
          congr 1
          omega
        have hcm : val v * 2 ^ clzTop v < B * B ^ (v.length - 1) := by
          rw [he]
          exact hNV2
        have hcm2 : B * B ^ (v.length - 1) = B ^ (v.length - 1) * B := Nat.mul_comm _ _
        omega
      have h31' : 2 ^ 31 ≤ val v * 2 ^ clzTop v / B ^ (v.length - 1) := by
        rw [Nat.le_div_iff_mul_le (Nat.pos_pow_of_pos _ B_pos)]
        have he : 2 ^ 31 * B ^ (v.length - 1) * 2 = B ^ v.length := by
          rw [pow_B (v.length - 1), pow_B v.length, ← Nat.pow_add, ← Nat.pow_succ]
          congr 1
          omega
        omega
      have h31 : 2 ^ 31 ≤ (if clzTop v = 0 then v.getD (v.length - 1) 0
          else v.getD (v.length - 1) 0 * 2 ^ clzTop v % B |||
            v.getD (v.length - 2) 0 / 2 ^ (32 - clzTop v)) := by
        rw [hvn1, Nat.mod_eq_of_lt hdivlt]
        exact h31'
      have hv1B : (if clzTop v = 0 then v.getD (v.length - 1) 0
          else v.getD (v.length - 1) 0 * 2 ^ clzTop v % B |||
            v.getD (v.length - 2) 0 / 2 ^ (32 - clzTop v)) < B := by
        rw [hvn1]
        exact Nat.mod_lt _ B_pos
      have hv2B : (if clzTop v = 0 then v.getD (v.length - 2) 0
          else v.getD (v.length - 2) 0 * 2 ^ clzTop v % B |||
            (if 2 < v.length then v.getD (v.length - 3) 0 / 2 ^ (32 - clzTop v)
            else 0)) < B := by
        rw [hvn2]
        exact Nat.mod_lt _ B_pos
      have hnulen : (u ++ [0]).length = u.length + 1 := by simp
      have hnudig : ∀ x ∈ u ++ [0], x < B := by
        intro x hx
        rcases List.mem_append.mp hx with hx1 | hx2
        · exact hu.1 x hx1
        · have hx3 : x = 0 := by simpa using hx2
          rw [hx3]
          exact B_pos
      have hnuzero : ∀ p, u.length - v.length + 1 + v.length ≤ p →
          (u ++ [0]).getD p 0 = 0 := by
        intro p hp
        have hplen : (u ++ [0]).length ≤ p := by
          rw [hnulen]
          omega
        rw [List.getD_eq_getElem?_getD, List.getElem?_eq_none hplen]
        rfl
      have hwin : 1 ≤ u.length - v.length + 1 →
          val (((u ++ [0]).drop (u.length - v.length + 1 - 1)).take (v.length + 1)) <
            B * val v := by
        intro _
        simp only [Nat.add_sub_cancel]
        have hd1 : (u ++ [0]).drop (u.length - v.length) =
            u.drop (u.length - v.length) ++ [0] := by
          rw [List.drop_append_eq_append_drop]
          have h2 : u.length - v.length - u.length = 0 := by omega
          rw [h2, List.drop_zero]
        have hdl : (u.drop (u.length - v.length)).length = v.length := by
          rw [List.length_drop]
          omega
        have ht1 : (u.drop (u.length - v.length) ++ [0]).take (v.length + 1) =
            u.drop (u.length - v.length) ++ [0] := by
          apply List.take_of_length_le
          rw [List.length_append, hdl]
          simp
        have hval2 : val (u.drop (u.length - v.length) ++ [0]) =
            val (u.drop (u.length - v.length)) := by
          rw [val_append]
          simp
        have hvd : val (u.drop (u.length - v.length)) < B ^ v.length := by
          have h3 := val_lt (u.drop (u.length - v.length))
            (fun x hx => hu.1 x (List.drop_subset _ _ hx))
          rwa [hdl] at h3
        have hBv : B ^ v.length ≤ B * val v := by
          have h3 := canon_le_val hv hne
          have h4 : B * B ^ (v.length - 1) = B ^ v.length := by
            rw [← Nat.pow_succ']
            congr 1
            omega
          have h5 : B * B ^ (v.length - 1) ≤ B * val v :=
            Nat.mul_le_mul_left _ h3
          omega
        rw [hd1, ht1, hval2]
        omega
      obtain ⟨d1, d2, d3, d4, d5⟩ := divLoop_spec hv.1 hn hls hNV1 hNV2 hV2 h31 hv1B hv2B
        (u.length - v.length + 1) (u ++ [0]) (by rw [hnulen] ; omega) hnudig hnuzero hwin
      have hvu : val (u ++ [0]) = val u := by
        rw [val_append]
        simp
      refine ⟨_, _, rfl, ?_, ?_, rlz_canon d2, rlz_canon d3⟩
      · rw [rlz_val, rlz_val]
        rw [hvu] at d4
        have hc : val v * val (divLoop v (clzTop v)
            (if clzTop v = 0 then v.getD (v.length - 1) 0
            else v.getD (v.length - 1) 0 * 2 ^ clzTop v % B |||
              v.getD (v.length - 2) 0 / 2 ^ (32 - clzTop v))
            (if clzTop v = 0 then v.getD (v.length - 2) 0
            else v.getD (v.length - 2) 0 * 2 ^ clzTop v % B |||
              (if 2 < v.length then v.getD (v.length - 3) 0 / 2 ^ (32 - clzTop v)
              else 0))
            (u.length - v.length + 1) (u ++ [0])).1 =
            val (divLoop v (clzTop v)
            (if clzTop v = 0 then v.getD (v.length - 1) 0
            else v.getD (v.length - 1) 0 * 2 ^ clzTop v % B |||
              v.getD (v.length - 2) 0 / 2 ^ (32 - clzTop v))
            (if clzTop v = 0 then v.getD (v.length - 2) 0
            else v.getD (v.length - 2) 0 * 2 ^ clzTop v % B |||
              (if 2 < v.length then v.getD (v.length - 3) 0 / 2 ^ (32 - clzTop v)
              else 0))
            (u.length - v.length + 1) (u ++ [0])).1 * val v := Nat.mul_comm _ _
        omega
      · rw [rlz_val]
        exact d5 (by omega)

/-- C1: For all natural numbers u and all non-zero natural numbers v (as
canonical digit lists), div(u, v) returns a quotient q and remainder r with
u = q*v + r and r < v — Knuth Algorithm D with quotient-digit estimation,
correction by at most one add-back, and an un-normalized remainder. -/
theorem claim_C1 {u v : List ℕ} (hu : Canon u) (hv : Canon v) (hne : v ≠ []) :
    ∃ q r, divD u v = some (q, r) ∧
      val u = val q * val v + val r ∧ val r < val v ∧ Canon q ∧ Canon r :=
  divD_spec hu hv hne

/-- Witness for C1 at u = [5, 7], v = [3, 1] (two-digit divisor, exercising
the Algorithm D main loop). -/
theorem claim_C1_witness :
    Canon [5, 7] ∧ Canon [3, 1] ∧ ([3, 1] : List ℕ) ≠ [] ∧
      (∃ q r, divD [5, 7] [3, 1] = some (q, r) ∧
        val [5, 7] = val q * val [3, 1] + val r ∧ val r < val [3, 1] ∧
        Canon q ∧ Canon r) :=
  ⟨by decide, by decide, by decide, claim_C1 (by decide) (by decide) (by decide)⟩

/-- Unsigned::ctz — count trailing zero bits: 32 for every zero low digit,
plus countTrailingZeroes of the first non-zero digit (0 for the empty
magnitude). -/
def ctzD : List ℕ → ℕ
  | [] => 0
  | d :: rest => if d = 0 then 32 + ctzD rest else ctz32 d

/-- egcd inner while loop: Euclid by repeated remainder (operator% is
div(u,v).rem), with explicit fuel; returns none on fuel exhaustion or a zero
divisor reaching div. -/
def egcdLoop : ℕ → List ℕ → List ℕ → Option (List ℕ)
  | 0, _, _ => none
  | fuel + 1, a, b =>
    if b = [] then some a
    else
      match divD a b with
      | none => none
      | some p => egcdLoop fuel b p.2

/-- egcd(const Unsigned&, const Unsigned&) — orders the operands so the loop
starts with a ≥ b, then runs Euclid. -/
def egcd (u v : List ℕ) : Option (List ℕ) :=
  if !ltDigits u v then egcdLoop (val v + 1) u v else egcdLoop (val u + 1) v u

/-- bgcd do-while loop: strip trailing zero bits of wv, swap so wu ≤ wv,
subtract, and repeat until the difference is zero; wu stays odd throughout. -/
def bgcdLoop : ℕ → List ℕ → List ℕ → Option (List ℕ)
  | 0, _, _ => none
  | fuel + 1, wu, wv =>
    match subDigits (if ltDigits (shrDigits wv (ctzD wv)) wu
        then wu else shrDigits wv (ctzD wv))
      (if ltDigits (shrDigits wv (ctzD wv)) wu
        then shrDigits wv (ctzD wv) else wu) with
    | none => none
    | some wv3 =>
      if wv3 = [] then
        some (if ltDigits (shrDigits wv (ctzD wv)) wu
          then shrDigits wv (ctzD wv) else wu)
      else
        bgcdLoop fuel
          (if ltDigits (shrDigits wv (ctzD wv)) wu
            then shrDigits wv (ctzD wv) else wu) wv3

/-- bgcd(const Unsigned&, const Unsigned&) — binary GCD: empty operands
short-circuit, otherwise both operands are right-shifted (wu fully, wv by
the common power of two), the subtraction loop runs, and the common power of
two is shifted back in. -/
def bgcd (u v : List ℕ) : Option (List ℕ) :=
  if u = [] then some v
  else if v = [] then some u
  else
    (bgcdLoop (val (shrDigits u (ctzD u)) + val (shrDigits v (min (ctzD u) (ctzD v))))
        (shrDigits u (ctzD u)) (shrDigits v (min (ctzD u) (ctzD v)))).map
      (fun g => shlDigits g (min (ctzD u) (ctzD v)))

theorem val_zero_canon : ∀ {l : List ℕ}, Canon l → val l = 0 → l = [] := by
  intro l
  induction l with
  | nil => intro _ _ ; rfl
  | cons a t ih =>
    intro h h0
    rw [val_cons] at h0
    have ha : a = 0 := by
      have := B_pos
      omega
    have ht : val t = 0 := by
      have := B_pos
      have h2 : B * val t = 0 := by omega
      rcases Nat.mul_eq_zero.mp h2 with h3 | h3
      · omega
      · exact h3
    have ht2 : t = [] := ih h.tail ht
    subst ht2
    subst ha
    exact absurd (by simp : ([0] : List ℕ).getLast? = some 0) h.2

theorem val_pos_of_canon_ne {l : List ℕ} (h : Canon l) (hne : l ≠ []) :
    0 < val l := by
  have h1 := canon_le_val h hne
  have h2 := Nat.pos_pow_of_pos (l.length - 1) B_pos
  omega

theorem ctzD_spec : ∀ {l : List ℕ}, Canon l → l ≠ [] →
    2 ^ ctzD l ∣ val l ∧ val l / 2 ^ ctzD l % 2 = 1 := by
  intro l
  induction l with
  | nil => intro _ h ; exact absurd rfl h
  | cons a t ih =>
    intro h _
    by_cases ha : a = 0
    · subst ha
      have htne : t ≠ [] := by
        intro h0
        subst h0
        exact absurd (by simp : ([0] : List ℕ).getLast? = some 0) h.2
      obtain ⟨d1, o1⟩ := ih h.tail htne
      have hv : val (0 :: t) = 2 ^ 32 * val t := by
        rw [val_cons]
        have hB : B = 2 ^ 32 := rfl
        rw [hB]
        omega
      have hc : ctzD (0 :: t) = 32 + ctzD t := by
        simp [ctzD]
      rw [hc, hv]
      constructor
      · rw [Nat.pow_add]
        exact Nat.mul_dvd_mul_left _ d1
      · rw [Nat.pow_add, ← Nat.div_div_eq_div_mul,
          Nat.mul_div_cancel_left _ (Nat.pos_pow_of_pos 32 (by norm_num))]
        exact o1
    · have haB : a < B := h.1 a (by simp)
      have hapos : 0 < a := Nat.pos_of_ne_zero ha
      obtain ⟨d1, o1⟩ := ctz32_spec hapos haB
      have hc : ctzD (a :: t) = ctz32 a := by
        simp [ctzD, ha]
      have hc32 : ctz32 a < 32 := by
        by_contra hge
        push_neg at hge
        have h1 : (2 : ℕ) ^ 32 ≤ 2 ^ ctz32 a := Nat.pow_le_pow_right (by norm_num) hge
        have h2 : 2 ^ ctz32 a ≤ a := Nat.le_of_dvd hapos d1
        have hB : B = 2 ^ 32 := rfl
        omega
      rw [hc, val_cons]
      have hB : B = 2 ^ 32 := rfl
      have hsplit : (2 : ℕ) ^ 32 = 2 ^ ctz32 a * 2 ^ (32 - ctz32 a) := by
        rw [← Nat.pow_add]
        congr 1
        omega
      have ha2 : 2 ^ ctz32 a * (a / 2 ^ ctz32 a) = a := Nat.mul_div_cancel' d1
      have hv : a + B * val t =
          2 ^ ctz32 a * (a / 2 ^ ctz32 a + 2 ^ (32 - ctz32 a) * val t) := by
        conv_lhs => rw [← ha2]
        rw [hB, hsplit]
        ring
      constructor
      · rw [hv]
        exact ⟨_, rfl⟩
      · rw [hv, Nat.mul_div_cancel_left _ (Nat.pos_pow_of_pos _ (by norm_num))]
        have he : 2 ^ (32 - ctz32 a) * val t = 2 * (2 ^ (32 - ctz32 a - 1) * val t) := by
          rw [← Nat.mul_assoc]
          congr 1
          rw [← Nat.pow_succ']
          congr 1
          omega
        rw [he, Nat.mul_comm 2 (2 ^ (32 - ctz32 a - 1) * val t),
          Nat.add_mul_mod_self_right]
        exact o1

theorem egcdLoop_spec : ∀ (fuel : ℕ) (a b : List ℕ), Canon a → Canon b →
    val b < fuel →
    ∃ g, egcdLoop fuel a b = some g ∧ Canon g ∧
      val g = Nat.gcd (val b) (val a) := by
  intro fuel
  induction fuel with
  | zero =>
    intro a b _ _ hf
    omega
  | succ fuel ih =>
    intro a b ha hb hf
    by_cases hne : b = []
    · subst hne
      refine ⟨a, ?_, ha, ?_⟩
      · simp [egcdLoop]
      · rw [show val ([] : List ℕ) = 0 from rfl, Nat.gcd_zero_left]
    · obtain ⟨q, r, hdiv, heq, hlt, hcq, hcr⟩ := divD_spec ha hb hne
      have hrmod : val r = val a % val b := by
        have h1 : val a % val b = (val q * val b + val r) % val b := by rw [← heq]
        rw [Nat.mul_comm (val q) (val b), Nat.mul_add_mod, Nat.mod_eq_of_lt hlt] at h1
        exact h1.symm
      have hbpos : 0 < val b := val_pos_of_canon_ne hb hne
      obtain ⟨g, hg, hcg, hvg⟩ := ih b r hb hcr (by omega)
      refine ⟨g, ?_, hcg, ?_⟩
      · simp only [egcdLoop, if_neg hne, hdiv]
        exact hg
      · rw [hvg, hrmod, ← Nat.gcd_rec]

theorem egcd_spec {u v : List ℕ} (hu : Canon u) (hv : Canon v) :
    ∃ g, egcd u v = some g ∧ Canon g ∧ val g = Nat.gcd (val u) (val v) := by
  unfold egcd
  by_cases hlt : ltDigits u v
  · rw [hlt]
    obtain ⟨g, hg, hcg, hvg⟩ := egcdLoop_spec (val u + 1) v u hv hu (by omega)
    exact ⟨g, by simpa using hg, hcg, by rw [hvg, Nat.gcd_comm]⟩
  · rw [Bool.not_eq_true] at hlt
    rw [hlt]
    obtain ⟨g, hg, hcg, hvg⟩ := egcdLoop_spec (val v + 1) u v hu hv (by omega)
    exact ⟨g, by simpa using hg, hcg, by rw [hvg, Nat.gcd_comm]⟩

theorem gcd_sub_right {m n : ℕ} (h : m ≤ n) : Nat.gcd m (n - m) = Nat.gcd m n := by
  apply Nat.dvd_antisymm
  · apply Nat.dvd_gcd (Nat.gcd_dvd_left _ _)
    have h1 := Nat.gcd_dvd_left m (n - m)
    have h2 := Nat.gcd_dvd_right m (n - m)
    have h3 : Nat.gcd m (n - m) ∣ n - m + m := Nat.dvd_add h2 h1
    rwa [Nat.sub_add_cancel h] at h3
  · apply Nat.dvd_gcd (Nat.gcd_dvd_left _ _)
    exact Nat.dvd_sub' (Nat.gcd_dvd_right _ _) (Nat.gcd_dvd_left _ _)

theorem coprime_pow_two_of_odd {k n : ℕ} (h : n % 2 = 1) :
    Nat.Coprime (2 ^ k) n := by
  apply Nat.Coprime.pow_left
  rw [Nat.Prime.coprime_iff_not_dvd Nat.prime_two]
  intro hdvd
  obtain ⟨c, rfl⟩ := hdvd
  rw [Nat.mul_mod_right] at h
  omega

theorem bgcdLoop_spec : ∀ (fuel : ℕ) (wu wv : List ℕ), Canon wu → wu ≠ [] →
    val wu % 2 = 1 → Canon wv → wv ≠ [] → val wu + val wv ≤ fuel →
    ∃ g, bgcdLoop fuel wu wv = some g ∧ Canon g ∧
      val g = Nat.gcd (val wu) (val wv) := by
  intro fuel
  induction fuel with
  | zero =>
    intro wu wv hcu hnu _ hcv hnv hf
    have h1 := val_pos_of_canon_ne hcu hnu
    have h2 := val_pos_of_canon_ne hcv hnv
    omega
  | succ fuel ih =>
    intro wu wv hcu hnu hou hcv hnv hf
    obtain ⟨dv, ov⟩ := ctzD_spec hcv hnv
    obtain ⟨hs1, hc1⟩ := shrDigits_spec hcv (ctzD wv)
    have hupos := val_pos_of_canon_ne hcu hnu
    have hvpos := val_pos_of_canon_ne hcv hnv
    have hv1pos : 0 < val (shrDigits wv (ctzD wv)) := by
      rw [hs1]
      omega
    have hn1 : shrDigits wv (ctzD wv) ≠ [] := by
      intro h0
      rw [h0] at hv1pos
      simp at hv1pos
    have hle1 : val (shrDigits wv (ctzD wv)) ≤ val wv := by
      rw [hs1]
      exact Nat.div_le_self _ _
    have hgcd1 : Nat.gcd (val wu) (val wv) =
        Nat.gcd (val wu) (val (shrDigits wv (ctzD wv))) := by
      rw [hs1]
      conv_lhs => rw [← Nat.mul_div_cancel' dv]
      exact Nat.Coprime.gcd_mul_left_cancel_right _ (coprime_pow_two_of_odd hou)
    by_cases hlt : val (shrDigits wv (ctzD wv)) < val wu
    · have hsw : ltDigits (shrDigits wv (ctzD wv)) wu = true := by
        rw [ltDigits_spec hc1 hcu]
        exact decide_eq_true hlt
      obtain ⟨r, hsub, hval, hcr⟩ := (subDigits_spec hcu hc1).1 (by omega)
      have hrpos : 0 < val r := by omega
      have hrne : r ≠ [] := by
        intro h0
        rw [h0] at hrpos
        simp at hrpos
      have hstep : bgcdLoop (fuel + 1) wu wv =
          bgcdLoop fuel (shrDigits wv (ctzD wv)) r := by
        simp [bgcdLoop, hsw, hsub, hrne]
      obtain ⟨g, hg, hcg, hvg⟩ := ih (shrDigits wv (ctzD wv)) r hc1 hn1
        (by rw [hs1] ; exact ov) hcr hrne (by omega)
      refine ⟨g, by rw [hstep] ; exact hg, hcg, ?_⟩
      rw [hvg, hval, gcd_sub_right (Nat.le_of_lt hlt),
        Nat.gcd_comm (val (shrDigits wv (ctzD wv))) (val wu), ← hgcd1]
    · have hge : val wu ≤ val (shrDigits wv (ctzD wv)) := by omega
      have hsw : ltDigits (shrDigits wv (ctzD wv)) wu = false := by
        rw [ltDigits_spec hc1 hcu]
        exact decide_eq_false (by omega)
      obtain ⟨r, hsub, hval, hcr⟩ := (subDigits_spec hc1 hcu).1 hge
      by_cases hr0 : r = []
      · have hval0 : (0 : ℕ) = val (shrDigits wv (ctzD wv)) - val wu := by
          rw [← hval, hr0, val_nil]
        have hveq : val (shrDigits wv (ctzD wv)) = val wu := by omega
        have hstep : bgcdLoop (fuel + 1) wu wv = some wu := by
          simp [bgcdLoop, hsw, hsub, hr0]
        refine ⟨wu, hstep, hcu, ?_⟩
        rw [hgcd1, hveq]
        exact (Nat.gcd_self _).symm
      · have hstep : bgcdLoop (fuel + 1) wu wv = bgcdLoop fuel wu r := by
          simp [bgcdLoop, hsw, hsub, hr0]
        have hrpos : 0 < val r := val_pos_of_canon_ne hcr hr0
        obtain ⟨g, hg, hcg, hvg⟩ := ih wu r hcu hnu hou hcr hr0 (by omega)
        refine ⟨g, by rw [hstep] ; exact hg, hcg, ?_⟩
        rw [hvg, hval, gcd_sub_right hge, ← hgcd1]

theorem gcd_shift_eq {x y cu cv : ℕ}
    (hdu : 2 ^ cu ∣ x) (hdv : 2 ^ cv ∣ y)
    (hov : y / 2 ^ cv % 2 = 1) :
    Nat.gcd (x / 2 ^ cu) (y / 2 ^ min cu cv) * 2 ^ min cu cv =
      Nat.gcd x y := by
  rcases Nat.le_total cu cv with hc | hc
  · have hs : min cu cv = cu := Nat.min_eq_left hc
    rw [hs]
    have hdv2 : 2 ^ cu ∣ y := dvd_trans (Nat.pow_dvd_pow 2 hc) hdv
    rw [Nat.mul_comm, ← Nat.gcd_mul_left, Nat.mul_div_cancel' hdu,
      Nat.mul_div_cancel' hdv2]
  · have hs : min cu cv = cv := Nat.min_eq_right hc
    rw [hs]
    have hdu2 : 2 ^ cv ∣ x := dvd_trans (Nat.pow_dvd_pow 2 hc) hdu
    obtain ⟨x1, hx1⟩ := hdu
    have hx2 : x / 2 ^ cu = x1 := by
      rw [hx1, Nat.mul_div_cancel_left _ (Nat.pos_pow_of_pos _ (by norm_num))]
    have hsplit : (2 : ℕ) ^ cu = 2 ^ cv * 2 ^ (cu - cv) := by
      rw [← Nat.pow_add]
      congr 1
      omega
    have hx : x / 2 ^ cv = 2 ^ (cu - cv) * (x / 2 ^ cu) := by
      rw [hx2, hx1, hsplit, Nat.mul_assoc,
        Nat.mul_div_cancel_left _ (Nat.pos_pow_of_pos _ (by norm_num))]
    have h1 : Nat.gcd x y = 2 ^ cv * Nat.gcd (x / 2 ^ cv) (y / 2 ^ cv) := by
      conv_lhs => rw [← Nat.mul_div_cancel' hdu2, ← Nat.mul_div_cancel' hdv]
      exact Nat.gcd_mul_left _ _ _
    have h2 : Nat.gcd (x / 2 ^ cv) (y / 2 ^ cv) =
        Nat.gcd (x / 2 ^ cu) (y / 2 ^ cv) := by
      rw [hx]
      exact Nat.Coprime.gcd_mul_left_cancel _ (coprime_pow_two_of_odd hov)
    rw [h1, h2, Nat.mul_comm]

theorem bgcd_spec {u v : List ℕ} (hu : Canon u) (hv : Canon v) :
    ∃ g, bgcd u v = some g ∧ Canon g ∧ val g = Nat.gcd (val u) (val v) := by
  unfold bgcd
  by_cases hu0 : u = []
  · rw [if_pos hu0]
    refine ⟨v, rfl, hv, ?_⟩
    rw [hu0, show val ([] : List ℕ) = 0 from rfl, Nat.gcd_zero_left]
  · rw [if_neg hu0]
    by_cases hv0 : v = []
    · rw [if_pos hv0]
      refine ⟨u, rfl, hu, ?_⟩
      rw [hv0, show val ([] : List ℕ) = 0 from rfl, Nat.gcd_zero_right]
    · rw [if_neg hv0]
      obtain ⟨du, ou⟩ := ctzD_spec hu hu0
      obtain ⟨dv, ov⟩ := ctzD_spec hv hv0
      obtain ⟨hsu, hcu2⟩ := shrDigits_spec hu (ctzD u)
      obtain ⟨hsv, hcv2⟩ := shrDigits_spec hv (min (ctzD u) (ctzD v))
      have hupos : 0 < val u := val_pos_of_canon_ne hu hu0
      have hvpos : 0 < val v := val_pos_of_canon_ne hv hv0
      have hwupos : 0 < val (shrDigits u (ctzD u)) := by
        rw [hsu]
        omega
      have hwune : shrDigits u (ctzD u) ≠ [] := by
        intro h0
        rw [h0] at hwupos
        simp at hwupos
      have hminle : (2 : ℕ) ^ min (ctzD u) (ctzD v) ≤ val v := by
        have h1 : (2 : ℕ) ^ min (ctzD u) (ctzD v) ≤ 2 ^ ctzD v :=
          Nat.pow_le_pow_right (by norm_num) (Nat.min_le_right _ _)
        have h2 : (2 : ℕ) ^ ctzD v ≤ val v := Nat.le_of_dvd hvpos dv
        omega
      have hwvpos : 0 < val (shrDigits v (min (ctzD u) (ctzD v))) := by
        rw [hsv]
        exact Nat.div_pos hminle (Nat.pos_pow_of_pos _ (by norm_num))
      have hwvne : shrDigits v (min (ctzD u) (ctzD v)) ≠ [] := by
        intro h0
        rw [h0] at hwvpos
        simp at hwvpos
      have hodd : val (shrDigits u (ctzD u)) % 2 = 1 := by
        rw [hsu]
        exact ou
      obtain ⟨g, hg, hcg, hvg⟩ := bgcdLoop_spec
        (val (shrDigits u (ctzD u)) + val (shrDigits v (min (ctzD u) (ctzD v))))
        (shrDigits u (ctzD u)) (shrDigits v (min (ctzD u) (ctzD v)))
        hcu2 hwune hodd hcv2 hwvne (Nat.le_refl _)
      refine ⟨shlDigits g (min (ctzD u) (ctzD v)), ?_, ?_, ?_⟩
      · rw [hg]
        rfl
      · exact (shlDigits_spec hcg _).2
      · rw [(shlDigits_spec hcg _).1, hvg, hsu, hsv]
        exact gcd_shift_eq du dv ov

end BN
